import Mathlib

/-!
# Ricochet-robots solver: embedding of `project.cpp`

The development follows the source file top-down: the grid model (`Board`), the
state codec (`decode` / `encode`), the slide simulator (`Solver.simulateMove`),
the breadth-first search (`Solver.solve_sequential`) and the path reconstruction
(`Solver.reconstructPathSequential`); then the methods that build a board
(`Board.addWall`, `Board.setTarget`, ...) and the concurrent engine (`Solver.solve`).

Conventions of the embedding.

* C++ `int` coordinates are `Int`; no arithmetic on them can overflow, because a
  coordinate is only incremented or decremented after `hasWall` has found it inside
  the grid.
* `State = uint64_t` is `Nat`; every key the codec produces is below `2 ^ 40`.
* `std::array<std::pair<int,int>, 5>` is a function `Fin 5 → Int × Int`.
* `std::map` / `std::unordered_map` are partial functions (`key → Option value`).
* `while (true)` loops take a fuel argument and return `none` when the fuel runs
  out; "the call returns `r`" is "some fuel gives `some r`".
* A method that mutates the board and may throw returns the board as the call leaves
  it, together with the exception, if any.
* A run of the concurrent engine is a sequence of atomic steps, one for each pass
  through the body of its double loop; the steps of a level come in any order.
-/

namespace Ricochet

/-! ## Directions and deflector orientations -/

/-- The four slide directions (`enum class Direction`). -/
inductive Direction
  | UP
  | DOWN
  | LEFT
  | RIGHT
  deriving DecidableEq, Repr, Fintype

/-- The bit of a direction in a cell's wall mask (`1 << 0` … `1 << 3`). -/
def Direction.toMask : Direction → Nat
  | .UP => 1
  | .DOWN => 2
  | .LEFT => 4
  | .RIGHT => 8

/-- The two deflector orientations (`enum class DiagonalOrientation`). -/
inductive DiagonalOrientation
  | NW_SE
  | NE_SW
  deriving DecidableEq, Repr

/-! ## Board -/

/-- The fields of `class Board` that the solver reads.  `walls y x` is `walls[y][x]`,
`diagonalWalls x y` is the lookup of key `{x, y}` in the `diagonalWalls` map. -/
structure Board where
  width : Int
  height : Int
  walls : Int → Int → Nat
  targetX : Int
  targetY : Int
  targetColor : Char
  targetRobot : Int
  diagonalWalls : Int → Int → Option (Char × DiagonalOrientation)

/-- The constructor `Board(width, height)`: an all-zero wall matrix, no deflector, no
target.  Building the `height × width` matrix fails for a negative dimension. -/
def Board.new (width height : Int) : Option Board :=
  if width < 0 ∨ height < 0 then none
  else some
    { width := width, height := height, walls := fun _ _ => 0,
      targetX := -1, targetY := -1, targetColor := Char.ofNat 0, targetRobot := -1,
      diagonalWalls := fun _ _ => none }

/-- The bounds test shared by `hasWall`, `getDiagonalWallInfo`, `validateCoordinates`
and the slide loop: `x < 0 || x >= width || y < 0 || y >= height`. -/
def Board.outOfBounds (b : Board) (x y : Int) : Bool :=
  decide (x < 0) || decide (x ≥ b.width) || decide (y < 0) || decide (y ≥ b.height)

/-- The method `Board::hasWall`: a cell outside the grid is walled on every side. -/
def Board.hasWall (b : Board) (x y : Int) (dir : Direction) : Bool :=
  if b.outOfBounds x y then true
  else (b.walls y x &&& dir.toMask) != 0

/-- The method `Board::getDiagonalWallInfo`. -/
def Board.getDiagonalWallInfo (b : Board) (x y : Int) : Option (Char × DiagonalOrientation) :=
  if b.outOfBounds x y then none
  else b.diagonalWalls x y

/-- The method `Board::getRobotColor`: the `robotIndexToColor` table, `'?'` for any other
index. -/
def Board.getRobotColor (index : Nat) : Char :=
  match index with
  | 0 => 'R'
  | 1 => 'B'
  | 2 => 'G'
  | 3 => 'Y'
  | 4 => 'P'
  | _ => '?'

/-! ## State codec -/

/-- An encoded robot configuration (`using State = uint64_t`). -/
abbrev State := Nat

/-- A robot configuration (`std::array<std::pair<int, int>, 5>`). -/
abbrev Robots := Fin 5 → Int × Int

/-- The robot indices in loop order (`for (int i = 0; i < 5; ++i)`). -/
def allRobots : List (Fin 5) := [0, 1, 2, 3, 4]

/-- The body of the loop of `decode` for robot `i`. -/
def decodeAt (s : State) (i : Nat) : Int × Int :=
  let bits := (s >>> (8 * i)) &&& 0xFF
  let x := bits &&& 0x0F
  let y := (bits >>> 4) &&& 0x0F
  ((x : Int), (y : Int))

/-- The free function `decode`. -/
def decode (s : State) : Robots := fun i => decodeAt s i.val

/-- The value of `v & 0x0F` for a C++ `int` `v`, as an unsigned 64-bit value. -/
def low4 (v : Int) : Nat := (v % 16).toNat

/-- The body of the loop of `encode` for robot `i`: the two `s |= …` statements. -/
def encodeStep (robots : Robots) (s : State) (i : Fin 5) : State :=
  (s ||| (low4 (robots i).1 <<< (8 * i.val))) ||| (low4 (robots i).2 <<< (8 * i.val + 4))

/-- The free function `encode`. -/
def encode (robots : Robots) : State :=
  allRobots.foldl (encodeStep robots) 0

/-- The array assignment `temp_robots[i] = p` on a copy of `robots`. -/
def setRobot (robots : Robots) (i : Fin 5) (p : Int × Int) : Robots :=
  fun j => if j = i then p else robots j

/-- The method `Solver::encode(current_robots, robot_to_move, next_x, next_y)`. -/
def Solver.encode (current_robots : Robots) (robot_to_move : Fin 5) (next_x next_y : Int) :
    State :=
  Ricochet.encode (setRobot current_robots robot_to_move (next_x, next_y))

/-! ## Move simulator -/

/-- The deflection applied by `simulateMove` when it enters a deflector of another
colour (the two `if … else if` cascades on `entry_direction`). -/
def deflect (orientation : DiagonalOrientation) (entry_direction : Direction) : Direction :=
  match orientation with
  | .NW_SE =>
    if entry_direction = .RIGHT then .DOWN
    else if entry_direction = .LEFT then .UP
    else if entry_direction = .DOWN then .RIGHT
    else .LEFT
  | .NE_SW =>
    if entry_direction = .RIGHT then .UP
    else if entry_direction = .LEFT then .DOWN
    else if entry_direction = .DOWN then .LEFT
    else .RIGHT

/-- The `switch (current_move_dir)` of the slide loop: the next cell and the side of it
that faces back. -/
def nextCell (curr_x curr_y : Int) (dir : Direction) : Int × Int × Direction :=
  match dir with
  | .UP => (curr_x, curr_y - 1, .DOWN)
  | .DOWN => (curr_x, curr_y + 1, .UP)
  | .LEFT => (curr_x - 1, curr_y, .RIGHT)
  | .RIGHT => (curr_x + 1, curr_y, .LEFT)

/-- The collision loop of `simulateMove`: some robot other than the mover stands on
`(next_x, next_y)`. -/
def collision (current_robots : Robots) (moving_robot_index : Nat) (next_x next_y : Int) : Bool :=
  allRobots.any fun i =>
    decide (i.val ≠ moving_robot_index) &&
      (decide ((current_robots i).1 = next_x) && decide ((current_robots i).2 = next_y))

/-- The outcome of one iteration of the `while (true)` loop of `simulateMove`. -/
inductive SlideStep
  /-- A `break`: the loop is left and `{curr_x, curr_y}` is returned. -/
  | stop (x y : Int)
  /-- The next iteration starts with these values of `curr_x`, `curr_y`,
  `current_move_dir`. -/
  | go (x y : Int) (dir : Direction)
  deriving DecidableEq, Repr

/-- One iteration of the `while (true)` loop of `Solver::simulateMove`. -/
def slideStep (board : Board) (current_robots : Robots) (moving_robot_index : Nat)
    (curr_x curr_y : Int) (current_move_dir : Direction) : SlideStep :=
  if board.hasWall curr_x curr_y current_move_dir then .stop curr_x curr_y
  else
    let next_x := (nextCell curr_x curr_y current_move_dir).1
    let next_y := (nextCell curr_x curr_y current_move_dir).2.1
    let opposite_dir := (nextCell curr_x curr_y current_move_dir).2.2
    if board.outOfBounds next_x next_y then .stop curr_x curr_y
    else if board.hasWall next_x next_y opposite_dir then .stop curr_x curr_y
    else if collision current_robots moving_robot_index next_x next_y then .stop curr_x curr_y
    else
      match board.getDiagonalWallInfo next_x next_y with
      | some (wall_color, orientation) =>
        if wall_color ≠ Board.getRobotColor moving_robot_index then
          .go next_x next_y (deflect orientation current_move_dir)
        else .go next_x next_y current_move_dir
      | none => .go next_x next_y current_move_dir

/-- The `while (true)` loop of `Solver::simulateMove`, run for at most `fuel`
iterations. -/
def slideLoop (board : Board) (current_robots : Robots) (moving_robot_index : Nat) :
    Nat → Int → Int → Direction → Option (Int × Int)
  | 0, _, _, _ => none
  | fuel + 1, curr_x, curr_y, current_move_dir =>
    match slideStep board current_robots moving_robot_index curr_x curr_y current_move_dir with
    | .stop x y => some (x, y)
    | .go x y dir => slideLoop board current_robots moving_robot_index fuel x y dir

/-- The method `Solver::simulateMove(start_x, start_y, initial_dir, current_robots,
moving_robot_index)`, with the iteration bound `fuel`. -/
def Solver.simulateMove (board : Board) (fuel : Nat) (start_x start_y : Int)
    (initial_dir : Direction) (current_robots : Robots) (moving_robot_index : Nat) :
    Option (Int × Int) :=
  slideLoop board current_robots moving_robot_index fuel start_x start_y initial_dir

/-- The call `simulateMove(start_x, start_y, initial_dir, current_robots,
moving_robot_index)` returns `r`. -/
def Solver.SlideResult (board : Board) (start_x start_y : Int) (initial_dir : Direction)
    (current_robots : Robots) (moving_robot_index : Nat) (r : Int × Int) : Prop :=
  ∃ fuel, Solver.simulateMove board fuel start_x start_y initial_dir current_robots
    moving_robot_index = some r

/-! ## Search engine -/

/-- A solution step (`struct Move`); `robot = -1` marks the record of the initial
state. -/
structure Move where
  robot : Int
  dir : Direction
  deriving DecidableEq, Repr

/-- The record map `std::unordered_map<State, std::pair<State, Move>>`. -/
abbrev Visited := State → Option (State × Move)

/-- The empty record map. -/
def Visited.empty : Visited := fun _ => none

/-- The assignment `visited[k] = r`. -/
def Visited.insert (v : Visited) (k : State) (r : State × Move) : Visited :=
  fun s => if s = k then some r else v s

/-- The data members of `class Solver`.  The constructor only lets a target robot in
`0..4` through, so the member is typed by that range. -/
structure Solver where
  board : Board
  initial : State
  targetRobot : Fin 5

/-- The constructor `Solver(board, initial)`: it throws when the board's target robot
is not in `0..4`. -/
def Solver.new (board : Board) (initial : State) : Option Solver :=
  if h : board.targetRobot < 0 ∨ board.targetRobot ≥ 5 then none
  else some ⟨board, initial, ⟨board.targetRobot.toNat, by omega⟩⟩

/-- The method `Solver::checkSolution`. -/
def Solver.checkSolution (s : Solver) (st : State) : Bool :=
  decide ((decode st s.targetRobot).1 = s.board.targetX) &&
    decide ((decode st s.targetRobot).2 = s.board.targetY)

/-- The directions in the order of the inner loop of the expansion. -/
def allDirs : List Direction := [.UP, .DOWN, .LEFT, .RIGHT]

/-- The two containers the expansion mutates: the FIFO queue (front first) and the
record map. -/
structure Frontier where
  queue : List State
  visited : Visited

/-- The body of the double loop of `solve_sequential` for one robot and direction:
simulate, skip a zero displacement, encode, record and enqueue a state not yet
recorded.  `none` when the slide does not return within `fuel` iterations. -/
def Solver.tryMove (s : Solver) (fuel : Nat) (current : State) (robots : Robots)
    (f : Frontier) (robot_idx : Fin 5) (dir : Direction) : Option Frontier :=
  match Solver.simulateMove s.board fuel (robots robot_idx).1 (robots robot_idx).2 dir robots
      robot_idx.val with
  | none => none
  | some (nx, ny) =>
    if (robots robot_idx).1 = nx ∧ (robots robot_idx).2 = ny then some f
    else
      let new_state := Solver.encode robots robot_idx nx ny
      let move : Move := ⟨(robot_idx.val : Int), dir⟩
      if f.visited new_state = none then
        some ⟨f.queue ++ [new_state], f.visited.insert new_state (current, move)⟩
      else some f

/-- The double loop `for robot_idx … for dir …` over the 20 candidate moves of the
state `current`. -/
def Solver.expand (s : Solver) (fuel : Nat) (current : State) (f : Frontier) :
    Option Frontier :=
  allRobots.foldlM
    (fun f robot_idx =>
      allDirs.foldlM (fun f dir => s.tryMove fuel current (decode current) f robot_idx dir) f)
    f

/-- How the loop `for (i < level_size)` ends. -/
inductive LevelOutcome
  /-- The loop was left by `break` with `solutionFound = true`. -/
  | found (solution_state : State) (visited : Visited)
  /-- The loop ran `level_size` times without finding a goal state. -/
  | next (f : Frontier)

/-- The loop `for (size_t i = 0; i < level_size; ++i)`; the first argument counts the
iterations that remain.  (The queue holds at least that many states, so the branch for
an empty queue is never reached from `searchLoop`.) -/
def Solver.levelLoop (s : Solver) (fuel : Nat) : Nat → Frontier → Option LevelOutcome
  | 0, f => some (.next f)
  | n + 1, f =>
    match f.queue with
    | [] => none
    | current :: rest =>
      if s.checkSolution current then some (.found current f.visited)
      else
        match s.expand fuel current ⟨rest, f.visited⟩ with
        | none => none
        | some f' => s.levelLoop fuel n f'

/-- The loop `while (!solutionFound && !queue.empty())`, for at most `levels` levels.
The result is `solution_state` when `solutionFound` is set, and the record map. -/
def Solver.searchLoop (s : Solver) (fuel : Nat) : Nat → Frontier → Option (Option State × Visited)
  | 0, _ => none
  | levels + 1, f =>
    if f.queue.isEmpty then some (none, f.visited)
    else
      match s.levelLoop fuel f.queue.length f with
      | none => none
      | some (.found solution_state visited) => some (some solution_state, visited)
      | some (.next f') => s.searchLoop fuel levels f'

/-- The record of the initial state: itself as parent and the sentinel move. -/
def sentinel (initial : State) : State × Move := (initial, ⟨-1, .UP⟩)

/-- The search part of `solve_sequential`: initialisation and the `while` loop. -/
def Solver.search (s : Solver) (fuel : Nat) : Option (Option State × Visited) :=
  s.searchLoop fuel fuel ⟨[s.initial], Visited.empty.insert s.initial (sentinel s.initial)⟩

/-- The `while (true)` loop of `Solver::reconstructPathSequential`; the result is
`path` as it stands when the loop is left, before `std::reverse`. -/
def reconstructLoop (visited : Visited) : Nat → List Move → State → Option (List Move)
  | 0, _, _ => none
  | fuel + 1, path, current =>
    match visited current with
    | none => some []
    | some (prev_state, move) =>
      if move.robot = -1 then some path
      else
        let path := path ++ [move]
        if current = prev_state then some []
        else reconstructLoop visited fuel path prev_state

/-- The method `Solver::reconstructPathSequential(visited, endState)`. -/
def Solver.reconstructPathSequential (fuel : Nat) (visited : Visited) (endState : State) :
    Option (List Move) :=
  (reconstructLoop visited fuel [] endState).map List.reverse

/-- The method `Solver::solve_sequential`.  `fuel` bounds the iterations of every unbounded loop
(slide, search levels, reconstruction); the result is `none` when it does not
suffice. -/
def Solver.solve_sequential (s : Solver) (fuel : Nat) : Option (List Move) :=
  match s.search fuel with
  | none => none
  | some (none, _) => some []
  | some (some solution_state, visited) =>
    Solver.reconstructPathSequential fuel visited solution_state

/-- The call `solve_sequential()` returns `moves`. -/
def Solver.SolveResult (s : Solver) (moves : List Move) : Prop :=
  ∃ fuel, s.solve_sequential fuel = some moves

/-! ## Predicates used in the statements -/

/-- All ten coordinates of a configuration lie in `0..15`. -/
def InRange (c : Robots) : Prop :=
  ∀ i : Fin 5, (0 ≤ (c i).1 ∧ (c i).1 < 16) ∧ (0 ≤ (c i).2 ∧ (c i).2 < 16)

instance (c : Robots) : Decidable (InRange c) := by
  unfold InRange; infer_instance

/-- No robot other than the mover stands on `(x, y)`. -/
def FreeCell (c : Robots) (mover : Nat) (x y : Int) : Prop :=
  ∀ i : Fin 5, i.val ≠ mover → c i ≠ (x, y)

instance (c : Robots) (m : Nat) (x y : Int) : Decidable (FreeCell c m x y) := by
  unfold FreeCell; infer_instance

/-- The direction in which the slide continues after entering `(x, y)` while travelling
in direction `d`: the deflector branch of `slideStep`. -/
def exitDir (b : Board) (m : Nat) (x y : Int) (d : Direction) : Direction :=
  match b.getDiagonalWallInfo x y with
  | some (wall_color, orientation) =>
    if wall_color ≠ Board.getRobotColor m then deflect orientation d else d
  | none => d

/-- The next cell can be entered: the four checks of the loop that precede the move. -/
def Enterable (b : Board) (c : Robots) (m : Nat) (x y : Int) (d : Direction) : Prop :=
  b.hasWall x y d = false ∧
    b.outOfBounds (nextCell x y d).1 (nextCell x y d).2.1 = false ∧
    b.hasWall (nextCell x y d).1 (nextCell x y d).2.1 (nextCell x y d).2.2 = false ∧
    collision c m (nextCell x y d).1 (nextCell x y d).2.1 = false

instance (b : Board) (c : Robots) (m : Nat) (x y : Int) (d : Direction) :
    Decidable (Enterable b c m x y d) := by
  unfold Enterable; infer_instance

/-- The deflection table as the specification words it: NW-SE maps UP to LEFT, DOWN to
RIGHT, LEFT to UP, RIGHT to DOWN; NE-SW maps UP to RIGHT, DOWN to LEFT, LEFT to DOWN,
RIGHT to UP. -/
def deflectionTable : DiagonalOrientation → Direction → Direction
  | .NW_SE, .UP => .LEFT
  | .NW_SE, .DOWN => .RIGHT
  | .NW_SE, .LEFT => .UP
  | .NW_SE, .RIGHT => .DOWN
  | .NE_SW, .UP => .RIGHT
  | .NE_SW, .DOWN => .LEFT
  | .NE_SW, .LEFT => .DOWN
  | .NE_SW, .RIGHT => .UP

/-- Every robot of the configuration stands on a cell of the grid. -/
def Board.InBounds (b : Board) (c : Robots) : Prop :=
  ∀ i : Fin 5, b.outOfBounds (c i).1 (c i).2 = false

/-- A valid configuration of the board: five pairwise distinct cells of the grid. -/
def Board.ValidConfig (b : Board) (c : Robots) : Prop :=
  b.InBounds c ∧ ∀ i j : Fin 5, i ≠ j → c i ≠ c j

instance (b : Board) (c : Robots) : Decidable (b.InBounds c) := by
  unfold Board.InBounds; infer_instance

instance (b : Board) (c : Robots) : Decidable (b.ValidConfig c) := by
  unfold Board.ValidConfig; infer_instance

/-- The configuration that lists the five positions in robot order. -/
def Robots.ofList (l : List (Int × Int)) : Robots := fun i => l.getD i.val (0, 0)

/-! ## Replaying move sequences and reachability -/

/-- Replaying one move on a configuration: the named robot's position is replaced by the
resting cell of its slide.  There is no result for a robot index outside `0..4`, or
when the slide does not return within `fuel` iterations. -/
def replayMove (b : Board) (fuel : Nat) (c : Robots) (mv : Move) : Option Robots :=
  if h : 0 ≤ mv.robot ∧ mv.robot < 5 then
    (Solver.simulateMove b fuel (c ⟨mv.robot.toNat, by omega⟩).1 (c ⟨mv.robot.toNat, by omega⟩).2
      mv.dir c mv.robot.toNat).map (setRobot c ⟨mv.robot.toNat, by omega⟩)
  else none

/-- Replaying a move sequence from a configuration, first move first. -/
def replay (b : Board) (fuel : Nat) : Robots → List Move → Option Robots
  | c, [] => some c
  | c, mv :: rest => (replayMove b fuel c mv).bind fun c' => replay b fuel c' rest

/-- Replaying `moves` from `c` ends in the configuration `c'`. -/
def Replays (b : Board) (c : Robots) (moves : List Move) (c' : Robots) : Prop :=
  ∃ fuel, replay b fuel c moves = some c'

/-- The target robot of the solver stands on the target cell of its board. -/
def Solver.Goal (s : Solver) (c : Robots) : Prop :=
  c s.targetRobot = (s.board.targetX, s.board.targetY)

instance (s : Solver) (c : Robots) : Decidable (s.Goal c) := by
  unfold Solver.Goal; infer_instance

/-- The key `st` is the key of a configuration that fewer than `n` moves reach from
`c0`. -/
def Within (b : Board) (c0 : Robots) (n : Nat) (st : State) : Prop :=
  ∃ moves c, moves.length < n ∧ Replays b c0 moves c ∧ encode c = st

/-- The records of `v` lead from `st` back to the initial state `init` along `path`
(in forward order): the chain that `reconstructPathSequential` walks. -/
inductive PathTo (v : Visited) (init : State) : State → List Move → Prop
  | root : v init = some (sentinel init) → PathTo v init init []
  | step {st p : State} {m : Move} {path : List Move} :
      PathTo v init p path → v st = some (p, m) → m.robot ≠ -1 → st ≠ p →
      PathTo v init st (path ++ [m])

/-- Every slide on the board terminates, whatever the configuration, the mover, the
start cell and the direction. -/
def SlidesTerminate (b : Board) : Prop :=
  ∀ (c : Robots) (m : Nat) (x y : Int) (d : Direction), ∃ r, Solver.SlideResult b x y d c m r

/-! ## Invariants of the search -/

/-- The standing assumptions of the correctness proofs: the solver starts from the key
of `c0`, whose coordinates lie in `0..15`, on a board of width and height at most 16. -/
structure Setup (s : Solver) (c0 : Robots) : Prop where
  init : s.initial = encode c0
  range : InRange c0
  width_le : s.board.width ≤ 16
  height_le : s.board.height ≤ 16

/-- The record map `v'` extends `v`: it has every record of `v`. -/
def Visited.Le (v v' : Visited) : Prop :=
  ∀ st r, v st = some r → v' st = some r

/-- The records lead from `st` back to the initial state along a path of `n` moves
whose replay from `c0` ends in a configuration with key `st`. -/
def GoodPath (s : Solver) (c0 : Robots) (fuel : Nat) (v : Visited) (st : State) (n : Nat) :
    Prop :=
  ∃ path c, PathTo v s.initial st path ∧ path.length = n ∧
    replay s.board fuel c0 path = some c ∧ encode c = st

/-- Every successor of the state `p` (the key obtained by sliding one robot of the
decoded configuration) has a record. -/
def Expanded (s : Solver) (v : Visited) (p : State) : Prop :=
  ∀ (i : Fin 5) (d : Direction) (r : Int × Int),
    Solver.SlideResult s.board (decode p i).1 (decode p i).2 d (decode p) i.val r →
    (v (encode (setRobot (decode p) i r))).isSome = true

/-- The invariant of the search while level `k` is processed: `L` is the list of the
states of level `k` (the queue when the level started), `N` the states enqueued since,
`v` the record map. -/
structure Core (s : Solver) (c0 : Robots) (fuel : Nat) (k : Nat) (L N : List State)
    (v : Visited) : Prop where
  within_visited : ∀ st, Within s.board c0 (k + 1) st → (v st).isSome = true
  visited_cases : ∀ st, (v st).isSome = true → Within s.board c0 (k + 1) st ∨ st ∈ N
  new_fresh : ∀ st ∈ N, ¬ Within s.board c0 (k + 1) st
  new_path : ∀ st ∈ N, GoodPath s c0 fuel v st (k + 1)
  level_path : ∀ st ∈ L, GoodPath s c0 fuel v st k
  level_fresh : ∀ st ∈ L, ¬ Within s.board c0 k st
  level_complete : ∀ st, Within s.board c0 (k + 1) st → ¬ Within s.board c0 k st → st ∈ L
  no_goal_before : ∀ st, Within s.board c0 k st → s.checkSolution st = false

/-- The states of `P` have been dequeued, were no goal states and are expanded. -/
def Processed (s : Solver) (v : Visited) (P : List State) : Prop :=
  ∀ p ∈ P, s.checkSolution p = false ∧ Expanded s v p

/-- The slides from the reachable keys all return within `fuel` iterations. -/
def SlidesWithin (s : Solver) (c0 : Robots) (fuel : Nat) : Prop :=
  ∀ st, (∃ j, Within s.board c0 j st) → ∀ (i : Fin 5) (d : Direction),
    (Solver.simulateMove s.board fuel (decode st i).1 (decode st i).2 d (decode st) i.val).isSome
      = true

/-- The frontier while level `k` is processed: the queue is the rest `R` of the level
followed by the states enqueued since the level started. -/
def FInv (s : Solver) (c0 : Robots) (fuel : Nat) (k : Nat) (L R : List State) (f : Frontier) :
    Prop :=
  ∃ N, f.queue = R ++ N ∧ Core s c0 fuel k L N f.visited

/-- What the search loop guarantees when it returns `(res, v)` after starting level `k`
with `n` levels of fuel: every recorded key is reachable; a solution state is a goal
state with a recorded path of some length `k'`, and no key reachable in fewer than `k'`
moves is a goal state; without a solution state no reachable key is a goal state. -/
def SearchPost (s : Solver) (c0 : Robots) (fuel : Nat) (k n : Nat) (res : Option State)
    (v : Visited) : Prop :=
  (∀ st, (v st).isSome = true → ∃ j, Within s.board c0 j st) ∧
    match res with
    | some st =>
      ∃ k', k ≤ k' ∧ k' < k + n ∧ s.checkSolution st = true ∧ GoodPath s c0 fuel v st k' ∧
        ∀ st', Within s.board c0 k' st' → s.checkSolution st' = false
    | none => ∀ j st', Within s.board c0 j st' → s.checkSolution st' = false

/-! ## Path reconstruction: chains of records -/

/-- The last statements of `solve_sequential`:
`if (solutionFound) solution = reconstructPathSequential(visited, solution_state);
return solution;` with `solution` still empty when no solution state was found. -/
def Solver.finish (fuel : Nat) (solution_state : Option State) (visited : Visited) :
    Option (List Move) :=
  match solution_state with
  | none => some []
  | some st => Solver.reconstructPathSequential fuel visited st

/-- Reconstruction started at `st` arrives at `t` after following the records of
`walked.length` states, none of them a sentinel record or its own parent; `walked` lists
the moves pushed on the way, in the order in which they are pushed. -/
inductive Walks (v : Visited) : State → List Move → State → Prop
  | here (st : State) : Walks v st [] st
  | step {st p t : State} {m : Move} {ms : List Move} :
      v st = some (p, m) → m.robot ≠ -1 → st ≠ p → Walks v p ms t → Walks v st (m :: ms) t

/-- The chain `s0 <- s1 <- ... <- sk` in the record map, given by `s0` and the list
`[(s1, m1), ..., (sk, mk)]`: every `si` has the record `(s(i-1), mi)`, and `mi` is not
the sentinel move. -/
def RecordChain (v : Visited) : State → List (State × Move) → Prop
  | _, [] => True
  | prev, (st, m) :: rest => v st = some (prev, m) ∧ m.robot ≠ -1 ∧ RecordChain v st rest

/-- The last state `sk` of the chain (`s0` itself when the chain has no link). -/
def chainEnd (s0 : State) (links : List (State × Move)) : State :=
  (links.getLast?.map Prod.fst).getD s0

/-- A record map with the sentinel record at state 1, and the chain 1 <- 2 <- 3. -/
def chainRecords : Visited :=
  ((Visited.empty.insert 1 (sentinel 1)).insert 2 (1, ⟨0, .RIGHT⟩)).insert 3 (2, ⟨4, .UP⟩)

/-- A record map in which state 2 has parent 1 and state 1 has no record. -/
def brokenRecords : Visited := Visited.empty.insert 2 (1, ⟨0, .RIGHT⟩)

/-- A record map in which state 2 has parent 1 and state 1 is its own parent with a
move that is not the sentinel. -/
def selfLoopRecords : Visited :=
  (Visited.empty.insert 2 (1, ⟨0, .RIGHT⟩)).insert 1 (1, ⟨3, .DOWN⟩)

/-! ## Boards compared or described in the statements -/

/-- The board obtained by removing every deflector of colour `color`: same size, walls
and target, same deflectors of the other colours. -/
def Board.withoutColor (b : Board) (color : Char) : Board :=
  { b with
    diagonalWalls := fun x y =>
      match b.diagonalWalls x y with
      | some (c, o) => if c = color then none else some (c, o)
      | none => none }

/-- The board has no interior wall: no wall bit is set on a side of a cell of the grid
that faces another cell of the grid (the bits on the perimeter are free). -/
def Board.NoInteriorWalls (b : Board) : Prop :=
  ∀ (x y : Int) (d : Direction), b.outOfBounds x y = false →
    b.outOfBounds (nextCell x y d).1 (nextCell x y d).2.1 = false → b.hasWall x y d = false

/-- The loop states of `simulateMove`, in order: the values of `curr_x`, `curr_y` and
`current_move_dir` at the head of every iteration, for at most `fuel` iterations. -/
def slideTrace (board : Board) (current_robots : Robots) (moving_robot_index : Nat) :
    Nat → Int → Int → Direction → List (Int × Int × Direction)
  | 0, _, _, _ => []
  | fuel + 1, curr_x, curr_y, current_move_dir =>
    (curr_x, curr_y, current_move_dir) ::
      match slideStep board current_robots moving_robot_index curr_x curr_y current_move_dir with
      | .stop _ _ => []
      | .go x y dir => slideTrace board current_robots moving_robot_index fuel x y dir

/-! ## Invariants of the search on an arbitrary board -/

/-- The property `Q` of keys is kept by every transition of the search: if it holds of
`current`, it holds of the key of every configuration obtained by a slide of non-zero
displacement from the decoded configuration. -/
def Closed (s : Solver) (Q : State → Prop) : Prop :=
  ∀ (current : State) (i : Fin 5) (d : Direction) (r : Int × Int), Q current →
    Solver.SlideResult s.board (decode current i).1 (decode current i).2 d (decode current)
      i.val r →
    r ≠ decode current i → Q (encode (setRobot (decode current) i r))

/-- The invariant of the search on any board and from any initial state: `S` is the set
of recorded keys; apart from the initial state they are keys below `B`; the queued
states are recorded; the records of every recorded key lead back to the initial state;
every recorded key has the property `Q`. -/
structure GInv (s : Solver) (Q : State → Prop) (B : Nat) (f : Frontier) (S : Finset State) :
    Prop where
  vis_iff : ∀ st, (f.visited st).isSome = true ↔ st ∈ S
  bound : ∀ st ∈ S, st = s.initial ∨ st < B
  queue_vis : ∀ st ∈ f.queue, st ∈ S
  chain : ∀ st ∈ S, ∃ path, PathTo f.visited s.initial st path
  inv : ∀ st ∈ S, Q st

/-- The number of keys that can still be recorded, plus the number of queued states:
recording and enqueueing a key leaves it unchanged, dequeueing a state decreases it. -/
def potential (B : Nat) (f : Frontier) (S : Finset State) : Nat :=
  (B + 1 - S.card) + f.queue.length

/-- The frontier while the state `cur` is expanded: the invariant holds with a set of
recorded keys that contains `cur`, the potential is `pot` and the queue has at least
`len0` states. -/
def GOK (s : Solver) (Q : State → Prop) (B : Nat) (cur : State) (pot len0 : Nat)
    (f : Frontier) : Prop :=
  ∃ S, GInv s Q B f S ∧ cur ∈ S ∧ potential B f S = pot ∧ len0 ≤ f.queue.length

/-- Every slide that the search can start (from a decoded key) returns within `fuel`
iterations. -/
def AllSlidesWithin (b : Board) (fuel : Nat) : Prop :=
  ∀ (st : State) (i : Fin 5) (d : Direction),
    (Solver.simulateMove b fuel (decode st i).1 (decode st i).2 d (decode st) i.val).isSome = true

/-! ## Building a board -/

/-- The exceptions thrown by the methods of `Board`. -/
inductive BoardError
  /-- The exception `std::out_of_range("Coordinates out of bounds")`. -/
  | out_of_range
  /-- The exception `std::invalid_argument("Invalid target color")`. -/
  | invalid_argument
  deriving DecidableEq, Repr

/-- The method `Board::validateCoordinates`: the exception it throws, if any. -/
def Board.validateCoordinates (b : Board) (x y : Int) : Option BoardError :=
  if b.outOfBounds x y then some .out_of_range else none

/-- The statement `walls[y][x] |= mask` on the wall matrix. -/
def orWall (walls : Int → Int → Nat) (x y : Int) (mask : Nat) : Int → Int → Nat :=
  fun y' x' => if y' = y ∧ x' = x then walls y' x' ||| mask else walls y' x'

/-- The method `Board::addWall`: the board as the call leaves it, and the exception
thrown out of the call, if any.  The `switch (dir)` is the one of the slide loop
(`nextCell`): the neighbour cell and the opposite direction. -/
def Board.addWall (b : Board) (x y : Int) (dir : Direction) : Board × Option BoardError :=
  match b.validateCoordinates x y with
  | some e => (b, some e)
  | none =>
    let b1 := { b with walls := orWall b.walls x y dir.toMask }
    let nx := (nextCell x y dir).1
    let ny := (nextCell x y dir).2.1
    let opposite_dir := (nextCell x y dir).2.2
    if nx ≥ 0 ∧ nx < b1.width ∧ ny ≥ 0 ∧ ny < b1.height then
      ({ b1 with walls := orWall b1.walls nx ny opposite_dir.toMask }, none)
    else (b1, none)

/-- The method `Board::addDiagonalWall`: the board as the call leaves it, and the
exception thrown out of the call, if any. -/
def Board.addDiagonalWall (b : Board) (x y : Int) (color : Char)
    (orientation : DiagonalOrientation) : Board × Option BoardError :=
  match b.validateCoordinates x y with
  | some e => (b, some e)
  | none =>
    ({ b with
        diagonalWalls := fun x' y' =>
          if x' = x ∧ y' = y then some (color, orientation) else b.diagonalWalls x' y' },
      none)

/-- The method `Board::addOpening`: it validates the coordinates and appends to the
list `openings`, which the solver never reads and which is not among the fields
of `Board` here. -/
def Board.addOpening (b : Board) (x y : Int) (_edge : Direction) : Board × Option BoardError :=
  (b, b.validateCoordinates x y)

/-- The table `Board::robotColorToIndex`. -/
def Board.robotColorToIndex (color : Char) : Option Int :=
  if color = 'R' then some 0
  else if color = 'B' then some 1
  else if color = 'G' then some 2
  else if color = 'Y' then some 3
  else if color = 'P' then some 4
  else none

/-- The method `Board::setTarget`: the board as the call leaves it, and the exception
thrown out of the call, if any. -/
def Board.setTarget (b : Board) (x y : Int) (color : Char) : Board × Option BoardError :=
  match b.validateCoordinates x y with
  | some e => (b, some e)
  | none =>
    match Board.robotColorToIndex color with
    | none => (b, some .invalid_argument)
    | some index =>
      ({ b with targetX := x, targetY := y, targetColor := color, targetRobot := index }, none)

/-- A call of one of the four mutating methods of `Board`. -/
inductive BoardCall
  | addWall (x y : Int) (dir : Direction)
  | addDiagonalWall (x y : Int) (color : Char) (orientation : DiagonalOrientation)
  | addOpening (x y : Int) (edge : Direction)
  | setTarget (x y : Int) (color : Char)

/-- The board after the call, and the exception thrown out of it, if any. -/
def Board.call (b : Board) : BoardCall → Board × Option BoardError
  | .addWall x y dir => b.addWall x y dir
  | .addDiagonalWall x y color orientation => b.addDiagonalWall x y color orientation
  | .addOpening x y edge => b.addOpening x y edge
  | .setTarget x y color => b.setTarget x y color

/-- The board after a sequence of calls, each made on the board as the earlier calls
left it (a call that throws leaves the board to the next call as it is then). -/
def Board.calls (b : Board) (cs : List BoardCall) : Board :=
  cs.foldl (fun b c => (b.call c).1) b

/-- The board after a sequence of `addWall` calls `(x, y, dir)`. -/
def Board.addWalls (b : Board) (ws : List (Int × Int × Direction)) : Board :=
  ws.foldl (fun b w => (b.addWall w.1 w.2.1 w.2.2).1) b

/-- Some `setTarget` call of the sequence returned without throwing. -/
def Board.targetWasSet (b : Board) : List BoardCall → Bool
  | [] => false
  | c :: cs =>
    (match c with
      | .setTarget x y color => decide ((b.setTarget x y color).2 = none)
      | _ => false) || (b.call c).1.targetWasSet cs

/-- The first statements of the second `try` block of `main`: construct the solver, then
call `solve_sequential`.  The result is `none` when the constructor throws; otherwise
it holds the result of `solve_sequential` with iteration bound `fuel`. -/
def constructAndSolve (board : Board) (initial : State) (fuel : Nat) :
    Option (Option (List Move)) :=
  (Solver.new board initial).map fun s => s.solve_sequential fuel

/-! ## Straight slides, as the statements word them -/

/-- The cell reached from `(x, y)` by `n` unit steps in direction `d`. -/
def stepsFrom (x y : Int) (d : Direction) (n : Nat) : Int × Int :=
  match d with
  | .UP => (x, y - n)
  | .DOWN => (x, y + n)
  | .LEFT => (x - n, y)
  | .RIGHT => (x + n, y)

/-- The unit step from `(x, y)` in direction `d` is unblocked: no wall on the exit side
of the cell being left, the next cell inside the grid, no wall on the entry side of the
next cell, and no robot other than the mover on the next cell. -/
def StepUnblocked (b : Board) (c : Robots) (mover : Nat) (x y : Int) (d : Direction) : Prop :=
  b.hasWall x y d = false ∧
    ((0 ≤ (stepsFrom x y d 1).1 ∧ (stepsFrom x y d 1).1 < b.width) ∧
      (0 ≤ (stepsFrom x y d 1).2 ∧ (stepsFrom x y d 1).2 < b.height)) ∧
    b.hasWall (stepsFrom x y d 1).1 (stepsFrom x y d 1).2 (nextCell x y d).2.2 = false ∧
    ∀ i : Fin 5, i.val ≠ mover → c i ≠ stepsFrom x y d 1

instance (b : Board) (c : Robots) (m : Nat) (x y : Int) (d : Direction) :
    Decidable (StepUnblocked b c m x y d) := by
  unfold StepUnblocked; infer_instance

/-! ## Records as edges of the search -/

/-- The record `(p, m)` of the state `st` is an edge of the search: `m` names a robot
`i` in `0..4`, the slide of robot `i` in direction `m.dir` in the configuration decoded
from `p` rests on a cell other than its start cell, and `st` is the key of that
configuration with robot `i` on the resting cell. -/
def Solver.Edge (s : Solver) (p : State) (m : Move) (st : State) : Prop :=
  ∃ (i : Fin 5) (r : Int × Int), m.robot = (i.val : Int) ∧
    Solver.SlideResult s.board (decode p i).1 (decode p i).2 m.dir (decode p) i.val r ∧
    r ≠ decode p i ∧ st = Ricochet.encode (setRobot (decode p) i r)

/-- The invariant of the record map: the initial state has the sentinel record, the
record of every other recorded state is an edge from a recorded parent that differs
from the state, and the records of every recorded state lead back to the initial
state. -/
structure RecInv (s : Solver) (v : Visited) : Prop where
  init : v s.initial = some (sentinel s.initial)
  edge : ∀ st p m, v st = some (p, m) → st ≠ s.initial →
    s.Edge p m st ∧ st ≠ p ∧ (v p).isSome = true
  chain : ∀ st, (v st).isSome = true → ∃ path, PathTo v s.initial st path

/-- Replaying `moves` from the configuration `c`, every move takes its robot to a cell
different from the one it starts on. -/
def EveryMoveDisplaces (b : Board) : Robots → List Move → Prop
  | _, [] => True
  | c, m :: rest =>
    ∃ (i : Fin 5) (r : Int × Int), m.robot = (i.val : Int) ∧
      Solver.SlideResult b (c i).1 (c i).2 m.dir c i.val r ∧ r ≠ c i ∧
      EveryMoveDisplaces b (setRobot c i r) rest

/-! ## The concurrent engine `solve`

The workers of `tbb::parallel_for` interleave; what they share is the record map, the
queue and the flag `solutionFound`.  A run is modelled as a sequence of atomic steps,
one for each pass through the body of the double loop: `visited.insert(acc, new_state)`
is the test-and-insert of `tbb::concurrent_hash_map`, and the inserting worker holds
the accessor while it writes the record.  The jobs of one level run in any order. -/

/-- One pass through the body of the double loop of `solve`, for the state `current`,
a robot and a direction. -/
abbrev Job := State × Fin 5 × Direction

/-- The record that the job writes when its insert succeeds: `{current, move}`. -/
def Job.record (t : Job) : State × Move := (t.1, ⟨(t.2.1.val : Int), t.2.2⟩)

/-- The candidate moves of a level, state by state in the order of the two loops. -/
def levelJobs (current_level : List State) : List Job :=
  current_level.flatMap fun current =>
    allRobots.flatMap fun robot_idx => allDirs.map fun dir => (current, robot_idx, dir)

/-- The body of the double loop of `solve` for one robot and direction, as one atomic
step: simulate, skip a zero displacement, encode, `visited.insert(acc, new_state)`, and
when the insert returned true write the record and push the state.  The result is the
frontier after the step and the key inserted, if the insert returned true; `none` when
the slide does not return within `fuel` iterations. -/
def Solver.tryInsert (s : Solver) (fuel : Nat) (current : State) (robots : Robots)
    (f : Frontier) (robot_idx : Fin 5) (dir : Direction) : Option (Frontier × Option State) :=
  match Solver.simulateMove s.board fuel (robots robot_idx).1 (robots robot_idx).2 dir robots
      robot_idx.val with
  | none => none
  | some (nx, ny) =>
    if (robots robot_idx).1 = nx ∧ (robots robot_idx).2 = ny then some (f, none)
    else
      let new_state := Solver.encode robots robot_idx nx ny
      let move : Move := ⟨(robot_idx.val : Int), dir⟩
      if f.visited new_state = none then
        some (⟨f.queue ++ [new_state], f.visited.insert new_state (current, move)⟩,
          some new_state)
      else some (f, none)

/-- The jobs executed one after the other.  The result is the frontier after the last
one and the log of the inserts that returned true: the inserting job and the key, in
the order of the inserts. -/
def Solver.runJobs (s : Solver) (fuel : Nat) :
    List Job → Frontier → Option (Frontier × List (Job × State))
  | [], f => some (f, [])
  | t :: ts, f =>
    match s.tryInsert fuel t.1 (decode t.1) f t.2.1 t.2.2 with
    | none => none
    | some (f1, inserted) =>
      match Solver.runJobs s fuel ts f1 with
      | none => none
      | some (f', log) =>
        match inserted with
        | none => some (f', log)
        | some new_state => some (f', (t, new_state) :: log)

/-- The method `Solver::reconstructPath(visited, endState)`: the loop is the one of
`reconstructPathSequential`, with `visited.find(acc, current)` as lookup. -/
def Solver.reconstructPath (fuel : Nat) (visited : Visited) (endState : State) :
    Option (List Move) :=
  (reconstructLoop visited fuel [] endState).map List.reverse

/-- The runs of the loop `while (!solutionFound && !queue.empty())` of `solve` from a
frontier: the jobs executed, in the order of their atomic steps, and the result
(`solution_state` when `solutionFound` is set, and the record map).  The slides are
given `fuel` iterations.  The order of the queue plays no role: the jobs of a level
are taken in any order. -/
inductive Solver.ParSearch (s : Solver) (fuel : Nat) :
    Frontier → List Job → Option State × Visited → Prop
  /-- The queue is empty: the loop is left with `solutionFound` unset. -/
  | empty {f : Frontier} : f.queue = [] → Solver.ParSearch s fuel f [] (none, f.visited)
  /-- A worker finds the goal state `g` in the level and sets `solutionFound`.  Until
  every worker has seen the flag, some jobs of the states of the level that are no
  goal states run. -/
  | found {f f' : Frontier} {g : State} {ts : List Job} {log : List (Job × State)} :
      g ∈ f.queue → s.checkSolution g = true →
      (∀ t ∈ ts, s.checkSolution t.1 = false) → ts.Subperm (levelJobs f.queue) →
      s.runJobs fuel ts ⟨[], f.visited⟩ = some (f', log) →
      Solver.ParSearch s fuel f ts (some g, f'.visited)
  /-- No state of the level is a goal state: every job of the level runs, and the loop
  goes on with the states pushed. -/
  | next {f f' : Frontier} {ts rest : List Job} {log : List (Job × State)}
      {res : Option State × Visited} :
      f.queue ≠ [] → (∀ st ∈ f.queue, s.checkSolution st = false) →
      ts.Perm (levelJobs f.queue) →
      s.runJobs fuel ts ⟨[], f.visited⟩ = some (f', log) →
      Solver.ParSearch s fuel f' rest res → Solver.ParSearch s fuel f (ts ++ rest) res

/-- A run of `solve()` returns `moves`. -/
def Solver.ParSolveResult (s : Solver) (moves : List Move) : Prop :=
  ∃ (fuel : Nat) (jobs : List Job) (res : Option State) (v : Visited),
    s.ParSearch fuel ⟨[s.initial], Visited.empty.insert s.initial (sentinel s.initial)⟩ jobs
      (res, v) ∧
    (match res with
      | none => some []
      | some solution_state => Solver.reconstructPath fuel v solution_state) = some moves

/-! ## Levels of the search graph -/

/-- The state `st` is reached from the initial state by at most `n` edges of the
search. -/
inductive Solver.Near (s : Solver) : Nat → State → Prop
  | init (n : Nat) : Solver.Near s n s.initial
  | step {n : Nat} {p st : State} {m : Move} :
      Solver.Near s n p → s.Edge p m st → Solver.Near s (n + 1) st

/-- The state `st` is at distance exactly `k` from the initial state. -/
def Solver.AtLevel (s : Solver) (k : Nat) (st : State) : Prop :=
  s.Near k st ∧ ∀ j, j < k → ¬ s.Near j st

/-- The number `n` is the distance of the nearest goal state from the initial state,
or 0 when no goal state can be reached. -/
def Solver.GoalDistance (s : Solver) (n : Nat) : Prop :=
  (∃ st, s.AtLevel n st ∧ s.checkSolution st = true ∧
      ∀ j, j < n → ∀ st', s.Near j st' → s.checkSolution st' = false) ∨
    (n = 0 ∧ ∀ j st, s.Near j st → s.checkSolution st = false)

/-- The invariant of `solve` when the level `k` starts: the recorded states are those
at distance at most `k`, the queue holds those at distance exactly `k`, the records of
a recorded state lead back to the initial state by as many moves as its distance, and
no state nearer than `k` is a goal state. -/
structure PInv (s : Solver) (k : Nat) (f : Frontier) : Prop where
  dom : ∀ st, (f.visited st).isSome = true ↔ s.Near k st
  level : ∀ st, st ∈ f.queue ↔ s.AtLevel k st
  path : ∀ st, (f.visited st).isSome = true →
    ∃ path, PathTo f.visited s.initial st path ∧ s.AtLevel path.length st
  nogoal : ∀ j, j < k → ∀ st, s.Near j st → s.checkSolution st = false

/-- The invariant of `solve` while the jobs of level `k` run: `done` lists the jobs
executed, the queue holds the states pushed since the level started. -/
structure PMid (s : Solver) (k : Nat) (done : List Job) (f : Frontier) : Prop where
  dom : ∀ st, (f.visited st).isSome = true ↔ (s.Near k st ∨ st ∈ f.queue)
  fresh : ∀ st, st ∈ f.queue → s.AtLevel (k + 1) st
  path : ∀ st, (f.visited st).isSome = true →
    ∃ path, PathTo f.visited s.initial st path ∧ s.AtLevel path.length st
  done : ∀ t, t ∈ done → ∀ r,
    Solver.SlideResult s.board (decode t.1 t.2.1).1 (decode t.1 t.2.1).2 t.2.2 (decode t.1)
      t.2.1.val r →
    r ≠ decode t.1 t.2.1 →
    (f.visited (Ricochet.encode (setRobot (decode t.1) t.2.1 r))).isSome = true

/-! ## Runs of the concurrent engine picked by a schedule -/

/-- The run of the loop of `solve` in which every goal state of a level is found before
a job of the level has run, and the jobs of a level without goal state run in the order
`sched` lists them.  `levels` bounds the number of levels. -/
def Solver.parLoop (s : Solver) (sched : List State → List Job) (fuel : Nat) :
    Nat → Frontier → Option (Option State × Visited)
  | 0, _ => none
  | levels + 1, f =>
    if f.queue.isEmpty then some (none, f.visited)
    else
      match f.queue.find? s.checkSolution with
      | some solution_state => some (some solution_state, f.visited)
      | none =>
        match s.runJobs fuel (sched f.queue) ⟨[], f.visited⟩ with
        | none => none
        | some (f', _) => Solver.parLoop s sched fuel levels f'

/-- The method `Solver::solve` in the run that `sched` picks. -/
def Solver.solveWith (s : Solver) (sched : List State → List Job) (fuel : Nat) :
    Option (List Move) :=
  match s.parLoop sched fuel fuel
      ⟨[s.initial], Visited.empty.insert s.initial (sentinel s.initial)⟩ with
  | none => none
  | some (none, _) => some []
  | some (some solution_state, visited) => Solver.reconstructPath fuel visited solution_state

/-! ## Loop states of a slide that does not stop -/

/-- The loop state that follows on the loop state `s = (curr_x, curr_y,
current_move_dir)` when the iteration does not break: the robot is on the next cell and
travels in the direction in which it leaves that cell. -/
def slideNext (b : Board) (m : Nat) (s : Int × Int × Direction) : Int × Int × Direction :=
  ((nextCell s.1 s.2.1 s.2.2).1, (nextCell s.1 s.2.1 s.2.2).2.1,
    exitDir b m (nextCell s.1 s.2.1 s.2.2).1 (nextCell s.1 s.2.1 s.2.2).2.1 s.2.2)

/-- The loop state after `n` iterations, none of which breaks. -/
def slideOrbit (b : Board) (m : Nat) (s : Int × Int × Direction) : Nat → Int × Int × Direction
  | 0 => s
  | n + 1 => slideNext b m (slideOrbit b m s n)

/-- The cell `p` holds a deflector of orientation `o` whose colour is not the colour of
the robot `mover`: the deflectors that turn the mover. -/
def ForeignDeflector (b : Board) (mover : Nat) (o : DiagonalOrientation) (p : Int × Int) : Prop :=
  ∃ color, b.getDiagonalWallInfo p.1 p.2 = some (color, o) ∧ color ≠ Board.getRobotColor mover

/-! ## Concrete boards and configurations -/

/-- A board of the given size without walls, deflectors or target, as the constructor
leaves it. -/
def emptyBoard (width height : Int) : Board :=
  { width := width, height := height, walls := fun _ _ => 0,
    targetX := -1, targetY := -1, targetColor := Char.ofNat 0, targetRobot := -1,
    diagonalWalls := fun _ _ => none }

/-- The initial positions hard-wired in `main`. -/
def mainPositions : Robots := Robots.ofList [(0, 1), (15, 1), (14, 14), (0, 0), (7, 8)]

/-- Five robots side by side in the single row of a 17 x 1 board. -/
def rowLeft : Robots := Robots.ofList [(0, 0), (1, 0), (2, 0), (3, 0), (4, 0)]

/-- The same row with robot 0 on the last column (x = 16) instead of the first. -/
def rowRight : Robots := Robots.ofList [(16, 0), (1, 0), (2, 0), (3, 0), (4, 0)]

/-- A 16 x 16 board whose only wall is on the right side of cell (3, 3). -/
def wallBoard : Board :=
  { emptyBoard 16 16 with walls := fun y x => if x = 3 ∧ y = 3 then 8 else 0 }

/-- A 16 x 16 board without walls, with a Blue NW-SE deflector at (1, 1) and a Blue NE-SW
deflector at (1, 2). -/
def chainBoard : Board :=
  { emptyBoard 16 16 with
    diagonalWalls := fun x y =>
      if x = 1 ∧ y = 1 then some ('B', .NW_SE)
      else if x = 1 ∧ y = 2 then some ('B', .NE_SW)
      else none }

/-- Robot 0 (Red) at (0, 1), the others far from the deflectors of `chainBoard`. -/
def chainRobots : Robots := Robots.ofList [(0, 1), (10, 10), (11, 11), (12, 12), (13, 13)]

/-- A 16 x 16 board without walls and with four Blue deflectors on the corners of the
rectangle (0,0)-(2,2), oriented so that a robot travelling along its sides is turned
around it clockwise. -/
def loopBoard : Board :=
  { emptyBoard 16 16 with
    diagonalWalls := fun x y =>
      if x = 2 ∧ y = 0 then some ('B', .NW_SE)
      else if x = 2 ∧ y = 2 then some ('B', .NE_SW)
      else if x = 0 ∧ y = 2 then some ('B', .NW_SE)
      else if x = 0 ∧ y = 0 then some ('B', .NE_SW)
      else none }

/-- Robot 0 (Red) at (1, 0) on the upper side of the rectangle of `loopBoard`, the other
robots away from it. -/
def loopRobots : Robots := Robots.ofList [(1, 0), (5, 5), (6, 6), (7, 7), (8, 8)]

/-- The eight loop states (position and direction) of the slide of robot 0 on
`loopBoard`, in the order in which they follow one another. -/
def loopCycle : List (Int × Int × Direction) :=
  [(1, 0, .RIGHT), (2, 0, .DOWN), (2, 1, .DOWN), (2, 2, .LEFT), (1, 2, .LEFT),
   (0, 2, .UP), (0, 1, .UP), (0, 0, .RIGHT)]

/-- The empty 16 x 16 board with target cell (15, 0) for robot 0 (Red). -/
def rightBoard : Board :=
  { emptyBoard 16 16 with targetX := 15, targetY := 0, targetColor := 'R', targetRobot := 0 }

/-- Robot 0 in the corner (0, 0), the other robots outside row 0. -/
def rightStart : Robots := Robots.ofList [(0, 0), (3, 5), (7, 2), (9, 9), (12, 4)]

/-- The solver on `rightBoard` started from `rightStart`. -/
def rightSolver : Solver := ⟨rightBoard, encode rightStart, 0⟩

/-- The wall matrix that holds the listed masks `(x, y, mask)` and is zero elsewhere. -/
def wallsOf (l : List (Int × Int × Nat)) : Int → Int → Nat :=
  fun y x =>
    match l.find? (fun e => decide (e.1 = x) && decide (e.2.1 = y)) with
    | some e => e.2.2
    | none => 0

/-- A 17 x 2 board without walls, target cell (0, 0) for robot 0 (Red). -/
def wideBoard : Board :=
  { emptyBoard 17 2 with targetX := 0, targetY := 0, targetColor := 'R', targetRobot := 0 }

/-- Robot 0 at (5, 0) with robot 1 next to it on the left. -/
def wideStart : Robots := Robots.ofList [(5, 0), (4, 0), (0, 1), (1, 1), (2, 1)]

/-- The solver on `wideBoard` started from `wideStart`. -/
def wideSolver : Solver := ⟨wideBoard, encode wideStart, 0⟩

/-- A 17 x 2 board, target cell (15, 0) for robot 0 (Red).  The cells (0,0), (1,0), (2,0)
are walled on all four sides, and there is a wall between (15, 1) and (16, 1); every
wall is set on both of its sides, as `addWall` does. -/
def detourBoard : Board :=
  { emptyBoard 17 2 with
    walls := wallsOf [(0, 0, 15), (1, 0, 15), (2, 0, 15), (3, 0, 4), (0, 1, 1), (1, 1, 1),
      (2, 1, 1), (15, 1, 8), (16, 1, 4)]
    targetX := 15, targetY := 0, targetColor := 'R', targetRobot := 0 }

/-- Robot 0 at (3, 0), robot 1 at (8, 0) in the same row, the other three robots in the
walled cells. -/
def detourStart : Robots := Robots.ofList [(3, 0), (8, 0), (0, 0), (1, 0), (2, 0)]

/-- The solver on `detourBoard` started from `detourStart`. -/
def detourSolver : Solver := ⟨detourBoard, encode detourStart, 0⟩

/-- The 17 x 1 board without walls, target cell (16, 0) for robot 4 (Purple). -/
def rowBoard : Board :=
  { emptyBoard 17 1 with targetX := 16, targetY := 0, targetColor := 'P', targetRobot := 4 }

/-- The solver on `rowBoard` started from `rowLeft`. -/
def rowSolver : Solver := ⟨rowBoard, encode rowLeft, 4⟩

/-- The key recorded on `rowBoard` after robot 4 has slid RIGHT to (16, 0). -/
def rowKey1 : State := Solver.encode rowLeft 4 16 0

/-- The key recorded on `rowBoard` after robot 3 has then slid RIGHT to (16, 0). -/
def rowKey2 : State := Solver.encode (decode rowKey1) 3 16 0

/-- The key of the goal configuration of `rightSolver`. -/
def rightGoalKey : State := Solver.encode rightStart 0 15 0

/-- The 16 x 16 board without walls with a Red and a Blue deflector in row 0. -/
def twoColorBoard : Board :=
  { emptyBoard 16 16 with
    diagonalWalls := fun x y =>
      if x = 2 ∧ y = 0 then some ('R', .NW_SE)
      else if x = 5 ∧ y = 0 then some ('B', .NE_SW)
      else none }

/-- The 16 x 16 board without walls whose only deflector is Blue, NE-SW, at (5, 0), with
target cell (5, 5) for robot 0 (Red). -/
def deflectorBoard : Board :=
  { emptyBoard 16 16 with
    targetX := 5, targetY := 5, targetColor := 'R', targetRobot := 0
    diagonalWalls := fun x y => if x = 5 ∧ y = 0 then some ('B', .NE_SW) else none }

/-- Robot 0 on the target cell (15, 0) of `rightBoard`, the other robots as in
`rightStart`. -/
def solvedStart : Robots := Robots.ofList [(15, 0), (3, 5), (7, 2), (9, 9), (12, 4)]

/-- The solver on `rightBoard` started with robot 0 already on the target cell. -/
def solvedSolver : Solver := ⟨rightBoard, encode solvedStart, 0⟩

/-- The board `rightBoard` with walls on all four sides of the cell (0, 0), set on both
sides as `addWall` does. -/
def boxedBoard : Board :=
  { rightBoard with walls := wallsOf [(0, 0, 15), (1, 0, 4), (0, 1, 1)] }

/-- The solver on `boxedBoard` started from `rightStart`: the target robot 0 stands in
the walled cell (0, 0), the target cell is (15, 0). -/
def boxedSolver : Solver := ⟨boxedBoard, encode rightStart, 0⟩

/-- A 17 x 2 board.  Every cell of row 1 is walled on all four sides, every cell of row
0 has a wall below it, and there is a wall between (3, 0) and (4, 0), every wall set on
both of its sides.  Target cell (3, 0) for robot 0 (Red). -/
def wrapBoard : Board :=
  { emptyBoard 17 2 with
    walls := fun y x =>
      if y = 1 then 15
      else if x = 3 then 10
      else if x = 4 then 6
      else 2
    targetX := 3, targetY := 0, targetColor := 'R', targetRobot := 0 }

/-- Robot 0 at (5, 0), the other robots in walled cells of row 1. -/
def wrapStart : Robots := Robots.ofList [(5, 0), (0, 1), (1, 1), (2, 1), (3, 1)]

/-- The solver on `wrapBoard` started from `wrapStart`. -/
def wrapSolver : Solver := ⟨wrapBoard, encode wrapStart, 0⟩

/-- The empty 16 x 16 board with target cell (15, 15) for robot 0 (Red) and walls on all
four sides of the cells (5, 5), (7, 7), (9, 9) and (11, 11), added with `addWall`. -/
def cornerBoard : Board :=
  ({ emptyBoard 16 16 with targetX := 15, targetY := 15, targetColor := 'R', targetRobot := 0 }
    ).addWalls
    [(5, 5, .UP), (5, 5, .DOWN), (5, 5, .LEFT), (5, 5, .RIGHT),
     (7, 7, .UP), (7, 7, .DOWN), (7, 7, .LEFT), (7, 7, .RIGHT),
     (9, 9, .UP), (9, 9, .DOWN), (9, 9, .LEFT), (9, 9, .RIGHT),
     (11, 11, .UP), (11, 11, .DOWN), (11, 11, .LEFT), (11, 11, .RIGHT)]

/-- Robot 0 in the corner (0, 0), the other robots in the walled cells. -/
def cornerStart : Robots := Robots.ofList [(0, 0), (5, 5), (7, 7), (9, 9), (11, 11)]

/-- The solver on `cornerBoard` started from `cornerStart`. -/
def cornerSolver : Solver := ⟨cornerBoard, encode cornerStart, 0⟩

/-! # Proofs -/

/-! ## Codec: arithmetic form and round trip -/

theorem low4_lt (v : Int) : low4 v < 16 := by
  unfold low4; omega

theorem low4_of_range {v : Int} (h0 : 0 ≤ v) (h1 : v < 16) : ((low4 v : Nat) : Int) = v := by
  unfold low4; omega

theorem low4_cast (v : Int) : ((low4 v : Nat) : Int) = v % 16 := by
  unfold low4; omega

theorem or_shiftLeft_of_lt {s k : Nat} (v : Nat) (h : s < 2 ^ k) :
    s ||| (v <<< k) = s + v * 2 ^ k := by
  rw [Nat.shiftLeft_eq, Nat.lor_comm, Nat.mul_comm, ← Nat.mul_add_lt_is_or h, Nat.add_comm]

/-- The key as a sum: robot `i` contributes `x + 16 * y` at byte `i`. -/
theorem encode_eq (c : Robots) :
    encode c =
      low4 (c 0).1 + low4 (c 0).2 * 16 + low4 (c 1).1 * 256 + low4 (c 1).2 * 4096
        + low4 (c 2).1 * 65536 + low4 (c 2).2 * 1048576 + low4 (c 3).1 * 16777216
        + low4 (c 3).2 * 268435456 + low4 (c 4).1 * 4294967296
        + low4 (c 4).2 * 68719476736 := by
  have h0 := low4_lt (c 0).1
  have h1 := low4_lt (c 0).2
  have h2 := low4_lt (c 1).1
  have h3 := low4_lt (c 1).2
  have h4 := low4_lt (c 2).1
  have h5 := low4_lt (c 2).2
  have h6 := low4_lt (c 3).1
  have h7 := low4_lt (c 3).2
  have h8 := low4_lt (c 4).1
  show ((((((((((0 ||| low4 (c 0).1 <<< 0) ||| low4 (c 0).2 <<< 4) ||| low4 (c 1).1 <<< 8)
    ||| low4 (c 1).2 <<< 12) ||| low4 (c 2).1 <<< 16) ||| low4 (c 2).2 <<< 20)
    ||| low4 (c 3).1 <<< 24) ||| low4 (c 3).2 <<< 28) ||| low4 (c 4).1 <<< 32)
    ||| low4 (c 4).2 <<< 36) = _
  rw [or_shiftLeft_of_lt _ (by omega : (0 : Nat) < 2 ^ 0)]
  rw [or_shiftLeft_of_lt _ (by omega : _ < 2 ^ 4)]
  rw [or_shiftLeft_of_lt _ (by omega : _ < 2 ^ 8)]
  rw [or_shiftLeft_of_lt _ (by omega : _ < 2 ^ 12)]
  rw [or_shiftLeft_of_lt _ (by omega : _ < 2 ^ 16)]
  rw [or_shiftLeft_of_lt _ (by omega : _ < 2 ^ 20)]
  rw [or_shiftLeft_of_lt _ (by omega : _ < 2 ^ 24)]
  rw [or_shiftLeft_of_lt _ (by omega : _ < 2 ^ 28)]
  rw [or_shiftLeft_of_lt _ (by omega : _ < 2 ^ 32)]
  rw [or_shiftLeft_of_lt _ (by omega : _ < 2 ^ 36)]
  omega

theorem encode_lt (c : Robots) : encode c < 1099511627776 := by
  have h0 := low4_lt (c 0).1
  have h1 := low4_lt (c 0).2
  have h2 := low4_lt (c 1).1
  have h3 := low4_lt (c 1).2
  have h4 := low4_lt (c 2).1
  have h5 := low4_lt (c 2).2
  have h6 := low4_lt (c 3).1
  have h7 := low4_lt (c 3).2
  have h8 := low4_lt (c 4).1
  have h9 := low4_lt (c 4).2
  have key : low4 (c 0).1 + low4 (c 0).2 * 16 + low4 (c 1).1 * 256 + low4 (c 1).2 * 4096
        + low4 (c 2).1 * 65536 + low4 (c 2).2 * 1048576 + low4 (c 3).1 * 16777216
        + low4 (c 3).2 * 268435456 + low4 (c 4).1 * 4294967296
        + low4 (c 4).2 * 68719476736 < 1099511627776 := by omega
  rw [encode_eq]; exact key

/-- The decoded coordinates as quotients and remainders of the key. -/
theorem decodeAt_eq (s : State) (i : Nat) :
    decodeAt s i
      = (((s / 2 ^ (8 * i) % 256 % 16 : Nat) : Int), ((s / 2 ^ (8 * i) % 256 / 16 % 16 : Nat) : Int)) := by
  have a255 : ∀ x : Nat, x &&& 255 = x % 256 := fun x => Nat.and_pow_two_sub_one_eq_mod x 8
  have a15 : ∀ x : Nat, x &&& 15 = x % 16 := fun x => Nat.and_pow_two_sub_one_eq_mod x 4
  simp only [decodeAt, Nat.shiftRight_eq_div_pow, a255, a15]

/-- Decoding a key gives back every coordinate reduced modulo 16. -/
theorem decode_encode_mod (c : Robots) (i : Fin 5) :
    decode (encode c) i = ((c i).1 % 16, (c i).2 % 16) := by
  have h0 := low4_lt (c 0).1
  have h1 := low4_lt (c 0).2
  have h2 := low4_lt (c 1).1
  have h3 := low4_lt (c 1).2
  have h4 := low4_lt (c 2).1
  have h5 := low4_lt (c 2).2
  have h6 := low4_lt (c 3).1
  have h7 := low4_lt (c 3).2
  have h8 := low4_lt (c 4).1
  have h9 := low4_lt (c 4).2
  unfold decode
  rw [decodeAt_eq, encode_eq, ← low4_cast, ← low4_cast]
  fin_cases i <;> simp only [Prod.mk.injEq, Nat.cast_inj] <;> constructor <;> simp <;> omega

theorem decode_encode {c : Robots} (h : InRange c) : decode (encode c) = c := by
  funext i
  rw [decode_encode_mod]
  have := h i
  apply Prod.ext <;> simp <;> omega

theorem decode_inRange (s : State) : InRange (decode s) := by
  intro i
  simp only [decode, decodeAt_eq]
  omega

/-! ## Slides: basic facts -/

theorem mem_allRobots (i : Fin 5) : i ∈ allRobots := by
  fin_cases i <;> simp [allRobots]

theorem collision_eq_false {c : Robots} {mover : Nat} {x y : Int} :
    collision c mover x y = false ↔ FreeCell c mover x y := by
  unfold collision FreeCell
  rw [List.any_eq_false]
  constructor
  · intro h i hi heq
    have := h i (mem_allRobots i)
    simp [hi, heq] at this
  · intro h i _
    by_cases hi : i.val = mover
    · simp [hi]
    · have := h i hi
      simp only [Bool.and_eq_true, decide_eq_true_eq, not_and]
      intro _ hx hy
      exact this (Prod.ext hx hy)

theorem outOfBounds_eq_false {b : Board} {x y : Int} :
    b.outOfBounds x y = false ↔ (0 ≤ x ∧ x < b.width) ∧ (0 ≤ y ∧ y < b.height) := by
  unfold Board.outOfBounds
  simp only [Bool.or_eq_false_iff, decide_eq_false_iff_not]
  omega

theorem hasWall_false_inBounds {b : Board} {x y : Int} {d : Direction}
    (h : b.hasWall x y d = false) : b.outOfBounds x y = false := by
  unfold Board.hasWall at h
  by_cases hb : b.outOfBounds x y = true
  · simp [hb] at h
  · simpa using hb

/-- A `break` leaves the position unchanged. -/
theorem slideStep_stop {b : Board} {c : Robots} {m : Nat} {x y : Int} {d : Direction}
    {x' y' : Int} (h : slideStep b c m x y d = .stop x' y') : x' = x ∧ y' = y := by
  unfold slideStep at h
  split at h
  · cases h; exact ⟨rfl, rfl⟩
  · simp only at h
    split at h
    · cases h; exact ⟨rfl, rfl⟩
    · split at h
      · cases h; exact ⟨rfl, rfl⟩
      · split at h
        · cases h; exact ⟨rfl, rfl⟩
        · split at h
          · split at h <;> cases h
          · cases h

theorem slideStep_of_enterable {b : Board} {c : Robots} {m : Nat} {x y : Int} {d : Direction}
    (h : Enterable b c m x y d) :
    slideStep b c m x y d
      = .go (nextCell x y d).1 (nextCell x y d).2.1
          (exitDir b m (nextCell x y d).1 (nextCell x y d).2.1 d) := by
  obtain ⟨h1, h2, h3, h4⟩ := h
  unfold slideStep exitDir
  simp only [h1, h2, h3, h4, Bool.false_eq_true, if_false]
  split
  · split <;> rfl
  · rfl

theorem slideStep_of_not_enterable {b : Board} {c : Robots} {m : Nat} {x y : Int}
    {d : Direction} (h : ¬ Enterable b c m x y d) : slideStep b c m x y d = .stop x y := by
  unfold Enterable at h
  unfold slideStep
  by_cases h1 : b.hasWall x y d = true
  · simp [h1]
  · by_cases h2 : b.outOfBounds (nextCell x y d).1 (nextCell x y d).2.1 = true
    · simp [h1, h2]
    · by_cases h3 : b.hasWall (nextCell x y d).1 (nextCell x y d).2.1 (nextCell x y d).2.2 = true
      · simp [h1, h2, h3]
      · by_cases h4 : collision c m (nextCell x y d).1 (nextCell x y d).2.1 = true
        · simp [h1, h2, h3, h4]
        · simp only [Bool.not_eq_true] at h1 h2 h3 h4
          exact absurd ⟨h1, h2, h3, h4⟩ h

/-- One unfolding of the slide loop. -/
theorem slideLoop_succ (b : Board) (c : Robots) (m : Nat) (fuel : Nat) (x y : Int)
    (d : Direction) :
    slideLoop b c m (fuel + 1) x y d
      = if Enterable b c m x y d then
          slideLoop b c m fuel (nextCell x y d).1 (nextCell x y d).2.1
            (exitDir b m (nextCell x y d).1 (nextCell x y d).2.1 d)
        else some (x, y) := by
  by_cases h : Enterable b c m x y d
  · rw [if_pos h, slideLoop, slideStep_of_enterable h]
  · rw [if_neg h, slideLoop, slideStep_of_not_enterable h]

/-- More fuel does not change a result. -/
theorem slideLoop_mono {b : Board} {c : Robots} {m : Nat} :
    ∀ {n k : Nat} {x y : Int} {d : Direction} {r : Int × Int},
      slideLoop b c m n x y d = some r → n ≤ k → slideLoop b c m k x y d = some r := by
  intro n
  induction n with
  | zero => intro k x y d r h; simp [slideLoop] at h
  | succ n ih =>
    intro k x y d r h hk
    obtain ⟨k', rfl⟩ : ∃ k', k = k' + 1 := ⟨k - 1, by omega⟩
    rw [slideLoop_succ] at h ⊢
    split
    · rename_i he
      rw [if_pos he] at h
      exact ih h (by omega)
    · rename_i he
      rw [if_neg he] at h
      exact h

/-- A slide has at most one result. -/
theorem SlideResult_unique {b : Board} {x y : Int} {d : Direction} {c : Robots} {m : Nat}
    {r r' : Int × Int} (h : Solver.SlideResult b x y d c m r)
    (h' : Solver.SlideResult b x y d c m r') : r = r' := by
  obtain ⟨n, hn⟩ := h
  obtain ⟨k, hk⟩ := h'
  unfold Solver.simulateMove at hn hk
  have h1 := slideLoop_mono hn (Nat.le_max_left n k)
  have h2 := slideLoop_mono hk (Nat.le_max_right n k)
  rw [h1] at h2
  exact Option.some.inj h2

/-! ## Claims on the codec -/

/-- Claim C5 (codec round trip).  For a configuration whose ten coordinates lie in
0..15, decoding its key gives the configuration back; hence no other such
configuration has the same key. -/
theorem codec_round_trip (c : Robots) (h : InRange c) :
    decode (encode c) = c ∧ ∀ c' : Robots, InRange c' → encode c' = encode c → c' = c := by
  refine ⟨decode_encode h, fun c' h' heq => ?_⟩
  rw [← decode_encode h', heq, decode_encode h]

/-- Witness of C5 on the initial positions of `main`. -/
theorem codec_round_trip_witness :
    InRange mainPositions ∧ decode (encode mainPositions) = mainPositions :=
  ⟨by decide, (codec_round_trip mainPositions (by decide)).1⟩

theorem Board.new_eq {w h : Int} {b : Board} (hb : Board.new w h = some b) :
    b.width = w ∧ b.height = h := by
  unfold Board.new at hb
  split at hb
  · cases hb
  · cases hb; exact ⟨rfl, rfl⟩

theorem inRange_of_inBounds {b : Board} {c : Robots} (hw : b.width ≤ 16) (hh : b.height ≤ 16)
    (hc : b.InBounds c) : InRange c := by
  intro i
  have := outOfBounds_eq_false.mp (hc i)
  omega

/-- Counterexample to C6: on the 17 x 1 board the two valid configurations `rowLeft`
and `rowRight`, which differ in the cell of robot 0, have the same key. -/
theorem encode_aliases_on_wide_board :
    Board.new 17 1 = some (emptyBoard 17 1) ∧
      (emptyBoard 17 1).ValidConfig rowLeft ∧ (emptyBoard 17 1).ValidConfig rowRight ∧
      rowLeft ≠ rowRight ∧ encode rowLeft = encode rowRight := by
  refine ⟨rfl, by decide, by decide, ?_, by decide⟩
  intro h
  exact absurd (congrArg Prod.fst (congrFun h 0)) (by decide)

/-- Claim C6, amended.  On a board of positive width and height at most 16 built by
the constructor, two distinct configurations that are in bounds have different keys. -/
theorem encode_injective_on_board (w h : Int) (b : Board) (c1 c2 : Robots)
    (hb : Board.new w h = some b) (hw : 0 < w ∧ w ≤ 16) (hh : 0 < h ∧ h ≤ 16)
    (h1 : b.InBounds c1) (h2 : b.InBounds c2) (hne : c1 ≠ c2) : encode c1 ≠ encode c2 := by
  obtain ⟨hbw, hbh⟩ := Board.new_eq hb
  have r1 : InRange c1 := inRange_of_inBounds (by omega) (by omega) h1
  have r2 : InRange c2 := inRange_of_inBounds (by omega) (by omega) h2
  intro heq
  apply hne
  rw [← decode_encode r1, heq, decode_encode r2]

/-- Witness of the amended C6 on the 16 x 16 board. -/
theorem encode_injective_on_board_witness : encode mainPositions ≠ encode chainRobots :=
  encode_injective_on_board 16 16 (emptyBoard 16 16) mainPositions chainRobots rfl
    (by decide) (by decide) (by decide) (by decide)
    (fun h => absurd (congrArg Prod.fst (congrFun h 1)) (by decide))

/-! ## Claims on single slides -/

/-- Claim C8 (no-op detection).  When the start cell has a wall on side `d`
(`hasWall(start, d)` holds), the slide returns, and what it returns is the start
cell. -/
theorem simulateMove_walled (board : Board) (robots : Robots) (mover : Nat) (x y : Int)
    (d : Direction) (h : board.hasWall x y d = true) (r : Int × Int) :
    Solver.SlideResult board x y d robots mover r ↔ r = (x, y) := by
  have hne : ¬ Enterable board robots mover x y d := fun he => by
    rw [he.1] at h; exact Bool.false_ne_true h
  constructor
  · rintro ⟨fuel, hf⟩
    cases fuel with
    | zero => simp [Solver.simulateMove, slideLoop] at hf
    | succ n =>
      rw [Solver.simulateMove, slideLoop_succ, if_neg hne] at hf
      exact (Option.some.inj hf).symm
  · rintro rfl
    exact ⟨1, by rw [Solver.simulateMove, slideLoop_succ, if_neg hne]⟩

/-- Witness of C8: robot 0 at (3, 3) on `wallBoard`, pushed RIGHT against the wall. -/
theorem simulateMove_walled_witness :
    wallBoard.hasWall 3 3 .RIGHT = true ∧
      Solver.SlideResult wallBoard 3 3 .RIGHT (Robots.ofList [(3, 3), (0, 0), (1, 0), (2, 0), (4, 0)])
        0 (3, 3) :=
  ⟨by decide, (simulateMove_walled wallBoard _ 0 3 3 .RIGHT (by decide) (3, 3)).mpr rfl⟩

theorem deflect_eq_table (o : DiagonalOrientation) (d : Direction) :
    deflect o d = deflectionTable o d := by
  cases o <;> cases d <;> rfl

/-- Entering a cell and continuing from it: the slide from `(x, y)` has the results of
the slide that starts on the entered cell in the exit direction. -/
theorem SlideResult_enter {b : Board} {c : Robots} {m : Nat} {x y : Int} {d : Direction}
    (he : Enterable b c m x y d) (r : Int × Int) :
    Solver.SlideResult b x y d c m r ↔
      Solver.SlideResult b (nextCell x y d).1 (nextCell x y d).2.1
        (exitDir b m (nextCell x y d).1 (nextCell x y d).2.1 d) c m r := by
  constructor
  · rintro ⟨fuel, hf⟩
    cases fuel with
    | zero => simp [Solver.simulateMove, slideLoop] at hf
    | succ n =>
      rw [Solver.simulateMove, slideLoop_succ, if_pos he] at hf
      exact ⟨n, hf⟩
  · rintro ⟨fuel, hf⟩
    exact ⟨fuel + 1, by rw [Solver.simulateMove, slideLoop_succ, if_pos he]; exact hf⟩

theorem exitDir_deflector {b : Board} {m : Nat} {x y : Int} {d : Direction} {color : Char}
    {o : DiagonalOrientation} (hd : b.getDiagonalWallInfo x y = some (color, o))
    (hc : color ≠ Board.getRobotColor m) : exitDir b m x y d = deflectionTable o d := by
  unfold exitDir
  rw [hd]
  simp only [ne_eq, hc, not_false_eq_true, if_true]
  exact deflect_eq_table o d

/-- Claim C9 (deflection table).  If the next cell in direction `d` can be entered (no
wall on the exit side, in bounds, no wall on the entry side, no other robot on it) and
holds a deflector of orientation `o` whose colour is not the mover's, the slide from the
start has exactly the results of the slide that starts on the deflector cell in
direction `deflectionTable o d`. -/
theorem deflection_follows_table (board : Board) (robots : Robots) (mover : Nat) (x y : Int)
    (d : Direction) (color : Char) (o : DiagonalOrientation)
    (hexit : board.hasWall x y d = false)
    (hin : board.outOfBounds (nextCell x y d).1 (nextCell x y d).2.1 = false)
    (hentry : board.hasWall (nextCell x y d).1 (nextCell x y d).2.1 (nextCell x y d).2.2 = false)
    (hfree : FreeCell robots mover (nextCell x y d).1 (nextCell x y d).2.1)
    (hdefl : board.getDiagonalWallInfo (nextCell x y d).1 (nextCell x y d).2.1 = some (color, o))
    (hcol : color ≠ Board.getRobotColor mover) (r : Int × Int) :
    Solver.SlideResult board x y d robots mover r ↔
      Solver.SlideResult board (nextCell x y d).1 (nextCell x y d).2.1 (deflectionTable o d)
        robots mover r := by
  have he : Enterable board robots mover x y d :=
    ⟨hexit, hin, hentry, collision_eq_false.mpr hfree⟩
  rw [SlideResult_enter he, exitDir_deflector hdefl hcol]

/-- Witness of C9: robot 0 (Red) at (0, 1) on `chainBoard` sliding RIGHT into the Blue
NW-SE deflector at (1, 1) continues from there DOWN. -/
theorem deflection_follows_table_witness :
    Solver.SlideResult chainBoard 0 1 .RIGHT chainRobots 0 (0, 2) ↔
      Solver.SlideResult chainBoard 1 1 .DOWN chainRobots 0 (0, 2) :=
  deflection_follows_table chainBoard chainRobots 0 0 1 .RIGHT 'B' .NW_SE
    (by decide) (by decide) (by decide) (by decide) (by decide) (by decide) (0, 2)

/-- Claim C10 (deflector chains).  When the first cell of a slide can be entered and
holds a deflector of another colour, and the cell next to it in the exit direction can
be entered and holds a deflector of another colour too, the slide has exactly the
results of the slide that leaves the second deflector after both deflections: both are
applied within one slide. -/
theorem deflector_chain (board : Board) (robots : Robots) (mover : Nat) (x y : Int)
    (d : Direction) (color1 color2 : Char) (o1 o2 : DiagonalOrientation)
    (hfirst : Enterable board robots mover x y d)
    (hdefl1 : board.getDiagonalWallInfo (nextCell x y d).1 (nextCell x y d).2.1
      = some (color1, o1))
    (hcol1 : color1 ≠ Board.getRobotColor mover)
    (hsecond : Enterable board robots mover (nextCell x y d).1 (nextCell x y d).2.1
      (deflectionTable o1 d))
    (hdefl2 : board.getDiagonalWallInfo
        (nextCell (nextCell x y d).1 (nextCell x y d).2.1 (deflectionTable o1 d)).1
        (nextCell (nextCell x y d).1 (nextCell x y d).2.1 (deflectionTable o1 d)).2.1
      = some (color2, o2))
    (hcol2 : color2 ≠ Board.getRobotColor mover) (r : Int × Int) :
    Solver.SlideResult board x y d robots mover r ↔
      Solver.SlideResult board
        (nextCell (nextCell x y d).1 (nextCell x y d).2.1 (deflectionTable o1 d)).1
        (nextCell (nextCell x y d).1 (nextCell x y d).2.1 (deflectionTable o1 d)).2.1
        (deflectionTable o2 (deflectionTable o1 d)) robots mover r := by
  rw [SlideResult_enter hfirst, exitDir_deflector hdefl1 hcol1, SlideResult_enter hsecond,
    exitDir_deflector hdefl2 hcol2]

/-- Witness of C10: on `chainBoard`, robot 0 (Red) at (0, 1) sliding RIGHT is deflected
at (1, 1) and at (1, 2) and rests at (0, 2). -/
theorem deflector_chain_witness :
    Solver.SlideResult chainBoard 0 1 .RIGHT chainRobots 0 (0, 2) :=
  (deflector_chain chainBoard chainRobots 0 0 1 .RIGHT 'B' 'B' .NW_SE .NE_SW
    (by decide) (by decide) (by decide) (by decide) (by decide) (by decide) (0, 2)).mpr
    ⟨2, by decide⟩

/-! ## Termination of slides -/

theorem loopCycle_closed :
    ∀ s ∈ loopCycle, ∃ s' ∈ loopCycle,
      slideStep loopBoard loopRobots 0 s.1 s.2.1 s.2.2 = .go s'.1 s'.2.1 s'.2.2 := by
  decide

theorem loopCycle_diverges (fuel : Nat) :
    ∀ s ∈ loopCycle, slideLoop loopBoard loopRobots 0 fuel s.1 s.2.1 s.2.2 = none := by
  induction fuel with
  | zero => intro s _; rfl
  | succ n ih =>
    intro s hs
    obtain ⟨s', hs', hstep⟩ := loopCycle_closed s hs
    rw [slideLoop, hstep]
    exact ih s' hs'

/-- Counterexample to C4: on `loopBoard` the slide of robot 0 from (1, 0) to the RIGHT
returns no resting cell, whatever the number of iterations: the robot circulates around
the four deflectors. -/
theorem slide_runs_forever :
    loopBoard.ValidConfig loopRobots ∧
      ¬ ∃ r, Solver.SlideResult loopBoard 1 0 .RIGHT loopRobots 0 r := by
  refine ⟨by decide, ?_⟩
  rintro ⟨r, fuel, hf⟩
  have := loopCycle_diverges fuel (1, 0, .RIGHT) (by decide)
  rw [Solver.simulateMove] at hf
  rw [hf] at this
  cases this

theorem exitDir_of_no_foreign {b : Board} {m : Nat}
    (h : ∀ cx cy color o, b.getDiagonalWallInfo cx cy = some (color, o) →
      color = Board.getRobotColor m) (x y : Int) (d : Direction) : exitDir b m x y d = d := by
  unfold exitDir
  split
  · rename_i color o hd
    simp [h x y color o hd]
  · rfl

/-- Without a deflector of another colour the direction never changes, and the number
of iterations is bounded by the distance to the edge of the grid. -/
theorem slideLoop_straight {b : Board} {c : Robots} {m : Nat}
    (h : ∀ cx cy color o, b.getDiagonalWallInfo cx cy = some (color, o) →
      color = Board.getRobotColor m) (d : Direction) :
    ∀ (n : Nat) (x y : Int),
      (match d with
        | .RIGHT => b.width - x
        | .LEFT => x + 1
        | .DOWN => b.height - y
        | .UP => y + 1) ≤ (n : Int) →
      ∃ r, slideLoop b c m (n + 1) x y d = some r := by
  intro n
  induction n with
  | zero =>
    intro x y hlt
    rw [slideLoop_succ]
    split
    · rename_i he
      exfalso
      have h1 := outOfBounds_eq_false.mp (hasWall_false_inBounds he.1)
      have h2 := outOfBounds_eq_false.mp he.2.1
      cases d <;> simp only [nextCell] at h2 <;> simp only at hlt <;> omega
    · exact ⟨_, rfl⟩
  | succ n ih =>
    intro x y hlt
    rw [slideLoop_succ]
    split
    · rename_i he
      rw [exitDir_of_no_foreign h]
      apply ih
      have h1 := outOfBounds_eq_false.mp (hasWall_false_inBounds he.1)
      have h2 := outOfBounds_eq_false.mp he.2.1
      cases d <;> simp only [nextCell] at h2 ⊢ <;> simp only at hlt <;> omega
    · exact ⟨_, rfl⟩

theorem slide_terminates_of_no_foreign {board : Board} {mover : Nat}
    (h : ∀ cx cy color o, board.getDiagonalWallInfo cx cy = some (color, o) →
      color = Board.getRobotColor mover) (robots : Robots) (x y : Int) (d : Direction) :
    ∃ r, Solver.SlideResult board x y d robots mover r := by
  obtain ⟨r, hr⟩ := slideLoop_straight (c := robots) h d
    (match d with
      | .RIGHT => board.width - x
      | .LEFT => x + 1
      | .DOWN => board.height - y
      | .UP => y + 1).toNat x y (Int.self_le_toNat _)
  exact ⟨r, _, hr⟩

/-- On a board without deflectors every slide terminates. -/
theorem slidesTerminate_of_no_deflector {b : Board} (h : ∀ x y, b.diagonalWalls x y = none) :
    SlidesTerminate b := by
  intro c m x y d
  refine slide_terminates_of_no_foreign (fun cx cy color o hd => ?_) c x y d
  unfold Board.getDiagonalWallInfo at hd
  rw [h] at hd
  split at hd <;> cases hd

theorem emptyBoard_no_deflector (w h : Int) (m : Nat) :
    ∀ cx cy color o, (emptyBoard w h).getDiagonalWallInfo cx cy = some (color, o) →
      color = Board.getRobotColor m := by
  intro cx cy color o hd
  unfold Board.getDiagonalWallInfo emptyBoard at hd
  split at hd <;> cases hd

/-! ## Slides that do not terminate run around deflectors -/

theorem slideOrbit_shift (b : Board) (m : Nat) (s : Int × Int × Direction) (n : Nat) :
    slideOrbit b m (slideNext b m s) n = slideOrbit b m s (n + 1) := by
  induction n with
  | zero => rfl
  | succ n ih => simp only [slideOrbit, ih]

theorem slideOrbit_add (b : Board) (m : Nat) (s : Int × Int × Direction) (i n : Nat) :
    slideOrbit b m (slideOrbit b m s i) n = slideOrbit b m s (i + n) := by
  induction n with
  | zero => rfl
  | succ n ih =>
    show slideNext b m (slideOrbit b m (slideOrbit b m s i) n)
      = slideNext b m (slideOrbit b m s (i + n))
    rw [ih]

/-- A slide that never returns can enter the next cell, and the slide from the next
loop state never returns either. -/
theorem diverges_step {b : Board} {c : Robots} {m : Nat} {s : Int × Int × Direction}
    (h : ∀ fuel, slideLoop b c m fuel s.1 s.2.1 s.2.2 = none) :
    Enterable b c m s.1 s.2.1 s.2.2 ∧
      ∀ fuel, slideLoop b c m fuel (slideNext b m s).1 (slideNext b m s).2.1
        (slideNext b m s).2.2 = none := by
  have he : Enterable b c m s.1 s.2.1 s.2.2 := by
    by_contra hne
    have := h 1
    rw [slideLoop_succ, if_neg hne] at this
    cases this
  refine ⟨he, fun fuel => ?_⟩
  have := h (fuel + 1)
  rw [slideLoop_succ, if_pos he] at this
  exact this

/-- Every loop state of a slide that never returns can enter the next cell. -/
theorem diverges_orbit {b : Board} {c : Robots} {m : Nat} {s : Int × Int × Direction}
    (h : ∀ fuel, slideLoop b c m fuel s.1 s.2.1 s.2.2 = none) :
    ∀ n, Enterable b c m (slideOrbit b m s n).1 (slideOrbit b m s n).2.1
      (slideOrbit b m s n).2.2 := by
  have key : ∀ n, ∀ fuel, slideLoop b c m fuel (slideOrbit b m s n).1 (slideOrbit b m s n).2.1
      (slideOrbit b m s n).2.2 = none := by
    intro n
    induction n with
    | zero => exact h
    | succ n ih => exact (diverges_step ih).2
  exact fun n => (diverges_step (key n)).1

/-- When every loop state can enter the next cell, the slide never returns. -/
theorem diverges_of_orbit {b : Board} {c : Robots} {m : Nat} :
    ∀ (fuel : Nat) (s : Int × Int × Direction),
      (∀ n, Enterable b c m (slideOrbit b m s n).1 (slideOrbit b m s n).2.1
        (slideOrbit b m s n).2.2) →
      slideLoop b c m fuel s.1 s.2.1 s.2.2 = none := by
  intro fuel
  induction fuel with
  | zero => intro s _; rfl
  | succ n ih =>
    intro s h
    have h0 : Enterable b c m s.1 s.2.1 s.2.2 := h 0
    rw [slideLoop_succ, if_pos h0]
    apply ih (slideNext b m s)
    intro k
    rw [slideOrbit_shift]
    exact h (k + 1)

theorem deflect_involutive (o : DiagonalOrientation) (d : Direction) :
    deflect o (deflect o d) = d := by
  cases o <;> cases d <;> rfl

theorem exitDir_involutive (b : Board) (m : Nat) (x y : Int) (d : Direction) :
    exitDir b m x y (exitDir b m x y d) = d := by
  unfold exitDir
  cases b.getDiagonalWallInfo x y with
  | none => rfl
  | some p =>
    obtain ⟨color, o⟩ := p
    simp only
    split
    · exact deflect_involutive o d
    · rfl

/-- A loop state has one predecessor only. -/
theorem slideNext_injective (b : Board) (m : Nat) {s t : Int × Int × Direction}
    (h : slideNext b m s = slideNext b m t) : s = t := by
  obtain ⟨x, y, d⟩ := s
  obtain ⟨x', y', d'⟩ := t
  simp only [slideNext, Prod.mk.injEq] at h
  obtain ⟨h1, h2, h3⟩ := h
  have hd : d = d' := by
    have := congrArg (exitDir b m (nextCell x y d).1 (nextCell x y d).2.1) h3
    rw [exitDir_involutive] at this
    rw [this, h1, h2, exitDir_involutive]
  subst hd
  have hx : x = x' ∧ y = y' := by
    cases d <;> simp only [nextCell] at h1 h2 <;> omega
  rw [hx.1, hx.2]

theorem slideOrbit_cancel (b : Board) (m : Nat) (s : Int × Int × Direction) (p : Nat) :
    ∀ i, slideOrbit b m s (i + p) = slideOrbit b m s i → slideOrbit b m s p = s := by
  intro i
  induction i with
  | zero => intro h; simpa using h
  | succ i ih =>
    intro h
    apply ih
    have e : i + 1 + p = (i + p) + 1 := by omega
    rw [e] at h
    exact slideNext_injective b m h

/-- The loop states of a slide that can always enter the next cell are on cells of the
grid. -/
theorem enterable_inBounds {b : Board} {c : Robots} {m : Nat} {x y : Int} {d : Direction}
    (h : Enterable b c m x y d) : (0 ≤ x ∧ x < b.width) ∧ (0 ≤ y ∧ y < b.height) :=
  outOfBounds_eq_false.mp (hasWall_false_inBounds h.1)

/-- A slide that never returns comes back to its first loop state. -/
theorem diverges_periodic {b : Board} {c : Robots} {m : Nat} {s : Int × Int × Direction}
    (h : ∀ fuel, slideLoop b c m fuel s.1 s.2.1 s.2.2 = none) :
    ∃ p, 0 < p ∧ slideOrbit b m s p = s := by
  classical
  have hent := diverges_orbit h
  let T : Finset (Int × Int × Direction) :=
    Finset.Icc (0 : Int) (b.width - 1) ×ˢ
      (Finset.Icc (0 : Int) (b.height - 1) ×ˢ (Finset.univ : Finset Direction))
  have hmaps : ∀ n ∈ Finset.range (T.card + 1), slideOrbit b m s n ∈ T := by
    intro n _
    have := enterable_inBounds (hent n)
    simp only [T, Finset.mem_product, Finset.mem_Icc, Finset.mem_univ, and_true]
    omega
  obtain ⟨i, _, j, _, hij, heq⟩ :=
    Finset.exists_ne_map_eq_of_card_lt_of_maps_to (by simp) hmaps
  rcases Nat.lt_or_gt_of_ne hij with hlt | hlt
  · refine ⟨j - i, by omega, slideOrbit_cancel b m s (j - i) i ?_⟩
    rw [show i + (j - i) = j by omega, heq]
  · refine ⟨i - j, by omega, slideOrbit_cancel b m s (i - j) j ?_⟩
    rw [show j + (i - j) = i by omega, heq]

/-- A turn at a corner of the course.  The loop state `(x, y, d)` follows on `t0`; the
robot did not come from the neighbour of `(x, y)` on the side `va` (up or down) nor from
the one on the side `hb` (left or right), and it leaves to neither of them.  Then the
cell holds a deflector that turns the mover, and its orientation is fixed by the two
sides. -/
theorem corner_deflector {b : Board} {m : Nat} (t0 : Int × Int × Direction)
    (va hb : Direction) (hva : va = .UP ∨ va = .DOWN) (hhb : hb = .LEFT ∨ hb = .RIGHT)
    (x y : Int) (d : Direction) (ht : slideNext b m t0 = (x, y, d))
    (hp_v : (t0.1, t0.2.1) ≠ ((nextCell x y va).1, (nextCell x y va).2.1))
    (hp_h : (t0.1, t0.2.1) ≠ ((nextCell x y hb).1, (nextCell x y hb).2.1))
    (hn_v : d ≠ va) (hn_h : d ≠ hb) :
    ForeignDeflector b m (if (va = .UP ↔ hb = .LEFT) then .NE_SW else .NW_SE) (x, y) := by
  obtain ⟨x0, y0, d0⟩ := t0
  simp only [slideNext, Prod.mk.injEq] at ht
  obtain ⟨hx, hy, hd⟩ := ht
  rw [hx, hy] at hd
  unfold exitDir at hd
  unfold ForeignDeflector
  simp only
  cases hinfo : b.getDiagonalWallInfo x y with
  | none =>
    rw [hinfo] at hd
    simp only at hd
    subst hd
    exfalso
    rcases hva with rfl | rfl <;> rcases hhb with rfl | rfl <;> cases d0 <;>
      simp [nextCell] at hx hy hp_v hp_h hn_v hn_h <;> omega
  | some p =>
    obtain ⟨color, o⟩ := p
    rw [hinfo] at hd
    simp only at hd
    by_cases hc : color = Board.getRobotColor m
    · rw [if_neg (not_not.mpr hc)] at hd
      subst hd
      exfalso
      rcases hva with rfl | rfl <;> rcases hhb with rfl | rfl <;> cases d0 <;>
        simp [nextCell] at hx hy hp_v hp_h hn_v hn_h <;> omega
    · rw [if_pos hc] at hd
      refine ⟨color, ?_, hc⟩
      subst hd
      rcases hva with rfl | rfl <;> rcases hhb with rfl | rfl <;> cases d0 <;> cases o <;>
        simp [nextCell, deflect] at hx hy hp_v hp_h hn_v hn_h ⊢ <;> omega

/-- Every loop state of a slide that comes back to its first loop state follows on a
loop state of the slide. -/
theorem slideOrbit_pred {b : Board} {m : Nat} {s : Int × Int × Direction} {p : Nat}
    (hp : 0 < p) (hper : slideOrbit b m s p = s) (n : Nat) :
    ∃ k, slideOrbit b m s (k + 1) = slideOrbit b m s n := by
  cases n with
  | zero => exact ⟨p - 1, by rw [show p - 1 + 1 = p by omega, hper]; rfl⟩
  | succ n => exact ⟨n, rfl⟩

/-- A corner of the course of a slide: a cell of the course whose neighbours on the
sides `va` and `hb` are not on the course holds a deflector that turns the mover. -/
theorem orbit_corner {b : Board} {m : Nat} {s : Int × Int × Direction}
    (hpred : ∀ n, ∃ k, slideOrbit b m s (k + 1) = slideOrbit b m s n)
    (va hb : Direction) (hva : va = .UP ∨ va = .DOWN) (hhb : hb = .LEFT ∨ hb = .RIGHT)
    (n : Nat)
    (hv : ∀ k, ((slideOrbit b m s k).1, (slideOrbit b m s k).2.1) ≠
      ((nextCell (slideOrbit b m s n).1 (slideOrbit b m s n).2.1 va).1,
        (nextCell (slideOrbit b m s n).1 (slideOrbit b m s n).2.1 va).2.1))
    (hh : ∀ k, ((slideOrbit b m s k).1, (slideOrbit b m s k).2.1) ≠
      ((nextCell (slideOrbit b m s n).1 (slideOrbit b m s n).2.1 hb).1,
        (nextCell (slideOrbit b m s n).1 (slideOrbit b m s n).2.1 hb).2.1)) :
    ForeignDeflector b m (if (va = .UP ↔ hb = .LEFT) then .NE_SW else .NW_SE)
      ((slideOrbit b m s n).1, (slideOrbit b m s n).2.1) := by
  obtain ⟨k, hk⟩ := hpred n
  have hnext : slideOrbit b m s (n + 1) = slideNext b m (slideOrbit b m s n) := rfl
  refine corner_deflector (slideOrbit b m s k) va hb hva hhb _ _ (slideOrbit b m s n).2.2
    hk (hv k) (hh k) ?_ ?_
  · intro hd
    apply hv (n + 1)
    rw [hnext]
    simp only [slideNext, hd]
  · intro hd
    apply hh (n + 1)
    rw [hnext]
    simp only [slideNext, hd]

theorem foreignDeflector_orientation {b : Board} {m : Nat} {p : Int × Int}
    (h1 : ForeignDeflector b m .NE_SW p) (h2 : ForeignDeflector b m .NW_SE p) : False := by
  obtain ⟨c1, e1, _⟩ := h1
  obtain ⟨c2, e2, _⟩ := h2
  rw [e1] at e2
  cases e2

/-- A slide that never returns turns at four distinct deflectors of a colour other than
the mover's: the leftmost and the rightmost cell of the top row of its course and of the
bottom row of its course. -/
theorem diverges_four_deflectors {b : Board} {c : Robots} {m : Nat}
    {s : Int × Int × Direction}
    (h : ∀ fuel, slideLoop b c m fuel s.1 s.2.1 s.2.2 = none) :
    ∃ p1 p2 p3 p4 : Int × Int,
      ForeignDeflector b m .NE_SW p1 ∧ ForeignDeflector b m .NW_SE p2 ∧
      ForeignDeflector b m .NW_SE p3 ∧ ForeignDeflector b m .NE_SW p4 ∧
      p1 ≠ p4 ∧ p2 ≠ p3 := by
  obtain ⟨p, hp, hper⟩ := diverges_periodic h
  have hpred := slideOrbit_pred (b := b) (m := m) hp hper
  have hb : ∀ n, (0 ≤ (slideOrbit b m s n).1 ∧ (slideOrbit b m s n).1 < b.width) ∧
      (0 ≤ (slideOrbit b m s n).2.1 ∧ (slideOrbit b m s n).2.1 < b.height) :=
    fun n => enterable_inBounds (diverges_orbit h n)
  -- the top row and the bottom row of the course
  obtain ⟨ymin, ⟨n0, hn0⟩, hymin⟩ :=
    Int.exists_least_of_bdd (P := fun y => ∃ n, (slideOrbit b m s n).2.1 = y)
      ⟨0, fun z ⟨n, hn⟩ => hn ▸ (hb n).2.1⟩ ⟨_, 0, rfl⟩
  obtain ⟨ymax, ⟨n0', hn0'⟩, hymax⟩ :=
    Int.exists_greatest_of_bdd (P := fun y => ∃ n, (slideOrbit b m s n).2.1 = y)
      ⟨b.height, fun z ⟨n, hn⟩ => hn ▸ le_of_lt (hb n).2.2⟩ ⟨_, 0, rfl⟩
  -- their leftmost and rightmost cells
  obtain ⟨xTL, ⟨n1, hn1, hn1y⟩, hxTL⟩ :=
    Int.exists_least_of_bdd
      (P := fun x => ∃ n, (slideOrbit b m s n).1 = x ∧ (slideOrbit b m s n).2.1 = ymin)
      ⟨0, fun z ⟨n, hn, _⟩ => hn ▸ (hb n).1.1⟩ ⟨_, n0, rfl, hn0⟩
  obtain ⟨xTR, ⟨n2, hn2, hn2y⟩, hxTR⟩ :=
    Int.exists_greatest_of_bdd
      (P := fun x => ∃ n, (slideOrbit b m s n).1 = x ∧ (slideOrbit b m s n).2.1 = ymin)
      ⟨b.width, fun z ⟨n, hn, _⟩ => hn ▸ le_of_lt (hb n).1.2⟩ ⟨_, n0, rfl, hn0⟩
  obtain ⟨xBL, ⟨n3, hn3, hn3y⟩, hxBL⟩ :=
    Int.exists_least_of_bdd
      (P := fun x => ∃ n, (slideOrbit b m s n).1 = x ∧ (slideOrbit b m s n).2.1 = ymax)
      ⟨0, fun z ⟨n, hn, _⟩ => hn ▸ (hb n).1.1⟩ ⟨_, n0', rfl, hn0'⟩
  obtain ⟨xBR, ⟨n4, hn4, hn4y⟩, hxBR⟩ :=
    Int.exists_greatest_of_bdd
      (P := fun x => ∃ n, (slideOrbit b m s n).1 = x ∧ (slideOrbit b m s n).2.1 = ymax)
      ⟨b.width, fun z ⟨n, hn, _⟩ => hn ▸ le_of_lt (hb n).1.2⟩ ⟨_, n0', rfl, hn0'⟩
  have c1 : ForeignDeflector b m .NE_SW (xTL, ymin) := by
    have := orbit_corner hpred .UP .LEFT (Or.inl rfl) (Or.inl rfl) n1
      (fun k hk => by
        simp only [nextCell, Prod.mk.injEq] at hk
        have := hymin _ ⟨k, rfl⟩
        omega)
      (fun k hk => by
        simp only [nextCell, Prod.mk.injEq] at hk
        have := hxTL _ ⟨k, rfl, by omega⟩
        omega)
    simpa [hn1, hn1y] using this
  have c2 : ForeignDeflector b m .NW_SE (xTR, ymin) := by
    have := orbit_corner hpred .UP .RIGHT (Or.inl rfl) (Or.inr rfl) n2
      (fun k hk => by
        simp only [nextCell, Prod.mk.injEq] at hk
        have := hymin _ ⟨k, rfl⟩
        omega)
      (fun k hk => by
        simp only [nextCell, Prod.mk.injEq] at hk
        have := hxTR _ ⟨k, rfl, by omega⟩
        omega)
    simpa [hn2, hn2y] using this
  have c3 : ForeignDeflector b m .NW_SE (xBL, ymax) := by
    have := orbit_corner hpred .DOWN .LEFT (Or.inr rfl) (Or.inl rfl) n3
      (fun k hk => by
        simp only [nextCell, Prod.mk.injEq] at hk
        have := hymax _ ⟨k, rfl⟩
        omega)
      (fun k hk => by
        simp only [nextCell, Prod.mk.injEq] at hk
        have := hxBL _ ⟨k, rfl, by omega⟩
        omega)
    simpa [hn3, hn3y] using this
  have c4 : ForeignDeflector b m .NE_SW (xBR, ymax) := by
    have := orbit_corner hpred .DOWN .RIGHT (Or.inr rfl) (Or.inr rfl) n4
      (fun k hk => by
        simp only [nextCell, Prod.mk.injEq] at hk
        have := hymax _ ⟨k, rfl⟩
        omega)
      (fun k hk => by
        simp only [nextCell, Prod.mk.injEq] at hk
        have := hxBR _ ⟨k, rfl, by omega⟩
        omega)
    simpa [hn4, hn4y] using this
  -- the top row is not the bottom row: its leftmost cell would have both orientations
  have hrows : ymin ≠ ymax := by
    intro e
    subst e
    have e1 : xTL = xBL :=
      le_antisymm (hxTL _ ⟨n3, hn3, hn3y⟩) (hxBL _ ⟨n1, hn1, hn1y⟩)
    rw [← e1] at c3
    exact foreignDeflector_orientation c1 c3
  refine ⟨(xTL, ymin), (xTR, ymin), (xBL, ymax), (xBR, ymax), c1, c2, c3, c4, ?_, ?_⟩
  · intro e
    exact hrows (Prod.mk.inj e).2
  · intro e
    exact hrows (Prod.mk.inj e).2

/-- The call does not return exactly when the loop runs out of every iteration bound. -/
theorem not_slideResult_iff (board : Board) (robots : Robots) (mover : Nat)
    (x y : Int) (d : Direction) :
    (¬ ∃ r, Solver.SlideResult board x y d robots mover r) ↔
      ∀ fuel, slideLoop board robots mover fuel x y d = none := by
  constructor
  · intro h fuel
    cases hr : slideLoop board robots mover fuel x y d with
    | none => rfl
    | some r => exact absurd ⟨r, fuel, hr⟩ h
  · rintro h ⟨r, fuel, hr⟩
    have : slideLoop board robots mover fuel x y d = some r := hr
    rw [h fuel] at this
    cases this

/-- A slide that comes back to its first loop state goes on for ever. -/
theorem cycle_enterable {b : Board} {c : Robots} {m : Nat} {s : Int × Int × Direction}
    {p : Nat} (hp : 0 < p) (hper : slideOrbit b m s p = s)
    (hent : ∀ n, n < p → Enterable b c m (slideOrbit b m s n).1 (slideOrbit b m s n).2.1
      (slideOrbit b m s n).2.2) :
    ∀ n, Enterable b c m (slideOrbit b m s n).1 (slideOrbit b m s n).2.1
      (slideOrbit b m s n).2.2 := by
  intro n
  induction n using Nat.strong_induction_on with
  | _ n ih =>
    by_cases hn : n < p
    · exact hent n hn
    · have e : slideOrbit b m s n = slideOrbit b m s (n - p) := by
        have := slideOrbit_add b m s p (n - p)
        rw [hper, show p + (n - p) = n by omega] at this
        exact this.symm
      rw [e]
      exact ih (n - p) (by omega)

/-- The slide returns a resting cell exactly when it does not come back to its first
loop state. -/
theorem slideResult_iff_no_cycle (board : Board) (robots : Robots) (mover : Nat)
    (x y : Int) (d : Direction) :
    (∃ r, Solver.SlideResult board x y d robots mover r) ↔
      ¬ ∃ p, 0 < p ∧ slideOrbit board mover (x, y, d) p = (x, y, d) ∧
        ∀ n, n < p → Enterable board robots mover (slideOrbit board mover (x, y, d) n).1
          (slideOrbit board mover (x, y, d) n).2.1 (slideOrbit board mover (x, y, d) n).2.2 := by
  constructor
  · rintro hr ⟨p, hp, hper, hent⟩
    refine (not_slideResult_iff board robots mover x y d).mpr ?_ hr
    intro fuel
    exact diverges_of_orbit fuel (x, y, d) (cycle_enterable hp hper hent)
  · intro hno
    by_contra hr
    have hdiv := (not_slideResult_iff board robots mover x y d).mp hr
    obtain ⟨p, hp, hper⟩ := diverges_periodic (s := (x, y, d)) hdiv
    exact hno ⟨p, hp, hper, fun n _ => diverges_orbit (s := (x, y, d)) hdiv n⟩

/-- A slide that does not return turns at four distinct deflectors of a colour other
than the mover's, two of each orientation. -/
theorem no_slideResult_four_deflectors {board : Board} {robots : Robots} {mover : Nat}
    {x y : Int} {d : Direction}
    (h : ¬ ∃ r, Solver.SlideResult board x y d robots mover r) :
    ∃ p1 p2 p3 p4 : Int × Int,
      ForeignDeflector board mover .NE_SW p1 ∧ ForeignDeflector board mover .NW_SE p2 ∧
      ForeignDeflector board mover .NW_SE p3 ∧ ForeignDeflector board mover .NE_SW p4 ∧
      p1 ≠ p4 ∧ p2 ≠ p3 :=
  diverges_four_deflectors (s := (x, y, d))
    ((not_slideResult_iff board robots mover x y d).mp h)

/-- The slide returns a resting cell on every board that has at most one deflector that
turns the mover of one of the two orientations. -/
theorem slide_terminates_of_few_deflectors {board : Board} {mover : Nat}
    (h : (∀ p q, ForeignDeflector board mover .NE_SW p → ForeignDeflector board mover .NE_SW q →
        p = q) ∨
      (∀ p q, ForeignDeflector board mover .NW_SE p → ForeignDeflector board mover .NW_SE q →
        p = q))
    (robots : Robots) (x y : Int) (d : Direction) :
    ∃ r, Solver.SlideResult board x y d robots mover r := by
  by_contra hr
  obtain ⟨p1, p2, p3, p4, c1, c2, c3, c4, h14, h23⟩ := no_slideResult_four_deflectors hr
  rcases h with h | h
  · exact h14 (h p1 p4 c1 c4)
  · exact h23 (h p2 p3 c2 c3)

/-- Claim C4, amended.  For every board (any walls, any deflectors), every robot
configuration, every mover and every direction: the call `simulateMove(x, y, d, robots,
mover)` terminates and returns a resting cell exactly when the slide does not come back,
after one or more iterations of the loop none of which breaks, to the cell and the
direction it started with; a slide that does not return turns at four distinct
deflectors of a colour other than the mover's, two of each orientation (the corners of
its course); hence the call terminates and returns a resting cell on every board on
which one of the two orientations has at most one deflector of a colour other than the
mover's, in particular on every board with fewer than four such deflectors. -/
theorem slide_terminates_unless_cycle (board : Board) (robots : Robots) (mover : Nat)
    (x y : Int) (d : Direction) :
    ((∃ r, Solver.SlideResult board x y d robots mover r) ↔
      ¬ ∃ p, 0 < p ∧ slideOrbit board mover (x, y, d) p = (x, y, d) ∧
        ∀ n, n < p → Enterable board robots mover (slideOrbit board mover (x, y, d) n).1
          (slideOrbit board mover (x, y, d) n).2.1
          (slideOrbit board mover (x, y, d) n).2.2) ∧
    ((¬ ∃ r, Solver.SlideResult board x y d robots mover r) →
      ∃ p1 p2 p3 p4 : Int × Int,
        ForeignDeflector board mover .NE_SW p1 ∧ ForeignDeflector board mover .NW_SE p2 ∧
        ForeignDeflector board mover .NW_SE p3 ∧ ForeignDeflector board mover .NE_SW p4 ∧
        p1 ≠ p4 ∧ p2 ≠ p3) ∧
    (((∀ p q, ForeignDeflector board mover .NE_SW p →
          ForeignDeflector board mover .NE_SW q → p = q) ∨
        (∀ p q, ForeignDeflector board mover .NW_SE p →
          ForeignDeflector board mover .NW_SE q → p = q)) →
      ∃ r, Solver.SlideResult board x y d robots mover r) :=
  ⟨slideResult_iff_no_cycle board robots mover x y d,
    no_slideResult_four_deflectors,
    fun h => slide_terminates_of_few_deflectors h robots x y d⟩

theorem chainBoard_NE_SW {p : Int × Int} {c : Char}
    (h : chainBoard.getDiagonalWallInfo p.1 p.2 = some (c, .NE_SW)) : p = (1, 2) := by
  obtain ⟨x, y⟩ := p
  unfold Board.getDiagonalWallInfo at h
  split at h
  · cases h
  · simp only [chainBoard] at h
    split_ifs at h with h1 h2
    · cases h
    · obtain ⟨rfl, rfl⟩ := h2
      rfl

/-- On `chainBoard` the Red robot is turned by a Blue deflector of each orientation, and
the board has one Blue deflector of orientation NE_SW only: the slide of the Red robot
at (0, 1) to the right, which is turned at (1, 1) and at (1, 2), returns a resting
cell. -/
theorem slide_terminates_unless_cycle_witness :
    ForeignDeflector chainBoard 0 .NW_SE (1, 1) ∧ ForeignDeflector chainBoard 0 .NE_SW (1, 2) ∧
      (∀ p q, ForeignDeflector chainBoard 0 .NE_SW p →
        ForeignDeflector chainBoard 0 .NE_SW q → p = q) ∧
      ∃ r, Solver.SlideResult chainBoard 0 1 .RIGHT chainRobots 0 r :=
  ⟨⟨'B', by decide, by decide⟩, ⟨'B', by decide, by decide⟩,
    fun p q hp hq => by
      obtain ⟨_, hp, _⟩ := hp
      obtain ⟨_, hq, _⟩ := hq
      rw [chainBoard_NE_SW hp, chainBoard_NE_SW hq],
    (slide_terminates_unless_cycle chainBoard chainRobots 0 0 1 .RIGHT).2.2
      (Or.inl (fun p q hp hq => by
        obtain ⟨_, hp, _⟩ := hp
        obtain ⟨_, hq, _⟩ := hq
        rw [chainBoard_NE_SW hp, chainBoard_NE_SW hq]))⟩

/-! ## Replay: basic facts -/

theorem simulateMove_mono {b : Board} {n k : Nat} {x y : Int} {d : Direction} {c : Robots}
    {m : Nat} {r : Int × Int} (h : Solver.simulateMove b n x y d c m = some r) (hk : n ≤ k) :
    Solver.simulateMove b k x y d c m = some r :=
  slideLoop_mono h hk

theorem replayMove_mk (b : Board) (fuel : Nat) (c : Robots) (i : Fin 5) (d : Direction) :
    replayMove b fuel c ⟨(i.val : Int), d⟩
      = (Solver.simulateMove b fuel (c i).1 (c i).2 d c i.val).map (setRobot c i) := by
  have hi : (0 : Int) ≤ (i.val : Int) ∧ ((i.val : Int)) < 5 := by omega
  unfold replayMove
  rw [dif_pos hi]
  simp only [Int.toNat_ofNat, Fin.eta]

theorem replayMove_some {b : Board} {fuel : Nat} {c c' : Robots} {m : Move}
    (h : replayMove b fuel c m = some c') :
    ∃ (i : Fin 5) (r : Int × Int), m = ⟨(i.val : Int), m.dir⟩ ∧
      Solver.simulateMove b fuel (c i).1 (c i).2 m.dir c i.val = some r ∧ c' = setRobot c i r := by
  unfold replayMove at h
  split at h
  · rename_i hr
    rw [Option.map_eq_some'] at h
    obtain ⟨r, hsim, rfl⟩ := h
    refine ⟨⟨m.robot.toNat, by omega⟩, r, ?_, hsim, rfl⟩
    cases m with
    | mk robot dir =>
      simp only [Move.mk.injEq, and_true]
      simp only at hr
      omega
  · cases h

theorem replayMove_mono {b : Board} {n k : Nat} {c c' : Robots} {m : Move}
    (h : replayMove b n c m = some c') (hk : n ≤ k) : replayMove b k c m = some c' := by
  obtain ⟨i, r, hm, hsim, rfl⟩ := replayMove_some h
  rw [hm, replayMove_mk, simulateMove_mono hsim hk]
  rfl

theorem replay_mono {b : Board} {n k : Nat} (hk : n ≤ k) :
    ∀ {moves : List Move} {c c' : Robots}, replay b n c moves = some c' →
      replay b k c moves = some c' := by
  intro moves
  induction moves with
  | nil => intro c c' h; exact h
  | cons m rest ih =>
    intro c c' h
    simp only [replay, Option.bind_eq_some] at h ⊢
    obtain ⟨c1, h1, h2⟩ := h
    exact ⟨c1, replayMove_mono h1 hk, ih h2⟩

theorem replay_append (b : Board) (fuel : Nat) :
    ∀ (p q : List Move) (c : Robots),
      replay b fuel c (p ++ q) = (replay b fuel c p).bind fun c' => replay b fuel c' q := by
  intro p
  induction p with
  | nil => intro q c; rfl
  | cons m rest ih =>
    intro q c
    simp only [List.cons_append, replay]
    cases replayMove b fuel c m with
    | none => rfl
    | some c1 => simp only [Option.some_bind]; exact ih q c1

theorem Replays_nil {b : Board} {c c' : Robots} (h : Replays b c [] c') : c' = c := by
  obtain ⟨fuel, hf⟩ := h
  simp only [replay, Option.some.injEq] at hf
  exact hf.symm

theorem Replays_snoc {b : Board} {c c' : Robots} {p : List Move} {i : Fin 5} {d : Direction}
    {r : Int × Int} (h : Replays b c p c')
    (hr : Solver.SlideResult b (c' i).1 (c' i).2 d c' i.val r) :
    Replays b c (p ++ [⟨(i.val : Int), d⟩]) (setRobot c' i r) := by
  obtain ⟨n, hn⟩ := h
  obtain ⟨k, hk⟩ := hr
  refine ⟨max n k, ?_⟩
  rw [replay_append, replay_mono (Nat.le_max_left n k) hn]
  simp only [Option.some_bind, replay]
  rw [replayMove_mk, simulateMove_mono hk (Nat.le_max_right n k)]
  rfl

theorem Replays_snoc_inv {b : Board} {c c'' : Robots} {p : List Move} {m : Move}
    (h : Replays b c (p ++ [m]) c'') :
    ∃ (c' : Robots) (i : Fin 5) (r : Int × Int), Replays b c p c' ∧
      Solver.SlideResult b (c' i).1 (c' i).2 m.dir c' i.val r ∧ c'' = setRobot c' i r := by
  obtain ⟨n, hn⟩ := h
  rw [replay_append] at hn
  simp only [Option.bind_eq_some] at hn
  obtain ⟨c', h1, h2⟩ := hn
  simp only [replay, Option.bind_eq_some, Option.some.injEq] at h2
  obtain ⟨c2, h3, rfl⟩ := h2
  obtain ⟨i, r, _, hsim, rfl⟩ := replayMove_some h3
  exact ⟨c', i, r, ⟨n, h1⟩, ⟨n, hsim⟩, rfl⟩

/-! ## Where a slide can end -/

/-- A slide ends on its start cell or on a cell of the grid. -/
theorem slideLoop_result {b : Board} {c : Robots} {m : Nat} :
    ∀ {n : Nat} {x y : Int} {d : Direction} {r : Int × Int},
      slideLoop b c m n x y d = some r → r = (x, y) ∨ b.outOfBounds r.1 r.2 = false := by
  intro n
  induction n with
  | zero => intro x y d r h; simp [slideLoop] at h
  | succ n ih =>
    intro x y d r h
    rw [slideLoop_succ] at h
    split at h
    · rename_i he
      rcases ih h with h1 | h1
      · right; rw [h1]; exact he.2.1
      · right; exact h1
    · left; exact (Option.some.inj h).symm

/-- From a cell of the grid that no other robot occupies, a slide ends on a cell of the
grid that no other robot occupies. -/
theorem slideLoop_free {b : Board} {c : Robots} {m : Nat} :
    ∀ {n : Nat} {x y : Int} {d : Direction} {r : Int × Int},
      slideLoop b c m n x y d = some r → b.outOfBounds x y = false → FreeCell c m x y →
      b.outOfBounds r.1 r.2 = false ∧ FreeCell c m r.1 r.2 := by
  intro n
  induction n with
  | zero => intro x y d r h; simp [slideLoop] at h
  | succ n ih =>
    intro x y d r h hb hf
    rw [slideLoop_succ] at h
    split at h
    · rename_i he
      exact ih h he.2.1 (collision_eq_false.mp he.2.2.2)
    · cases Option.some.inj h
      exact ⟨hb, hf⟩

theorem setRobot_same (c : Robots) (i : Fin 5) (p : Int × Int) : setRobot c i p i = p := by
  simp [setRobot]

theorem setRobot_other (c : Robots) {i j : Fin 5} (p : Int × Int) (h : j ≠ i) :
    setRobot c i p j = c j := by
  simp [setRobot, h]

theorem setRobot_self (c : Robots) (i : Fin 5) : setRobot c i (c i) = c := by
  funext j
  by_cases h : j = i
  · rw [h, setRobot_same]
  · rw [setRobot_other c _ h]

/-- One slide keeps a valid configuration valid. -/
theorem validConfig_slide {b : Board} {c : Robots} {i : Fin 5} {d : Direction}
    {r : Int × Int} (hv : b.ValidConfig c)
    (hr : Solver.SlideResult b (c i).1 (c i).2 d c i.val r) :
    b.ValidConfig (setRobot c i r) := by
  obtain ⟨fuel, hf⟩ := hr
  have hfree : FreeCell c i.val (c i).1 (c i).2 := by
    intro j hj
    exact hv.2 j i (fun h => hj (congrArg Fin.val h))
  obtain ⟨hb, hfr⟩ := slideLoop_free hf (hv.1 i) hfree
  constructor
  · intro j
    by_cases h : j = i
    · rw [h, setRobot_same]; exact hb
    · rw [setRobot_other c _ h]; exact hv.1 j
  · intro j k hjk
    by_cases hj : j = i
    · have hk : k ≠ i := fun h => hjk (hj.trans h.symm)
      rw [hj, setRobot_same, setRobot_other c _ hk]
      exact fun h => hfr k (fun hv' => hk (Fin.ext hv')) h.symm
    · by_cases hk : k = i
      · rw [hk, setRobot_same, setRobot_other c _ hj]
        exact hfr j (fun hv' => hj (Fin.ext hv'))
      · rw [setRobot_other c _ hj, setRobot_other c _ hk]
        exact hv.2 j k hjk

/-- On a board of width and height at most 16, one slide keeps the coordinates in
`0..15`. -/
theorem inRange_slide {b : Board} {c : Robots} {i : Fin 5} {d : Direction}
    {r : Int × Int} (hw : b.width ≤ 16) (hh : b.height ≤ 16) (hc : InRange c)
    (hr : Solver.SlideResult b (c i).1 (c i).2 d c i.val r) : InRange (setRobot c i r) := by
  obtain ⟨fuel, hf⟩ := hr
  intro j
  by_cases h : j = i
  · rw [h, setRobot_same]
    rcases slideLoop_result hf with h1 | h1
    · rw [h1]; exact hc i
    · have := outOfBounds_eq_false.mp h1
      omega
  · rw [setRobot_other c _ h]; exact hc j

theorem inRange_replays {b : Board} (hw : b.width ≤ 16) (hh : b.height ≤ 16) {c0 : Robots}
    (hc : InRange c0) : ∀ {moves : List Move} {c : Robots}, Replays b c0 moves c → InRange c := by
  intro moves
  induction moves using List.reverseRecOn with
  | nil => intro c h; rw [Replays_nil h]; exact hc
  | append_singleton p m ih =>
    intro c h
    obtain ⟨c', i, r, h1, h2, rfl⟩ := Replays_snoc_inv h
    exact inRange_slide hw hh (ih h1) h2

theorem validConfig_replays {b : Board} {c0 : Robots} (hc : b.ValidConfig c0) :
    ∀ {moves : List Move} {c : Robots}, Replays b c0 moves c → b.ValidConfig c := by
  intro moves
  induction moves using List.reverseRecOn with
  | nil => intro c h; rw [Replays_nil h]; exact hc
  | append_singleton p m ih =>
    intro c h
    obtain ⟨c', i, r, h1, h2, rfl⟩ := Replays_snoc_inv h
    exact validConfig_slide (ih h1) h2

/-! ## Reachability -/

theorem Within_mono {b : Board} {c0 : Robots} {n n' : Nat} {st : State} (h : n ≤ n')
    (hw : Within b c0 n st) : Within b c0 n' st := by
  obtain ⟨moves, c, hl, hr, he⟩ := hw
  exact ⟨moves, c, by omega, hr, he⟩

theorem Within_zero {b : Board} {c0 : Robots} {st : State} : ¬ Within b c0 0 st := by
  rintro ⟨moves, c, hl, _, _⟩
  omega

theorem Within_initial (b : Board) (c0 : Robots) (n : Nat) : Within b c0 (n + 1) (encode c0) :=
  ⟨[], c0, by simp, ⟨0, rfl⟩, rfl⟩

theorem Within_one {b : Board} {c0 : Robots} {st : State} (h : Within b c0 1 st) :
    st = encode c0 := by
  obtain ⟨moves, c, hl, hr, he⟩ := h
  have : moves = [] := List.length_eq_zero.mp (by omega)
  subst this
  rw [← he, Replays_nil hr]

/-- The configuration behind a reachable key is the decoded key. -/
theorem Within_decode {s : Solver} {c0 : Robots} (hs : Setup s c0) {n : Nat} {st : State}
    (h : Within s.board c0 n st) :
    ∃ moves, moves.length < n ∧ Replays s.board c0 moves (decode st) := by
  obtain ⟨moves, c, hl, hr, he⟩ := h
  have hc := inRange_replays hs.width_le hs.height_le hs.range hr
  refine ⟨moves, hl, ?_⟩
  rw [← he, decode_encode hc]
  exact hr

/-- A successor of a key reachable in fewer than `n` moves is reachable in fewer than
`n + 1` moves. -/
theorem Within_extend {s : Solver} {c0 : Robots} (hs : Setup s c0) {n : Nat} {p : State}
    (h : Within s.board c0 n p) {i : Fin 5} {d : Direction} {r : Int × Int}
    (hr : Solver.SlideResult s.board (decode p i).1 (decode p i).2 d (decode p) i.val r) :
    Within s.board c0 (n + 1) (encode (setRobot (decode p) i r)) := by
  obtain ⟨moves, hl, hrep⟩ := Within_decode hs h
  exact ⟨moves ++ [⟨(i.val : Int), d⟩], _, by simp; omega, Replays_snoc hrep hr, rfl⟩

/-- A key reachable in at most `n + 1` moves is reachable in at most `n` moves or is a
successor of a key reachable in at most `n` moves. -/
theorem Within_succ_cases {s : Solver} {c0 : Robots} (hs : Setup s c0) {n : Nat} {st : State}
    (h : Within s.board c0 (n + 2) st) :
    Within s.board c0 (n + 1) st ∨
      ∃ (p : State) (i : Fin 5) (d : Direction) (r : Int × Int),
        Within s.board c0 (n + 1) p ∧
        Solver.SlideResult s.board (decode p i).1 (decode p i).2 d (decode p) i.val r ∧
        st = encode (setRobot (decode p) i r) := by
  obtain ⟨moves, c, hl, hr, he⟩ := h
  by_cases hlen : moves.length < n + 1
  · exact Or.inl ⟨moves, c, hlen, hr, he⟩
  · right
    rcases List.eq_nil_or_concat moves with hnil | ⟨p, m, hpm⟩
    · subst hnil; simp at hlen
    · rw [List.concat_eq_append] at hpm
      subst hpm
      obtain ⟨c', i, r, h1, h2, rfl⟩ := Replays_snoc_inv hr
      have hc' := inRange_replays hs.width_le hs.height_le hs.range h1
      refine ⟨encode c', i, m.dir, r, ⟨p, c', ?_, h1, rfl⟩, ?_, ?_⟩
      · simp at hl; omega
      · rw [decode_encode hc']; exact h2
      · rw [decode_encode hc']; exact he.symm

/-! ## Record maps and path reconstruction -/

theorem Visited.Le.refl (v : Visited) : Visited.Le v v := fun _ _ h => h

theorem Visited.Le.trans {v1 v2 v3 : Visited} (h1 : Visited.Le v1 v2) (h2 : Visited.Le v2 v3) :
    Visited.Le v1 v3 := fun st r h => h2 st r (h1 st r h)

theorem Visited.Le.isSome {v v' : Visited} (h : Visited.Le v v') {st : State}
    (hs : (v st).isSome = true) : (v' st).isSome = true := by
  obtain ⟨r, hr⟩ := Option.isSome_iff_exists.mp hs
  rw [h st r hr]; rfl

theorem Visited.insert_same (v : Visited) (k : State) (r : State × Move) :
    v.insert k r k = some r := by
  simp [Visited.insert]

theorem Visited.insert_other (v : Visited) {k st : State} (r : State × Move) (h : st ≠ k) :
    v.insert k r st = v st := by
  simp [Visited.insert, h]

theorem Visited.le_insert {v : Visited} {k : State} (r : State × Move) (h : v k = none) :
    Visited.Le v (v.insert k r) := by
  intro st r' hr
  have : st ≠ k := fun e => by rw [e, h] at hr; cases hr
  rw [Visited.insert_other v r this]; exact hr

theorem PathTo_mono {v v' : Visited} {init st : State} {path : List Move}
    (hle : Visited.Le v v') (h : PathTo v init st path) : PathTo v' init st path := by
  induction h with
  | root h0 => exact PathTo.root (hle _ _ h0)
  | step _ hrec hm hne ih => exact PathTo.step ih (hle _ _ hrec) hm hne

theorem GoodPath_mono {s : Solver} {c0 : Robots} {fuel : Nat} {v v' : Visited} {st : State}
    {n : Nat} (hle : Visited.Le v v') (h : GoodPath s c0 fuel v st n) :
    GoodPath s c0 fuel v' st n := by
  obtain ⟨path, c, hp, hl, hr, he⟩ := h
  exact ⟨path, c, PathTo_mono hle hp, hl, hr, he⟩

theorem GoodPath.within {s : Solver} {c0 : Robots} {fuel : Nat} {v : Visited} {st : State}
    {n : Nat} (h : GoodPath s c0 fuel v st n) : Within s.board c0 (n + 1) st := by
  obtain ⟨path, c, _, hl, hr, he⟩ := h
  exact ⟨path, c, by omega, ⟨fuel, hr⟩, he⟩

/-- Walking the records from the end of a recorded chain collects its moves in reverse
order. -/
theorem reconstructLoop_pathTo {v : Visited} {init st : State} {path : List Move}
    (h : PathTo v init st path) :
    ∀ (n : Nat) (acc : List Move), path.length < n →
      reconstructLoop v n acc st = some (acc ++ path.reverse) := by
  induction h with
  | root h0 =>
    intro n acc hn
    obtain ⟨n', rfl⟩ : ∃ n', n = n' + 1 := ⟨n - 1, by omega⟩
    simp [reconstructLoop, h0, sentinel]
  | @step st p m path _ hrec hm hne ih =>
    intro n acc hn
    obtain ⟨n', rfl⟩ : ∃ n', n = n' + 1 := ⟨n - 1, by simp at hn; omega⟩
    simp only [reconstructLoop, hrec, hm, if_false, hne]
    rw [ih n' (acc ++ [m]) (by simp at hn; omega)]
    simp

theorem reconstructPathSequential_pathTo {v : Visited} {init st : State} {path : List Move}
    (h : PathTo v init st path) {fuel : Nat} (hf : path.length < fuel) :
    Solver.reconstructPathSequential fuel v st = some path := by
  unfold Solver.reconstructPathSequential
  rw [reconstructLoop_pathTo h fuel [] hf]
  simp

/-! ## The expansion of one state preserves the invariant -/

theorem Core.insert {s : Solver} {c0 : Robots} {fuel k : Nat} {L N : List State} {v : Visited}
    (hc : Core s c0 fuel k L N v) {current new : State} {m : Move} (hnew : v new = none)
    (hgp : GoodPath s c0 fuel (v.insert new (current, m)) new (k + 1)) :
    Core s c0 fuel k L (N ++ [new]) (v.insert new (current, m)) := by
  have hle : Visited.Le v (v.insert new (current, m)) := Visited.le_insert _ hnew
  refine ⟨?_, ?_, ?_, ?_, ?_, hc.level_fresh, hc.level_complete, hc.no_goal_before⟩
  · intro st hst
    exact hle.isSome (hc.within_visited st hst)
  · intro st hst
    by_cases h : st = new
    · right; rw [h]; simp
    · rw [Visited.insert_other v _ h] at hst
      rcases hc.visited_cases st hst with h1 | h1
      · exact Or.inl h1
      · right; exact List.mem_append_left _ h1
  · intro st hst hw
    rcases List.mem_append.mp hst with h1 | h1
    · exact hc.new_fresh st h1 hw
    · rw [List.mem_singleton] at h1
      have := hc.within_visited st hw
      rw [h1, hnew] at this
      cases this
  · intro st hst
    rcases List.mem_append.mp hst with h1 | h1
    · exact GoodPath_mono hle (hc.new_path st h1)
    · rw [List.mem_singleton] at h1
      rw [h1]; exact hgp
  · intro st hst
    exact GoodPath_mono hle (hc.level_path st hst)

/-- What is known about the state that is being expanded: its decoded configuration is
the end of its recorded path. -/
theorem current_facts {s : Solver} {c0 : Robots} (hs : Setup s c0) {fuel k : Nat}
    {L N : List State} {v : Visited} (hc : Core s c0 fuel k L N v) {current : State}
    (hcur : current ∈ L) :
    ∃ path, PathTo v s.initial current path ∧ path.length = k ∧
      replay s.board fuel c0 path = some (decode current) ∧ encode (decode current) = current := by
  obtain ⟨path, c, hp, hl, hr, he⟩ := hc.level_path current hcur
  have hcr := inRange_replays hs.width_le hs.height_le hs.range ⟨fuel, hr⟩
  have hd : decode current = c := by rw [← he, decode_encode hcr]
  exact ⟨path, hp, hl, by rw [hd]; exact hr, by rw [hd]; exact he⟩

theorem tryMove_spec {s : Solver} {c0 : Robots} (hs : Setup s c0) {fuel k : Nat}
    {L R : List State} {current : State} (hcur : current ∈ L) {f f' : Frontier}
    (hf : FInv s c0 fuel k L R f) {i : Fin 5} {d : Direction}
    (h : s.tryMove fuel current (decode current) f i d = some f') :
    FInv s c0 fuel k L R f' ∧ Visited.Le f.visited f'.visited ∧
      ∀ r, Solver.SlideResult s.board (decode current i).1 (decode current i).2 d
          (decode current) i.val r →
        (f'.visited (encode (setRobot (decode current) i r))).isSome = true := by
  obtain ⟨N, hq, hcore⟩ := hf
  obtain ⟨path, hp, hl, hrep, henc⟩ := current_facts hs hcore hcur
  have hwcur : Within s.board c0 (k + 1) current :=
    (hcore.level_path current hcur).within
  have hviscur := hcore.within_visited current hwcur
  unfold Solver.tryMove at h
  cases hsim : Solver.simulateMove s.board fuel (decode current i).1 (decode current i).2 d
      (decode current) i.val with
  | none => rw [hsim] at h; cases h
  | some p =>
    obtain ⟨nx, ny⟩ := p
    rw [hsim] at h
    simp only at h
    have huniq : ∀ r, Solver.SlideResult s.board (decode current i).1 (decode current i).2 d
        (decode current) i.val r → r = (nx, ny) :=
      fun r hr => SlideResult_unique hr ⟨fuel, hsim⟩
    split at h
    · rename_i hsame
      cases Option.some.inj h
      refine ⟨⟨N, hq, hcore⟩, Visited.Le.refl _, fun r hr => ?_⟩
      have : r = decode current i := by
        rw [huniq r hr]; exact Prod.ext hsame.1.symm hsame.2.symm
      rw [this, setRobot_self, henc]
      exact hviscur
    · rename_i hmoved
      split at h
      · rename_i hnone
        cases Option.some.inj h
        have hgp : GoodPath s c0 fuel
            (f.visited.insert (Solver.encode (decode current) i nx ny)
              (current, ⟨(i.val : Int), d⟩))
            (Solver.encode (decode current) i nx ny) (k + 1) := by
          refine ⟨path ++ [⟨(i.val : Int), d⟩], setRobot (decode current) i (nx, ny), ?_, ?_, ?_, rfl⟩
          · refine PathTo.step (PathTo_mono (Visited.le_insert _ hnone) hp)
              (Visited.insert_same _ _ _) ?_ ?_
            · simp only [ne_eq]; omega
            · intro heq
              rw [← heq, hnone] at hviscur
              cases hviscur
          · simp [hl]
          · rw [replay_append, hrep]
            simp only [Option.some_bind, replay]
            rw [replayMove_mk, hsim]
            rfl
        refine ⟨⟨N ++ [Solver.encode (decode current) i nx ny], ?_, hcore.insert hnone hgp⟩,
          Visited.le_insert _ hnone, fun r hr => ?_⟩
        · simp only [hq, List.append_assoc]
        · rw [huniq r hr]
          show (Visited.insert _ _ _ (Solver.encode (decode current) i nx ny)).isSome = true
          rw [Visited.insert_same]; rfl
      · rename_i hsome
        cases Option.some.inj h
        refine ⟨⟨N, hq, hcore⟩, Visited.Le.refl _, fun r hr => ?_⟩
        rw [huniq r hr]
        exact Option.ne_none_iff_isSome.mp hsome

theorem mem_allDirs (d : Direction) : d ∈ allDirs := by
  cases d <;> simp [allDirs]

theorem expandDirs_spec {s : Solver} {c0 : Robots} (hs : Setup s c0) {fuel k : Nat}
    {L R : List State} {current : State} (hcur : current ∈ L) (i : Fin 5) :
    ∀ (ds : List Direction) {f f' : Frontier}, FInv s c0 fuel k L R f →
      ds.foldlM (fun f dir => s.tryMove fuel current (decode current) f i dir) f = some f' →
      FInv s c0 fuel k L R f' ∧ Visited.Le f.visited f'.visited ∧
        ∀ d ∈ ds, ∀ r, Solver.SlideResult s.board (decode current i).1 (decode current i).2 d
            (decode current) i.val r →
          (f'.visited (encode (setRobot (decode current) i r))).isSome = true := by
  intro ds
  induction ds with
  | nil =>
    intro f f' hf h
    simp only [List.foldlM_nil, Option.pure_def, Option.some.injEq] at h
    subst h
    exact ⟨hf, Visited.Le.refl _, fun d hd => by simp at hd⟩
  | cons d ds ih =>
    intro f f' hf h
    simp only [List.foldlM_cons, Option.bind_eq_bind, Option.bind_eq_some] at h
    obtain ⟨f1, h1, h2⟩ := h
    obtain ⟨hf1, hle1, hs1⟩ := tryMove_spec hs hcur hf h1
    obtain ⟨hf2, hle2, hs2⟩ := ih hf1 h2
    refine ⟨hf2, hle1.trans hle2, fun d' hd' r hr => ?_⟩
    rcases List.mem_cons.mp hd' with h3 | h3
    · rw [h3] at hr
      exact hle2.isSome (hs1 r hr)
    · exact hs2 d' h3 r hr

theorem expandRobots_spec {s : Solver} {c0 : Robots} (hs : Setup s c0) {fuel k : Nat}
    {L R : List State} {current : State} (hcur : current ∈ L) :
    ∀ (rs : List (Fin 5)) {f f' : Frontier}, FInv s c0 fuel k L R f →
      rs.foldlM
        (fun f robot_idx =>
          allDirs.foldlM
            (fun f dir => s.tryMove fuel current (decode current) f robot_idx dir) f) f
        = some f' →
      FInv s c0 fuel k L R f' ∧ Visited.Le f.visited f'.visited ∧
        ∀ i ∈ rs, ∀ (d : Direction) (r : Int × Int),
          Solver.SlideResult s.board (decode current i).1 (decode current i).2 d
            (decode current) i.val r →
          (f'.visited (encode (setRobot (decode current) i r))).isSome = true := by
  intro rs
  induction rs with
  | nil =>
    intro f f' hf h
    simp only [List.foldlM_nil, Option.pure_def, Option.some.injEq] at h
    subst h
    exact ⟨hf, Visited.Le.refl _, fun i hi => by simp at hi⟩
  | cons i rs ih =>
    intro f f' hf h
    simp only [List.foldlM_cons, Option.bind_eq_bind, Option.bind_eq_some] at h
    obtain ⟨f1, h1, h2⟩ := h
    obtain ⟨hf1, hle1, hs1⟩ := expandDirs_spec hs hcur i allDirs hf h1
    obtain ⟨hf2, hle2, hs2⟩ := ih hf1 h2
    refine ⟨hf2, hle1.trans hle2, fun i' hi' d r hr => ?_⟩
    rcases List.mem_cons.mp hi' with h3 | h3
    · rw [h3] at hr ⊢
      exact hle2.isSome (hs1 d (mem_allDirs d) r hr)
    · exact hs2 i' h3 d r hr

/-- Expanding a state of the current level keeps the invariant, only adds records, and
leaves every successor of the state recorded. -/
theorem expand_spec {s : Solver} {c0 : Robots} (hs : Setup s c0) {fuel k : Nat}
    {L R : List State} {current : State} (hcur : current ∈ L) {f f' : Frontier}
    (hf : FInv s c0 fuel k L R f) (h : s.expand fuel current f = some f') :
    FInv s c0 fuel k L R f' ∧ Visited.Le f.visited f'.visited ∧ Expanded s f'.visited current := by
  obtain ⟨h1, h2, h3⟩ := expandRobots_spec hs hcur allRobots hf h
  exact ⟨h1, h2, fun i d r hr => h3 i (mem_allRobots i) d r hr⟩

theorem Expanded_mono {s : Solver} {v v' : Visited} {p : State} (hle : Visited.Le v v')
    (h : Expanded s v p) : Expanded s v' p :=
  fun i d r hr => hle.isSome (h i d r hr)

/-! ## One level and the whole search -/

theorem levelLoop_spec {s : Solver} {c0 : Robots} (hs : Setup s c0) {fuel k : Nat}
    {L : List State} :
    ∀ (R P : List State) (f : Frontier) (out : LevelOutcome),
      FInv s c0 fuel k L R f → (∀ st ∈ R, st ∈ L) → (∀ st ∈ L, st ∈ P ∨ st ∈ R) →
      Processed s f.visited P → s.levelLoop fuel R.length f = some out →
      match out with
      | .found st v' => st ∈ L ∧ s.checkSolution st = true ∧ ∃ N, Core s c0 fuel k L N v'
      | .next f' => FInv s c0 fuel k L [] f' ∧ Processed s f'.visited L := by
  intro R
  induction R with
  | nil =>
    intro P f out hf _ hLP hP h
    simp only [List.length_nil, Solver.levelLoop, Option.some.injEq] at h
    subst h
    refine ⟨hf, fun p hp => ?_⟩
    rcases hLP p hp with h1 | h1
    · exact hP p h1
    · simp at h1
  | cons current R ih =>
    intro P f out hf hRL hLP hP h
    obtain ⟨q, v⟩ := f
    obtain ⟨N, hq, hcore⟩ := hf
    simp only at hq hcore hP
    subst hq
    have hcur : current ∈ L := hRL current (List.mem_cons_self _ _)
    simp only [List.length_cons, Solver.levelLoop, List.cons_append] at h
    split at h
    · rename_i hgoal
      cases Option.some.inj h
      exact ⟨hcur, hgoal, N, hcore⟩
    · rename_i hgoal
      cases hexp : s.expand fuel current ⟨R ++ N, v⟩ with
      | none => rw [hexp] at h; cases h
      | some f1 =>
        rw [hexp] at h
        simp only at h
        obtain ⟨hf1, hle, hexpd⟩ := expand_spec hs hcur (R := R) ⟨N, rfl, hcore⟩ hexp
        refine ih (current :: P) f1 out hf1 (fun st hst => hRL st (List.mem_cons_of_mem _ hst))
          (fun st hst => ?_) (fun p hp => ?_) h
        · rcases hLP st hst with h1 | h1
          · exact Or.inl (List.mem_cons_of_mem _ h1)
          · rcases List.mem_cons.mp h1 with h2 | h2
            · left; rw [h2]; exact List.mem_cons_self _ _
            · exact Or.inr h2
        · rcases List.mem_cons.mp hp with h1 | h1
          · rw [h1]
            exact ⟨by simpa using hgoal, hexpd⟩
          · exact ⟨(hP p h1).1, Expanded_mono hle (hP p h1).2⟩

/-- When every state of level `k` has been processed, the states enqueued meanwhile are
level `k + 1`. -/
theorem Core.next {s : Solver} {c0 : Robots} (hs : Setup s c0) {fuel k : Nat}
    {L N : List State} {v : Visited} (hc : Core s c0 fuel k L N v) (hp : Processed s v L) :
    Core s c0 fuel (k + 1) N [] v := by
  have hwv : ∀ st, Within s.board c0 (k + 2) st → (v st).isSome = true := by
    intro st hst
    rcases Within_succ_cases hs hst with h1 | ⟨p, i, d, r, h1, h2, rfl⟩
    · exact hc.within_visited st h1
    · by_cases hk : Within s.board c0 k p
      · exact hc.within_visited _ (Within_extend hs hk h2)
      · exact (hp p (hc.level_complete p h1 hk)).2 i d r h2
  refine ⟨hwv, ?_, ?_, ?_, hc.new_path, hc.new_fresh, ?_, ?_⟩
  · intro st hst
    rcases hc.visited_cases st hst with h1 | h1
    · exact Or.inl (Within_mono (by omega) h1)
    · exact Or.inl (hc.new_path st h1).within
  · intro st hst; simp at hst
  · intro st hst; simp at hst
  · intro st h1 h2
    rcases hc.visited_cases st (hwv st h1) with h3 | h3
    · exact absurd h3 h2
    · exact h3
  · intro st hst
    by_cases hk : Within s.board c0 k st
    · exact hc.no_goal_before st hk
    · exact (hp st (hc.level_complete st hst hk)).1

/-- When a level is empty, nothing new is reachable with more moves. -/
theorem Within_closed {s : Solver} {c0 : Robots} (hs : Setup s c0) {k : Nat}
    (hcl : ∀ st, Within s.board c0 (k + 1) st → Within s.board c0 k st) :
    ∀ (j : Nat) (st : State), Within s.board c0 j st → Within s.board c0 k st := by
  intro j
  induction j with
  | zero => intro st h; exact absurd h Within_zero
  | succ j ih =>
    intro st h
    cases j with
    | zero => exact hcl st (Within_mono (by omega) h)
    | succ j =>
      rcases Within_succ_cases hs h with h1 | ⟨p, i, d, r, h1, h2, rfl⟩
      · exact ih st h1
      · exact hcl _ (Within_extend hs (ih p h1) h2)

theorem searchLoop_spec {s : Solver} {c0 : Robots} (hs : Setup s c0) {fuel : Nat} :
    ∀ (n k : Nat) (L : List State) (v : Visited) (res : Option State) (v' : Visited),
      Core s c0 fuel k L [] v → s.searchLoop fuel n ⟨L, v⟩ = some (res, v') →
      SearchPost s c0 fuel k n res v' := by
  intro n
  induction n with
  | zero => intro k L v res v' _ h; simp [Solver.searchLoop] at h
  | succ n ih =>
    intro k L v res v' hc h
    simp only [Solver.searchLoop] at h
    split at h
    · rename_i hempty
      cases Option.some.inj h
      have hL : L = [] := List.isEmpty_iff.mp hempty
      subst hL
      have hcl : ∀ st, Within s.board c0 (k + 1) st → Within s.board c0 k st := by
        intro st hst
        by_contra hk
        exact absurd (hc.level_complete st hst hk) (by simp)
      refine ⟨fun st hst => ?_, fun j st' hj => ?_⟩
      · rcases hc.visited_cases st hst with h1 | h1
        · exact ⟨_, h1⟩
        · simp at h1
      · exact hc.no_goal_before st' (Within_closed hs hcl j st' hj)
    · cases hlev : s.levelLoop fuel L.length ⟨L, v⟩ with
      | none => rw [hlev] at h; simp at h
      | some out =>
        rw [hlev] at h
        have hspec := levelLoop_spec hs L [] ⟨L, v⟩ out ⟨[], by simp, hc⟩ (fun _ h => h)
          (fun _ h => Or.inr h) (fun p hp => by simp at hp) hlev
        cases out with
        | found st v1 =>
          simp only [Option.some.injEq, Prod.mk.injEq] at h
          obtain ⟨rfl, rfl⟩ := h
          obtain ⟨hst, hgoal, N, hcore⟩ := hspec
          refine ⟨fun st' hst' => ?_, k, le_refl k, by omega, hgoal, hcore.level_path _ hst,
            hcore.no_goal_before⟩
          rcases hcore.visited_cases st' hst' with h1 | h1
          · exact ⟨_, h1⟩
          · exact ⟨_, (hcore.new_path st' h1).within⟩
        | next f1 =>
          simp only at h
          obtain ⟨⟨N, hq, hcore⟩, hproc⟩ := hspec
          obtain ⟨q1, v1⟩ := f1
          simp only [List.nil_append] at hq hcore hproc
          rw [hq] at h
          have hpost := ih (k + 1) N v1 res v' (hcore.next hs hproc) h
          refine ⟨hpost.1, ?_⟩
          have h2 := hpost.2
          cases res with
          | none => exact h2
          | some st =>
            obtain ⟨k', h3, h4, h5⟩ := h2
            exact ⟨k', by omega, by omega, h5⟩

/-! ## Correctness of `solve_sequential` on boards up to 16 x 16 -/

theorem Core.initial {s : Solver} {c0 : Robots} (hs : Setup s c0) (fuel : Nat) :
    Core s c0 fuel 0 [s.initial] [] (Visited.empty.insert s.initial (sentinel s.initial)) := by
  refine ⟨?_, ?_, ?_, ?_, ?_, ?_, ?_, ?_⟩
  · intro st hst
    rw [Within_one hst, ← hs.init, Visited.insert_same]; rfl
  · intro st hst
    left
    by_cases h : st = s.initial
    · rw [h, hs.init]; exact Within_initial _ _ _
    · rw [Visited.insert_other _ _ h] at hst
      cases hst
  · intro st hst; simp at hst
  · intro st hst; simp at hst
  · intro st hst
    rw [List.mem_singleton] at hst
    rw [hst]
    exact ⟨[], c0, PathTo.root (Visited.insert_same _ _ _), rfl, rfl, hs.init.symm⟩
  · intro st _; exact Within_zero
  · intro st hst _
    rw [Within_one hst, ← hs.init]; simp
  · intro st hst; exact absurd hst Within_zero

/-- The guarantee of the search part of `solve_sequential`. -/
theorem search_spec {s : Solver} {c0 : Robots} (hs : Setup s c0) {fuel : Nat}
    {res : Option State} {v : Visited} (h : s.search fuel = some (res, v)) :
    SearchPost s c0 fuel 0 fuel res v :=
  searchLoop_spec hs fuel 0 [s.initial] _ res v (Core.initial hs fuel) h

theorem checkSolution_encode (s : Solver) {c : Robots} (hc : InRange c) :
    s.checkSolution (encode c) = true ↔ s.Goal c := by
  unfold Solver.checkSolution Solver.Goal
  rw [decode_encode hc]
  simp only [Bool.and_eq_true, decide_eq_true_eq]
  constructor
  · intro h; exact Prod.ext h.1 h.2
  · intro h; rw [h]; exact ⟨rfl, rfl⟩

/-- A non-empty result of `solve_sequential` is the recorded path of a goal state, and
no key reachable in fewer moves is a goal state. -/
theorem solve_sequential_found {s : Solver} {c0 : Robots} (hs : Setup s c0) {fuel : Nat}
    {moves : List Move} (h : s.solve_sequential fuel = some moves) (hne : moves ≠ []) :
    ∃ c, replay s.board fuel c0 moves = some c ∧ s.Goal c ∧
      ∀ st, Within s.board c0 moves.length st → s.checkSolution st = false := by
  unfold Solver.solve_sequential at h
  cases hsearch : s.search fuel with
  | none => rw [hsearch] at h; cases h
  | some rv =>
    obtain ⟨res, v⟩ := rv
    rw [hsearch] at h
    cases res with
    | none =>
      simp only [Option.some.injEq] at h
      exact absurd h.symm hne
    | some st =>
      simp only at h
      obtain ⟨_, k', _, hk, hgoal, ⟨path, c, hp, hl, hrep, he⟩, hmin⟩ := search_spec hs hsearch
      rw [reconstructPathSequential_pathTo hp (by omega)] at h
      cases Option.some.inj h
      have hc := inRange_replays hs.width_le hs.height_le hs.range ⟨fuel, hrep⟩
      refine ⟨c, hrep, ?_, ?_⟩
      · rw [← he] at hgoal
        exact (checkSolution_encode s hc).mp hgoal
      · rw [hl]; exact hmin

/-- Claim C2, amended (soundness).  On a board of width and height at most 16, from an
initial configuration with coordinates in 0..15, replaying a non-empty sequence that
`solve_sequential` returns ends in a configuration whose target robot stands on the
target cell. -/
theorem solve_sequential_sound (s : Solver) (c0 : Robots) (moves : List Move)
    (hw : s.board.width ≤ 16) (hh : s.board.height ≤ 16) (hc0 : InRange c0)
    (hinit : s.initial = encode c0) (hres : s.SolveResult moves) (hne : moves ≠ []) :
    ∃ c, Replays s.board c0 moves c ∧ s.Goal c := by
  obtain ⟨fuel, hf⟩ := hres
  obtain ⟨c, hrep, hgoal, _⟩ := solve_sequential_found ⟨hinit, hc0, hw, hh⟩ hf hne
  exact ⟨c, ⟨fuel, hrep⟩, hgoal⟩

/-- Claim C1, amended (shortest path).  On a board of width and height at most 16, from
an initial configuration with coordinates in 0..15, when `solve_sequential` returns a
sequence of `k` moves, no sequence of fewer than `k` moves replayed from the initial
configuration puts the target robot on the target cell. -/
theorem solve_sequential_optimal (s : Solver) (c0 : Robots) (moves : List Move)
    (hw : s.board.width ≤ 16) (hh : s.board.height ≤ 16) (hc0 : InRange c0)
    (hinit : s.initial = encode c0) (hres : s.SolveResult moves) :
    ∀ (seq : List Move) (c : Robots), seq.length < moves.length → Replays s.board c0 seq c →
      ¬ s.Goal c := by
  intro seq c hlen hrep hgoal
  have hne : moves ≠ [] := fun h => by rw [h] at hlen; simp at hlen
  obtain ⟨fuel, hf⟩ := hres
  obtain ⟨_, _, _, hmin⟩ := solve_sequential_found ⟨hinit, hc0, hw, hh⟩ hf hne
  have hc := inRange_replays hw hh hc0 hrep
  have := hmin (encode c) ⟨seq, c, hlen, hrep, rfl⟩
  rw [(checkSolution_encode s hc).mpr hgoal] at this
  cases this

set_option maxRecDepth 100000 in
theorem rightSolver_result : rightSolver.solve_sequential 20 = some [⟨0, .RIGHT⟩] := by
  decide!

/-- Witness of the amended C2 on `rightSolver`: the returned sequence is the single move
"robot 0 RIGHT", and its replay reaches the goal. -/
theorem solve_sequential_sound_witness :
    ∃ c, Replays rightBoard rightStart [⟨0, .RIGHT⟩] c ∧ rightSolver.Goal c :=
  solve_sequential_sound rightSolver rightStart [⟨0, .RIGHT⟩] (by decide) (by decide)
    (by decide) rfl ⟨20, rightSolver_result⟩ (by simp)

/-- Witness of the amended C1 on `rightSolver`: the empty sequence, shorter than the
returned one, does not solve the puzzle. -/
theorem solve_sequential_optimal_witness : ¬ rightSolver.Goal rightStart :=
  solve_sequential_optimal rightSolver rightStart [⟨0, .RIGHT⟩] (by decide) (by decide)
    (by decide) rfl ⟨20, rightSolver_result⟩ [] rightStart (by decide) ⟨0, rfl⟩

/-! ## Fuel: more never changes a result -/

theorem foldlM_option_imp {α β : Type} {g g' : β → α → Option β}
    (h : ∀ b a b', g b a = some b' → g' b a = some b') :
    ∀ (l : List α) (b b' : β), l.foldlM g b = some b' → l.foldlM g' b = some b' := by
  intro l
  induction l with
  | nil => intro b b' hb; exact hb
  | cons a l ih =>
    intro b b' hb
    simp only [List.foldlM_cons, Option.bind_eq_bind, Option.bind_eq_some] at hb ⊢
    obtain ⟨b1, h1, h2⟩ := hb
    exact ⟨b1, h _ _ _ h1, ih _ _ h2⟩

theorem tryMove_mono {s : Solver} {n k : Nat} (hk : n ≤ k) {current : State} {robots : Robots}
    {f f' : Frontier} {i : Fin 5} {d : Direction}
    (h : s.tryMove n current robots f i d = some f') :
    s.tryMove k current robots f i d = some f' := by
  unfold Solver.tryMove at h ⊢
  cases hsim : Solver.simulateMove s.board n (robots i).1 (robots i).2 d robots i.val with
  | none => rw [hsim] at h; cases h
  | some p =>
    rw [hsim] at h
    rw [simulateMove_mono hsim hk]
    exact h

theorem expand_mono {s : Solver} {n k : Nat} (hk : n ≤ k) {current : State} {f f' : Frontier}
    (h : s.expand n current f = some f') : s.expand k current f = some f' := by
  unfold Solver.expand at h ⊢
  refine foldlM_option_imp (fun b i b' hb => ?_) _ _ _ h
  exact foldlM_option_imp (fun b d b' hb => tryMove_mono hk hb) _ _ _ hb

theorem levelLoop_mono {s : Solver} {n k : Nat} (hk : n ≤ k) :
    ∀ (m : Nat) (f : Frontier) (out : LevelOutcome), s.levelLoop n m f = some out →
      s.levelLoop k m f = some out := by
  intro m
  induction m with
  | zero => intro f out h; exact h
  | succ m ih =>
    intro f out h
    obtain ⟨q, v⟩ := f
    cases q with
    | nil => simp [Solver.levelLoop] at h
    | cons current rest =>
      simp only [Solver.levelLoop] at h ⊢
      split
      · rename_i hg; rw [if_pos hg] at h; exact h
      · rename_i hg
        rw [if_neg hg] at h
        cases hexp : s.expand n current ⟨rest, v⟩ with
        | none => rw [hexp] at h; cases h
        | some f1 =>
          rw [hexp] at h
          rw [expand_mono hk hexp]
          exact ih f1 out h

theorem searchLoop_mono {s : Solver} {n k : Nat} (hk : n ≤ k) :
    ∀ (m m' : Nat) (f : Frontier) (r : Option State × Visited), m ≤ m' →
      s.searchLoop n m f = some r → s.searchLoop k m' f = some r := by
  intro m
  induction m with
  | zero => intro m' f r _ h; simp [Solver.searchLoop] at h
  | succ m ih =>
    intro m' f r hm h
    obtain ⟨m'', rfl⟩ : ∃ m'', m' = m'' + 1 := ⟨m' - 1, by omega⟩
    simp only [Solver.searchLoop] at h ⊢
    split
    · rename_i he; rw [if_pos he] at h; exact h
    · rename_i he
      rw [if_neg he] at h
      cases hlev : s.levelLoop n f.queue.length f with
      | none => rw [hlev] at h; cases h
      | some out =>
        rw [hlev] at h
        rw [levelLoop_mono hk _ _ _ hlev]
        cases out with
        | found st v => exact h
        | next f1 => exact ih m'' f1 r (by omega) h

theorem reconstructLoop_mono {v : Visited} :
    ∀ (n k : Nat) (acc : List Move) (st : State) (r : List Move), n ≤ k →
      reconstructLoop v n acc st = some r → reconstructLoop v k acc st = some r := by
  intro n
  induction n with
  | zero => intro k acc st r _ h; simp [reconstructLoop] at h
  | succ n ih =>
    intro k acc st r hk h
    obtain ⟨k', rfl⟩ : ∃ k', k = k' + 1 := ⟨k - 1, by omega⟩
    simp only [reconstructLoop] at h ⊢
    split
    · rename_i hv; rw [hv] at h; exact h
    · rename_i p m hv
      rw [hv] at h
      simp only at h
      split
      · rename_i hm; rw [if_pos hm] at h; exact h
      · rename_i hm
        rw [if_neg hm] at h
        split
        · rename_i hp; rw [if_pos hp] at h; exact h
        · rename_i hp
          rw [if_neg hp] at h
          exact ih k' _ _ r (by omega) h

theorem solve_sequential_mono {s : Solver} {n k : Nat} (hk : n ≤ k) {moves : List Move}
    (h : s.solve_sequential n = some moves) : s.solve_sequential k = some moves := by
  unfold Solver.solve_sequential at h ⊢
  cases hsearch : s.search n with
  | none => rw [hsearch] at h; cases h
  | some rv =>
    rw [hsearch] at h
    have : s.search k = some rv := searchLoop_mono hk n k _ rv hk hsearch
    rw [this]
    obtain ⟨res, v⟩ := rv
    cases res with
    | none => exact h
    | some st =>
      simp only [Solver.reconstructPathSequential, Option.map_eq_some'] at h ⊢
      obtain ⟨path, h1, h2⟩ := h
      exact ⟨path, reconstructLoop_mono n k _ _ _ hk h1, h2⟩

/-- The call `solve_sequential()` has at most one result. -/
theorem SolveResult_unique {s : Solver} {m1 m2 : List Move} (h1 : s.SolveResult m1)
    (h2 : s.SolveResult m2) : m1 = m2 := by
  obtain ⟨n, hn⟩ := h1
  obtain ⟨k, hk⟩ := h2
  have a := solve_sequential_mono (Nat.le_max_left n k) hn
  have b := solve_sequential_mono (Nat.le_max_right n k) hk
  rw [a] at b
  exact Option.some.inj b

/-! ## Termination of the search on solvable puzzles -/

theorem foldlM_option_total {α β : Type} {g : β → α → Option β} (l : List α)
    (h : ∀ b, ∀ a ∈ l, ∃ b', g b a = some b') : ∀ b, ∃ b', l.foldlM g b = some b' := by
  induction l with
  | nil => intro b; exact ⟨b, rfl⟩
  | cons a l ih =>
    intro b
    obtain ⟨b1, h1⟩ := h b a (List.mem_cons_self _ _)
    obtain ⟨b2, h2⟩ := ih (fun b a' ha' => h b a' (List.mem_cons_of_mem _ ha')) b1
    exact ⟨b2, by simp only [List.foldlM_cons, Option.bind_eq_bind, h1, Option.some_bind, h2]⟩

theorem tryMove_total {s : Solver} {fuel : Nat} {current : State} {robots : Robots}
    {i : Fin 5} {d : Direction}
    (h : (Solver.simulateMove s.board fuel (robots i).1 (robots i).2 d robots i.val).isSome = true)
    (f : Frontier) : ∃ f', s.tryMove fuel current robots f i d = some f' := by
  obtain ⟨p, hp⟩ := Option.isSome_iff_exists.mp h
  unfold Solver.tryMove
  rw [hp]
  obtain ⟨nx, ny⟩ := p
  simp only
  split
  · exact ⟨_, rfl⟩
  · split <;> exact ⟨_, rfl⟩

theorem expand_total {s : Solver} {fuel : Nat} {current : State}
    (h : ∀ (i : Fin 5) (d : Direction),
      (Solver.simulateMove s.board fuel (decode current i).1 (decode current i).2 d
        (decode current) i.val).isSome = true)
    (f : Frontier) : ∃ f', s.expand fuel current f = some f' := by
  unfold Solver.expand
  refine foldlM_option_total _ (fun b i _ => ?_) f
  exact foldlM_option_total _ (fun b d _ => tryMove_total (h i d) b) b

theorem levelLoop_total {s : Solver} {c0 : Robots} (hs : Setup s c0) {fuel k : Nat}
    {L : List State} (hsl : SlidesWithin s c0 fuel) :
    ∀ (R : List State) (f : Frontier), FInv s c0 fuel k L R f → (∀ st ∈ R, st ∈ L) →
      ∃ out, s.levelLoop fuel R.length f = some out := by
  intro R
  induction R with
  | nil => intro f _ _; exact ⟨_, rfl⟩
  | cons current R ih =>
    intro f hf hRL
    obtain ⟨q, v⟩ := f
    obtain ⟨N, hq, hcore⟩ := hf
    simp only at hq hcore
    subst hq
    have hcur : current ∈ L := hRL current (List.mem_cons_self _ _)
    simp only [List.length_cons, Solver.levelLoop, List.cons_append]
    split
    · exact ⟨_, rfl⟩
    · obtain ⟨f1, hf1⟩ := expand_total
        (hsl current ⟨_, (hcore.level_path current hcur).within⟩) ⟨R ++ N, v⟩
      rw [hf1]
      simp only
      obtain ⟨h1, _, _⟩ := expand_spec hs hcur (R := R) ⟨N, rfl, hcore⟩ hf1
      exact ih f1 h1 (fun st hst => hRL st (List.mem_cons_of_mem _ hst))

theorem searchLoop_total {s : Solver} {c0 : Robots} (hs : Setup s c0) {fuel : Nat}
    (hsl : SlidesWithin s c0 fuel) {g : State} (hg : s.checkSolution g = true) {nstar : Nat}
    (hreach : Within s.board c0 nstar g) :
    ∀ (n k : Nat) (L : List State) (v : Visited), Core s c0 fuel k L [] v → nstar ≤ k + n →
      ∃ r, s.searchLoop fuel n ⟨L, v⟩ = some r := by
  intro n
  induction n with
  | zero =>
    intro k L v hc hn
    have := hc.no_goal_before g (Within_mono (by omega) hreach)
    rw [hg] at this
    cases this
  | succ n ih =>
    intro k L v hc hn
    simp only [Solver.searchLoop]
    split
    · exact ⟨_, rfl⟩
    · obtain ⟨out, hout⟩ := levelLoop_total hs hsl L ⟨L, v⟩ ⟨[], by simp, hc⟩ (fun _ h => h)
      have hspec := levelLoop_spec hs L [] ⟨L, v⟩ out ⟨[], by simp, hc⟩ (fun _ h => h)
        (fun _ h => Or.inr h) (fun p hp => by simp at hp) hout
      rw [hout]
      cases out with
      | found st v1 => exact ⟨_, rfl⟩
      | next f1 =>
        simp only
        obtain ⟨⟨N, hq, hcore⟩, hproc⟩ := hspec
        obtain ⟨q1, v1⟩ := f1
        simp only [List.nil_append] at hq hcore hproc
        rw [hq]
        exact ih (k + 1) N v1 (hcore.next hs hproc) (by omega)

/-- When every slide from a reachable configuration terminates, one iteration bound
serves them all: there are finitely many keys. -/
theorem uniform_slide_fuel {s : Solver} {c0 : Robots} (hs : Setup s c0)
    (hterm : ∀ moves c, Replays s.board c0 moves c → ∀ (i : Fin 5) (d : Direction),
      ∃ r, Solver.SlideResult s.board (c i).1 (c i).2 d c i.val r) :
    ∃ F, SlidesWithin s c0 F := by
  classical
  let P : State × Fin 5 × Direction → Nat → Prop := fun x n =>
    (Solver.simulateMove s.board n (decode x.1 x.2.1).1 (decode x.1 x.2.1).2 x.2.2
      (decode x.1) x.2.1.val).isSome = true
  let g : State × Fin 5 × Direction → Nat := fun x =>
    if h : ∃ n, P x n then Classical.choose h else 0
  obtain ⟨B, hB⟩ : ∃ B : Nat, B = 1099511627776 := ⟨_, rfl⟩
  refine ⟨(Finset.range B ×ˢ (Finset.univ : Finset (Fin 5 × Direction))).sup g, ?_⟩
  intro st hst i d
  obtain ⟨j, hj⟩ := hst
  obtain ⟨moves, _, hrep⟩ := Within_decode hs hj
  obtain ⟨r, n, hn⟩ := hterm moves _ hrep i d
  have hex : ∃ n, P (st, i, d) n := ⟨n, by simp only [P]; rw [hn]; rfl⟩
  have hg : P (st, i, d) (g (st, i, d)) := by
    simp only [g, dif_pos hex]
    exact Classical.choose_spec hex
  have hlt : st < B := by
    obtain ⟨_, c, _, _, he⟩ := hj
    rw [← he, hB]; exact encode_lt c
  have hmem : (st, i, d) ∈ Finset.range B ×ˢ (Finset.univ : Finset (Fin 5 × Direction)) :=
    Finset.mem_product.mpr ⟨Finset.mem_range.mpr hlt, Finset.mem_univ _⟩
  have hle := Finset.le_sup (f := g) hmem
  obtain ⟨r', hr'⟩ := Option.isSome_iff_exists.mp hg
  rw [simulateMove_mono hr' hle]
  rfl

theorem PathTo_nil {v : Visited} {init st : State} (h : PathTo v init st []) : st = init := by
  generalize hp : ([] : List Move) = path at h
  cases h with
  | root _ => rfl
  | step _ _ _ _ => simp at hp

/-- On a solvable puzzle the search returns a non-empty path. -/
theorem search_finds_path (s : Solver) (c0 : Robots)
    (hw : s.board.width ≤ 16) (hh : s.board.height ≤ 16) (hc0 : InRange c0)
    (hinit : s.initial = encode c0)
    (hterm : ∀ moves c, Replays s.board c0 moves c → ∀ (i : Fin 5) (d : Direction),
      ∃ r, Solver.SlideResult s.board (c i).1 (c i).2 d c i.val r)
    (hstart : ¬ s.Goal c0)
    (hsolvable : ∃ seq c, Replays s.board c0 seq c ∧ s.Goal c) :
    ∃ moves, s.SolveResult moves ∧ moves ≠ [] := by
  have hs : Setup s c0 := ⟨hinit, hc0, hw, hh⟩
  obtain ⟨seq, cg, hrep, hgoal⟩ := hsolvable
  have hcg := inRange_replays hw hh hc0 hrep
  have hcheck : s.checkSolution (encode cg) = true := (checkSolution_encode s hcg).mpr hgoal
  have hreach : Within s.board c0 (seq.length + 1) (encode cg) :=
    ⟨seq, cg, by omega, hrep, rfl⟩
  obtain ⟨F1, hF1⟩ := uniform_slide_fuel hs hterm
  have hsl : SlidesWithin s c0 (max F1 (seq.length + 1)) := by
    intro st hst i d
    obtain ⟨r, hr⟩ := Option.isSome_iff_exists.mp (hF1 st hst i d)
    rw [simulateMove_mono hr (Nat.le_max_left _ _)]
    rfl
  obtain ⟨rv, hrv⟩ := searchLoop_total hs hsl hcheck hreach (max F1 (seq.length + 1)) 0
    [s.initial] _ (Core.initial hs _) (by have := Nat.le_max_right F1 (seq.length + 1); omega)
  obtain ⟨res, v⟩ := rv
  have hsearch : s.search (max F1 (seq.length + 1)) = some (res, v) := hrv
  have hpost := search_spec hs hsearch
  cases res with
  | none =>
    have := hpost.2 _ _ hreach
    rw [hcheck] at this
    cases this
  | some st =>
    obtain ⟨_, k', _, hk, hg, ⟨path, c, hp, hl, hr, he⟩, _⟩ := hpost
    refine ⟨path, ⟨max F1 (seq.length + 1), ?_⟩, ?_⟩
    · unfold Solver.solve_sequential
      rw [hsearch]
      exact reconstructPathSequential_pathTo hp (by omega)
    · intro hnil
      subst hnil
      have hst := PathTo_nil hp
      rw [hst, hs.init] at hg
      exact hstart ((checkSolution_encode s hc0).mp hg)

/-- Claim C3, amended (completeness).  On a board of width and height at most 16, from
an initial configuration with coordinates in 0..15 that is no goal, when every slide
from a configuration reachable from the initial one terminates (in particular when
every slide on the board does) and some move sequence reaches a configuration with the
target robot on the target cell, `solve_sequential` returns, and what it returns is a
non-empty sequence. -/
theorem solve_sequential_complete (s : Solver) (c0 : Robots)
    (hw : s.board.width ≤ 16) (hh : s.board.height ≤ 16) (hc0 : InRange c0)
    (hinit : s.initial = encode c0)
    (hterm : ∀ moves c, Replays s.board c0 moves c → ∀ (i : Fin 5) (d : Direction),
      ∃ r, Solver.SlideResult s.board (c i).1 (c i).2 d c i.val r)
    (hstart : ¬ s.Goal c0)
    (hsolvable : ∃ seq c, Replays s.board c0 seq c ∧ s.Goal c) :
    ∃ moves, s.SolveResult moves ∧ moves ≠ [] :=
  search_finds_path s c0 hw hh hc0 hinit hterm hstart hsolvable

/-! ## Boards wider than 16: the search disagrees with the replay -/

theorem Replays_unique {b : Board} {c c1 c2 : Robots} {moves : List Move}
    (h1 : Replays b c moves c1) (h2 : Replays b c moves c2) : c1 = c2 := by
  obtain ⟨n, hn⟩ := h1
  obtain ⟨k, hk⟩ := h2
  have a := replay_mono (Nat.le_max_left n k) hn
  have b' := replay_mono (Nat.le_max_right n k) hk
  rw [a] at b'
  exact Option.some.inj b'

/-- A replay evaluated at one robot gives a replayed configuration. -/
theorem Replays_of_map (b : Board) (fuel : Nat) (c0 : Robots) (moves : List Move) (i : Fin 5)
    (p : Int × Int) (h : (replay b fuel c0 moves).map (fun c => c i) = some p) :
    ∃ c, Replays b c0 moves c ∧ c i = p := by
  obtain ⟨c, hc, hp⟩ := Option.map_eq_some'.mp h
  exact ⟨c, ⟨fuel, hc⟩, hp⟩

set_option maxRecDepth 100000 in
theorem wideSolver_result : wideSolver.solve_sequential 40 = some [⟨0, .RIGHT⟩] := by
  decide!

/-- Counterexample to C2: on the 17 x 2 board `wideBoard`, on which every slide
terminates, `solve_sequential` started from the valid configuration `wideStart` returns
the single move "robot 0 RIGHT", and replaying it leaves robot 0 on (16, 0), not on the
target cell (0, 0). -/
theorem solve_sequential_unsound_on_wide_board :
    SlidesTerminate wideBoard ∧ wideBoard.ValidConfig wideStart ∧ InRange wideStart ∧
      Solver.new wideBoard (encode wideStart) = some wideSolver ∧
      wideSolver.SolveResult [⟨0, .RIGHT⟩] ∧
      ¬ ∃ c, Replays wideBoard wideStart [⟨0, .RIGHT⟩] c ∧ wideSolver.Goal c := by
  refine ⟨slidesTerminate_of_no_deflector (fun _ _ => rfl), by decide, by decide, rfl,
    ⟨40, wideSolver_result⟩, ?_⟩
  rintro ⟨c, hrep, hgoal⟩
  obtain ⟨c', hrep', hc'⟩ := Replays_of_map wideBoard 40 wideStart [⟨0, .RIGHT⟩] 0 (16, 0)
    (by decide)
  rw [Replays_unique hrep hrep'] at hgoal
  unfold Solver.Goal at hgoal
  rw [show wideSolver.targetRobot = 0 from rfl, hc'] at hgoal
  exact absurd (congrArg Prod.fst hgoal) (by decide)

set_option maxRecDepth 1000000 in
theorem detourSolver_result :
    detourSolver.solve_sequential 40 = some [⟨0, .DOWN⟩, ⟨0, .RIGHT⟩, ⟨0, .UP⟩] := by
  decide!

/-- Counterexample to C1: on the 17 x 2 board `detourBoard`, on which every slide
terminates, `solve_sequential` started from the valid configuration `detourStart`
returns three moves, although the two moves "robot 1 RIGHT, robot 0 RIGHT" put the
target robot on the target cell (15, 0). -/
theorem solve_sequential_not_shortest_on_wide_board :
    SlidesTerminate detourBoard ∧ detourBoard.ValidConfig detourStart ∧ InRange detourStart ∧
      Solver.new detourBoard (encode detourStart) = some detourSolver ∧
      detourSolver.SolveResult [⟨0, .DOWN⟩, ⟨0, .RIGHT⟩, ⟨0, .UP⟩] ∧
      ∃ c, Replays detourBoard detourStart [⟨1, .RIGHT⟩, ⟨0, .RIGHT⟩] c ∧ detourSolver.Goal c := by
  refine ⟨slidesTerminate_of_no_deflector (fun _ _ => rfl), by decide, by decide, rfl,
    ⟨40, detourSolver_result⟩, ?_⟩
  obtain ⟨c, hrep, hc⟩ := Replays_of_map detourBoard 40 detourStart
    [⟨1, .RIGHT⟩, ⟨0, .RIGHT⟩] 0 (15, 0) (by decide)
  exact ⟨c, hrep, hc⟩

set_option maxRecDepth 1000000 in
theorem rowSolver_result : rowSolver.solve_sequential 40 = some [] := by
  decide!

/-- Counterexample to C3: on the 17 x 1 board `rowBoard`, on which every slide
terminates, the valid configuration `rowLeft` is no goal and the single move "robot 4
RIGHT" reaches the target cell (16, 0), but `solve_sequential` returns the empty
sequence and nothing else. -/
theorem solve_sequential_incomplete_on_wide_board :
    SlidesTerminate rowBoard ∧ rowBoard.ValidConfig rowLeft ∧ InRange rowLeft ∧
      Solver.new rowBoard (encode rowLeft) = some rowSolver ∧
      ¬ rowSolver.Goal rowLeft ∧
      (∃ c, Replays rowBoard rowLeft [⟨4, .RIGHT⟩] c ∧ rowSolver.Goal c) ∧
      ¬ ∃ moves, rowSolver.SolveResult moves ∧ moves ≠ [] := by
  refine ⟨slidesTerminate_of_no_deflector (fun _ _ => rfl), by decide, by decide, rfl,
    by decide, ?_, ?_⟩
  · obtain ⟨c, hrep, hc⟩ := Replays_of_map rowBoard 40 rowLeft [⟨4, .RIGHT⟩] 4 (16, 0)
      (by decide)
    exact ⟨c, hrep, hc⟩
  · rintro ⟨moves, hres, hne⟩
    exact hne (SolveResult_unique hres ⟨40, rowSolver_result⟩)

/-- Witness of the amended C3 on `rightSolver`. -/
theorem solve_sequential_complete_witness :
    ∃ moves, rightSolver.SolveResult moves ∧ moves ≠ [] :=
  solve_sequential_complete rightSolver rightStart (by decide) (by decide) (by decide) rfl
    (fun _ c _ i d => slidesTerminate_of_no_deflector (b := rightBoard) (fun _ _ => rfl) c i.val
      (c i).1 (c i).2 d)
    (by decide)
    (Exists.elim
      (Replays_of_map rightBoard 20 rightStart [⟨0, .RIGHT⟩] 0 (15, 0) (by decide))
      (fun c hc => ⟨[⟨0, .RIGHT⟩], c, hc.1, hc.2⟩))

/-! ## Valid configurations -/

set_option maxRecDepth 1000000 in
theorem rowSolver_records :
    (rowSolver.search 40).map (fun rv => rv.2 rowKey2) = some (some (rowKey1, ⟨3, .RIGHT⟩)) := by
  decide!

/-- Counterexample to C7: on the 17 x 1 board `rowBoard` the search started from the
valid configuration `rowLeft` records the key `rowKey2` (with parent `rowKey1` and move
"robot 3 RIGHT"); the configuration from which that key was computed and the
configuration the key decodes to both have two robots on one cell. -/
theorem search_records_invalid_configuration :
    rowBoard.ValidConfig rowLeft ∧ Solver.new rowBoard (encode rowLeft) = some rowSolver ∧
      (rowSolver.search 40).map (fun rv => rv.2 rowKey2) = some (some (rowKey1, ⟨3, .RIGHT⟩)) ∧
      ¬ rowBoard.ValidConfig (setRobot (decode rowKey1) 3 (16, 0)) ∧
      ¬ rowBoard.ValidConfig (decode rowKey2) :=
  ⟨by decide, rfl, rowSolver_records, by decide, by decide⟩

/-- Claim C7, amended (valid-configuration invariant).  On every board, for every
configuration of five pairwise distinct cells of the grid, every mover and every
direction for which the slide terminates, replacing the mover's cell by the resting
cell gives five pairwise distinct cells of the grid again.  On a board of width and
height at most 16, every key that the search started from such a configuration records
decodes to five pairwise distinct cells of the grid. -/
theorem valid_configuration_invariant (s : Solver) (c0 : Robots)
    (hv : s.board.ValidConfig c0) :
    (∀ (i : Fin 5) (d : Direction) (r : Int × Int),
        Solver.SlideResult s.board (c0 i).1 (c0 i).2 d c0 i.val r →
        s.board.ValidConfig (setRobot c0 i r)) ∧
      (s.board.width ≤ 16 → s.board.height ≤ 16 → s.initial = encode c0 →
        ∀ (fuel : Nat) (res : Option State) (v : Visited) (st : State),
          s.search fuel = some (res, v) → (v st).isSome = true →
          s.board.ValidConfig (decode st)) := by
  refine ⟨fun i d r hr => validConfig_slide hv hr, ?_⟩
  intro hw hh hinit fuel res v st hsearch hst
  have hs : Setup s c0 := ⟨hinit, inRange_of_inBounds hw hh hv.1, hw, hh⟩
  obtain ⟨j, hj⟩ := (search_spec hs hsearch).1 st hst
  obtain ⟨moves, _, hrep⟩ := Within_decode hs hj
  exact validConfig_replays hv hrep

set_option maxRecDepth 1000000 in
theorem rightSolver_records :
    (rightSolver.search 20).map (fun rv => (rv.2 rightGoalKey).isSome) = some true := by
  decide!

/-- Witness of the amended C7 on `rightSolver`: the slide of robot 0 to the RIGHT, and
the recorded key of the goal configuration. -/
theorem valid_configuration_invariant_witness :
    rightBoard.ValidConfig (setRobot rightStart 0 (15, 0)) ∧
      rightBoard.ValidConfig (decode rightGoalKey) :=
  ⟨(valid_configuration_invariant rightSolver rightStart (by decide)).1 0 .RIGHT (15, 0)
      ⟨20, by decide⟩,
    Exists.elim (Option.map_eq_some'.mp rightSolver_records) (fun rv h =>
      (valid_configuration_invariant rightSolver rightStart (by decide)).2 (by decide)
        (by decide) rfl 20 rv.1 rv.2 rightGoalKey h.1 h.2)⟩

/-! ## Path reconstruction on arbitrary record maps -/

theorem solve_sequential_eq_finish (s : Solver) (fuel : Nat) :
    s.solve_sequential fuel = (s.search fuel).bind fun rv => Solver.finish fuel rv.1 rv.2 := by
  unfold Solver.solve_sequential Solver.finish
  cases s.search fuel with
  | none => rfl
  | some rv =>
    obtain ⟨res, v⟩ := rv
    cases res <;> rfl

/-- Following the records of a walk costs one iteration per state and pushes its
moves. -/
theorem reconstructLoop_walks {v : Visited} {st t : State} {ms : List Move}
    (h : Walks v st ms t) :
    ∀ (n : Nat) (acc : List Move),
      reconstructLoop v (ms.length + n) acc st = reconstructLoop v n (acc ++ ms) t := by
  induction h with
  | here st => intro n acc; simp
  | @step st p t m ms hrec hm hne _ ih =>
    intro n acc
    have : (m :: ms).length + n = (ms.length + n) + 1 := by simp; omega
    rw [this]
    simp only [reconstructLoop, hrec, hm, if_false, hne]
    rw [ih n (acc ++ [m])]
    simp

theorem Walks_append {v : Visited} {a b c : State} {ms ms' : List Move}
    (h1 : Walks v a ms b) (h2 : Walks v b ms' c) : Walks v a (ms ++ ms') c := by
  induction h1 with
  | here st => exact h2
  | step hrec hm hne _ ih => exact Walks.step hrec hm hne (ih h2)

/-- A walk that ends on a state without record, or on a state that is its own parent
without the sentinel move, makes the reconstruction return the empty path. -/
theorem reconstruct_violation {v : Visited} {endState s : State} {walked : List Move}
    (hreach : Walks v endState walked s)
    (hviol : v s = none ∨ ∃ m, v s = some (s, m) ∧ m.robot ≠ -1) {fuel : Nat}
    (hfuel : walked.length < fuel) :
    Solver.reconstructPathSequential fuel v endState = some [] := by
  obtain ⟨n, rfl⟩ : ∃ n, fuel = walked.length + (n + 1) := ⟨fuel - walked.length - 1, by omega⟩
  unfold Solver.reconstructPathSequential
  rw [reconstructLoop_walks hreach]
  rcases hviol with h | ⟨m, h, hm⟩
  · simp [reconstructLoop, h]
  · simp [reconstructLoop, h, hm]

/-- A walk that ends on a sentinel record makes the reconstruction return the moves of
the walk in reverse order. -/
theorem reconstruct_walk_sentinel {v : Visited} {endState s p : State} {d : Direction}
    {walked : List Move} (hreach : Walks v endState walked s)
    (hsent : v s = some (p, ⟨-1, d⟩)) {fuel : Nat} (hfuel : walked.length < fuel) :
    Solver.reconstructPathSequential fuel v endState = some walked.reverse := by
  obtain ⟨n, rfl⟩ : ∃ n, fuel = walked.length + (n + 1) := ⟨fuel - walked.length - 1, by omega⟩
  unfold Solver.reconstructPathSequential
  rw [reconstructLoop_walks hreach]
  simp [reconstructLoop, hsent]

theorem chainEnd_cons (s0 : State) (st : State) (m : Move) (rest : List (State × Move)) :
    chainEnd s0 ((st, m) :: rest) = chainEnd st rest := by
  unfold chainEnd
  cases rest with
  | nil => rfl
  | cons a l =>
    rw [List.getLast?_cons_cons, List.getLast?_eq_getLast (a :: l) (List.cons_ne_nil _ _)]
    rfl

/-- A chain of records is walked from its last state down to its first. -/
theorem RecordChain_walks {v : Visited} :
    ∀ (links : List (State × Move)) (s0 : State), RecordChain v s0 links →
      (s0 :: links.map Prod.fst).Nodup →
      Walks v (chainEnd s0 links) (links.map Prod.snd).reverse s0 := by
  intro links
  induction links with
  | nil => intro s0 _ _; exact Walks.here s0
  | cons a rest ih =>
    intro s0 hchain hnd
    obtain ⟨st, m⟩ := a
    obtain ⟨hrec, hm, hrest⟩ := hchain
    have hnd' : (st :: rest.map Prod.fst).Nodup := (List.nodup_cons.mp hnd).2
    have hne : st ≠ s0 := by
      intro h
      have := (List.nodup_cons.mp hnd).1
      apply this
      rw [h]; simp
    rw [chainEnd_cons]
    simp only [List.map_cons, List.reverse_cons]
    exact Walks_append (ih st hrest hnd') (Walks.step hrec hm hne (Walks.here s0))

/-- Claim C18 (path reconstruction order).  For a record map that contains the chain
`s0 <- s1 <- ... <- sk` of pairwise distinct states, in which the record of `s0`
carries the sentinel move (`robot = -1`) and every `si` with `i >= 1` has the record
`(s(i-1), mi)` with `mi.robot != -1`, `reconstructPathSequential(records, sk)` returns
`[m1, ..., mk]`, in forward order. -/
theorem reconstruct_forward_order (v : Visited) (s0 : State) (links : List (State × Move))
    (fuel : Nat) (hsent : ∃ p d, v s0 = some (p, ⟨-1, d⟩))
    (hchain : RecordChain v s0 links) (hdistinct : (s0 :: links.map Prod.fst).Nodup)
    (hfuel : links.length < fuel) :
    Solver.reconstructPathSequential fuel v (chainEnd s0 links) = some (links.map Prod.snd) := by
  obtain ⟨p, d, hs0⟩ := hsent
  have hw := RecordChain_walks links s0 hchain hdistinct
  rw [reconstruct_walk_sentinel hw hs0 (by simpa using hfuel)]
  simp

/-- Witness of C18 on `chainRecords`: the chain 1 <- 2 <- 3 is reconstructed as
"robot 0 RIGHT, robot 4 UP". -/
theorem reconstruct_forward_order_witness :
    Solver.reconstructPathSequential 3 chainRecords 3 = some [⟨0, .RIGHT⟩, ⟨4, .UP⟩] :=
  reconstruct_forward_order chainRecords 1 [(2, ⟨0, .RIGHT⟩), (3, ⟨4, .UP⟩)] 3
    ⟨1, .UP, by decide⟩ ⟨by decide, by decide, by decide, by decide, trivial⟩ (by decide)
    (by decide)

/-- Claim C20 (self-loop abort).  When the reconstruction started at `endState` reaches
a state `s` whose record is `(s, m)` with `m.robot != -1`, it stops there: as soon as
the iteration at `s` is allowed, `reconstructPathSequential` returns, and it returns the
empty path. -/
theorem reconstruct_self_loop (v : Visited) (endState s : State) (walked : List Move)
    (m : Move) (fuel : Nat) (hreach : Walks v endState walked s)
    (hrec : v s = some (s, m)) (hm : m.robot ≠ -1) (hfuel : walked.length < fuel) :
    Solver.reconstructPathSequential fuel v endState = some [] :=
  reconstruct_violation hreach (Or.inr ⟨m, hrec, hm⟩) hfuel

/-- Witness of C20 on `selfLoopRecords`: started at 2, the reconstruction reaches state
1, which is its own parent, in the second iteration. -/
theorem reconstruct_self_loop_witness :
    Solver.reconstructPathSequential 2 selfLoopRecords 2 = some [] :=
  reconstruct_self_loop selfLoopRecords 2 1 [⟨0, .RIGHT⟩] ⟨3, .DOWN⟩ 2
    (Walks.step (by decide) (by decide) (by decide) (Walks.here 1)) (by decide) (by decide)
    (by decide)

/-- Counterexample to C19: with `solutionFound` set and the record map `brokenRecords`,
in which the parent 1 of the solution state 2 has no record, `solve_sequential` returns
the empty sequence, the very value it returns when no solution was found; the same
holds for `selfLoopRecords`, in which state 1 is its own parent. -/
theorem violation_returns_no_solution_value :
    Solver.finish 5 (some 2) brokenRecords = some [] ∧
      Solver.finish 5 (some 2) selfLoopRecords = some [] ∧
      Solver.finish 5 none brokenRecords = some [] := by
  decide

/-- Claim C19, amended.  When path reconstruction meets a state that has no record, or
a non-sentinel record whose parent is the state itself, it returns the empty path, never
a partial one; the value `solve_sequential` then returns is the value it returns when
no solution was found. -/
theorem violation_returns_empty (v : Visited) (endState s : State) (walked : List Move)
    (fuel : Nat) (hreach : Walks v endState walked s)
    (hviol : v s = none ∨ ∃ m, v s = some (s, m) ∧ m.robot ≠ -1)
    (hfuel : walked.length < fuel) :
    Solver.reconstructPathSequential fuel v endState = some [] ∧
      Solver.finish fuel (some endState) v = Solver.finish fuel none v := by
  have h := reconstruct_violation hreach hviol hfuel
  exact ⟨h, h⟩

/-- Witness of the amended C19 on `brokenRecords`. -/
theorem violation_returns_empty_witness :
    Solver.reconstructPathSequential 2 brokenRecords 2 = some [] ∧
      Solver.finish 2 (some 2) brokenRecords = Solver.finish 2 none brokenRecords :=
  violation_returns_empty brokenRecords 2 1 [⟨0, .RIGHT⟩] 2
    (Walks.step (by decide) (by decide) (by decide) (Walks.here 1)) (Or.inl (by decide))
    (by decide)

/-! ## Same-colour transparency -/

theorem withoutColor_enterable (b : Board) (color : Char) (c : Robots) (m : Nat) (x y : Int)
    (d : Direction) : Enterable (b.withoutColor color) c m x y d ↔ Enterable b c m x y d :=
  Iff.rfl

theorem withoutColor_exitDir (b : Board) (m : Nat) (x y : Int) (d : Direction) :
    exitDir (b.withoutColor (Board.getRobotColor m)) m x y d = exitDir b m x y d := by
  unfold exitDir Board.getDiagonalWallInfo
  have ho : (b.withoutColor (Board.getRobotColor m)).outOfBounds x y = b.outOfBounds x y := rfl
  rw [ho]
  by_cases hb : b.outOfBounds x y = true
  · simp [hb]
  · simp only [hb, Bool.false_eq_true, if_false]
    show (match (match b.diagonalWalls x y with
        | some (c, o) => if c = Board.getRobotColor m then none else some (c, o)
        | none => none) with
      | some (wall_color, orientation) =>
        if wall_color ≠ Board.getRobotColor m then deflect orientation d else d
      | none => d) = _
    cases hdw : b.diagonalWalls x y with
    | none => rfl
    | some co =>
      obtain ⟨col, o⟩ := co
      by_cases hc : col = Board.getRobotColor m
      · simp [hc]
      · simp [hc]

theorem withoutColor_slideLoop (b : Board) (c : Robots) (m : Nat) :
    ∀ (n : Nat) (x y : Int) (d : Direction),
      slideLoop (b.withoutColor (Board.getRobotColor m)) c m n x y d = slideLoop b c m n x y d := by
  intro n
  induction n with
  | zero => intro x y d; rfl
  | succ n ih =>
    intro x y d
    rw [slideLoop_succ, slideLoop_succ, withoutColor_exitDir, ih]
    by_cases he : Enterable b c m x y d
    · rw [if_pos he, if_pos ((withoutColor_enterable b _ c m x y d).mpr he)]
    · rw [if_neg he, if_neg (fun h => he ((withoutColor_enterable b _ c m x y d).mp h))]

/-- Claim C11 (same-colour transparency).  For every board, configuration, mover, start
cell and direction, `simulateMove` behaves on the board as on the board without the
deflectors of the mover's colour: with every iteration bound the two calls agree, so
the slide terminates on one board exactly when it does on the other, and with the same
resting cell. -/
theorem same_colour_transparent (board : Board) (robots : Robots) (mover : Nat) (x y : Int)
    (d : Direction) :
    (∀ fuel, Solver.simulateMove board fuel x y d robots mover
        = Solver.simulateMove (board.withoutColor (Board.getRobotColor mover)) fuel x y d
            robots mover) ∧
      ∀ r, Solver.SlideResult board x y d robots mover r ↔
        Solver.SlideResult (board.withoutColor (Board.getRobotColor mover)) x y d robots mover r := by
  have h : ∀ fuel, Solver.simulateMove board fuel x y d robots mover
      = Solver.simulateMove (board.withoutColor (Board.getRobotColor mover)) fuel x y d
          robots mover :=
    fun fuel => (withoutColor_slideLoop board robots mover fuel x y d).symm
  refine ⟨h, fun r => ⟨?_, ?_⟩⟩
  · rintro ⟨fuel, hf⟩; exact ⟨fuel, by rw [← h]; exact hf⟩
  · rintro ⟨fuel, hf⟩; exact ⟨fuel, by rw [h]; exact hf⟩

/-! ## The already-solved start -/

theorem solve_of_initial_goal {s : Solver} (h : s.checkSolution s.initial = true) (fuel : Nat) :
    s.solve_sequential (fuel + 1) = some [] ∧
      s.search (fuel + 1)
        = some (some s.initial, Visited.empty.insert s.initial (sentinel s.initial)) := by
  have hsearch : s.search (fuel + 1)
      = some (some s.initial, Visited.empty.insert s.initial (sentinel s.initial)) := by
    simp [Solver.search, Solver.searchLoop, Solver.levelLoop, h]
  refine ⟨?_, hsearch⟩
  unfold Solver.solve_sequential
  rw [hsearch]
  simp [Solver.reconstructPathSequential, reconstructLoop, Visited.insert_same, sentinel]

/-- Claim C12 (already-solved case).  When the decoded position of the target robot in
the initial state is the target cell, `solve_sequential` returns the empty sequence: the
search ends at the first dequeued state with the record map as initialised, no state
expanded. -/
theorem already_solved (s : Solver) (h : s.checkSolution s.initial = true) (fuel : Nat) :
    s.solve_sequential (fuel + 1) = some [] ∧
      s.search (fuel + 1)
        = some (some s.initial, Visited.empty.insert s.initial (sentinel s.initial)) :=
  solve_of_initial_goal h fuel

/-- Witness of C12 on `solvedSolver`. -/
theorem already_solved_witness : solvedSolver.solve_sequential 1 = some [] :=
  (already_solved solvedSolver (by decide) 0).1

/-- Witness of C11 on `twoColorBoard`: robot 0 (Red) slides from (0, 0) to the RIGHT
through the Red deflector at (2, 0), is turned UP by the Blue one at (5, 0) and rests
there, as on the board without the Red deflector. -/
theorem same_colour_transparent_witness :
    Solver.SlideResult (twoColorBoard.withoutColor 'R') 0 0 .RIGHT rightStart 0 (5, 0) :=
  ((same_colour_transparent twoColorBoard rightStart 0 0 0 .RIGHT).2 (5, 0)).mp
    ⟨7, by decide⟩

/-! ## Slides along row 0 of a board without interior walls -/

theorem nextCell_back (x y : Int) (d : Direction) :
    (nextCell (nextCell x y d).1 (nextCell x y d).2.1 (nextCell x y d).2.2).1 = x ∧
      (nextCell (nextCell x y d).1 (nextCell x y d).2.1 (nextCell x y d).2.2).2.1 = y := by
  cases d <;> simp [nextCell]

/-- On a board without interior walls a robot can enter the next cell as soon as that
cell is in the grid and not occupied. -/
theorem enterable_of_noInteriorWalls {b : Board} (hw : b.NoInteriorWalls) {c : Robots}
    {m : Nat} {x y : Int} {d : Direction} (h0 : b.outOfBounds x y = false)
    (h1 : b.outOfBounds (nextCell x y d).1 (nextCell x y d).2.1 = false)
    (hfree : FreeCell c m (nextCell x y d).1 (nextCell x y d).2.1) : Enterable b c m x y d := by
  refine ⟨hw x y d h0 h1, h1, ?_, collision_eq_false.mpr hfree⟩
  apply hw _ _ _ h1
  rw [(nextCell_back x y d).1, (nextCell_back x y d).2]
  exact h0

theorem freeCell_row0 {c : Robots} {t : Fin 5} (hothers : ∀ i, i ≠ t → (c i).2 ≠ 0) (x : Int) :
    FreeCell c t.val x 0 := by
  intro i hi heq
  exact hothers i (fun h => hi (congrArg Fin.val h)) (congrArg Prod.snd heq)

/-- One step to the RIGHT in row 0 of a 16 x 16 board without interior walls, when no
other robot stands in that row. -/
theorem enterable_row0 {b : Board} (hw : b.width = 16) (hh : b.height = 16)
    (hwalls : b.NoInteriorWalls) {c : Robots} {t : Fin 5}
    (hothers : ∀ i, i ≠ t → (c i).2 ≠ 0) {x : Int} (h0 : 0 ≤ x) (h1 : x < 15) :
    Enterable b c t.val x 0 .RIGHT := by
  apply enterable_of_noInteriorWalls hwalls
  · rw [outOfBounds_eq_false]; omega
  · rw [outOfBounds_eq_false]; simp only [nextCell]; omega
  · exact freeCell_row0 hothers _

theorem exitDir_none {b : Board} {m : Nat} {x y : Int} (d : Direction)
    (h : b.diagonalWalls x y = none) : exitDir b m x y d = d := by
  have hg : b.getDiagonalWallInfo x y = none := by
    unfold Board.getDiagonalWallInfo
    rw [h]; simp
  unfold exitDir
  rw [hg]

theorem not_enterable_top (b : Board) (c : Robots) (m : Nat) (x : Int) :
    ¬ Enterable b c m x 0 .UP := by
  intro h
  have := outOfBounds_eq_false.mp h.2.1
  simp only [nextCell] at this
  omega

theorem slideTrace_succ (b : Board) (c : Robots) (m : Nat) (fuel : Nat) (x y : Int)
    (d : Direction) :
    slideTrace b c m (fuel + 1) x y d
      = (x, y, d) ::
          if Enterable b c m x y d then
            slideTrace b c m fuel (nextCell x y d).1 (nextCell x y d).2.1
              (exitDir b m (nextCell x y d).1 (nextCell x y d).2.1 d)
          else [] := by
  by_cases h : Enterable b c m x y d
  · rw [if_pos h, slideTrace, slideStep_of_enterable h]
  · rw [if_neg h, slideTrace, slideStep_of_not_enterable h]

/-- Claim C14 (concrete deflector scenario).  On a 16 x 16 board without interior walls,
with the target robot at (0, 0), a deflector of another colour with orientation NE-SW at
(5, 0), no deflector on the cells between them and no other robot in row 0, the slide of
the target robot to the RIGHT runs through (1, 0) ... (4, 0), enters (5, 0), continues
from there travelling UP and stops at once: its loop states are exactly the six listed,
none of them on a cell (5, y) with y > 0, and it rests at (5, 0). -/
theorem deflector_scenario (b : Board) (c : Robots) (t : Fin 5) (color : Char) (fuel : Nat)
    (hw : b.width = 16) (hh : b.height = 16) (hwalls : b.NoInteriorWalls)
    (hdefl : b.diagonalWalls 5 0 = some (color, .NE_SW))
    (hcol : color ≠ Board.getRobotColor t.val)
    (hrow : ∀ x : Int, 0 < x → x < 5 → b.diagonalWalls x 0 = none)
    (hstart : c t = (0, 0)) (hothers : ∀ i, i ≠ t → (c i).2 ≠ 0) (hfuel : 6 ≤ fuel) :
    slideTrace b c t.val fuel (c t).1 (c t).2 .RIGHT
        = [(0, 0, .RIGHT), (1, 0, .RIGHT), (2, 0, .RIGHT), (3, 0, .RIGHT), (4, 0, .RIGHT),
            (5, 0, .UP)] ∧
      Solver.simulateMove b fuel (c t).1 (c t).2 .RIGHT c t.val = some (5, 0) := by
  obtain ⟨n, rfl⟩ : ∃ n, fuel = n + 6 := ⟨fuel - 6, by omega⟩
  have e0 := enterable_row0 hw hh hwalls hothers (x := 0) (by omega) (by omega)
  have e1 := enterable_row0 hw hh hwalls hothers (x := 1) (by omega) (by omega)
  have e2 := enterable_row0 hw hh hwalls hothers (x := 2) (by omega) (by omega)
  have e3 := enterable_row0 hw hh hwalls hothers (x := 3) (by omega) (by omega)
  have e4 := enterable_row0 hw hh hwalls hothers (x := 4) (by omega) (by omega)
  have d1 : exitDir b t.val 1 0 .RIGHT = .RIGHT := exitDir_none _ (hrow 1 (by omega) (by omega))
  have d2 : exitDir b t.val 2 0 .RIGHT = .RIGHT := exitDir_none _ (hrow 2 (by omega) (by omega))
  have d3 : exitDir b t.val 3 0 .RIGHT = .RIGHT := exitDir_none _ (hrow 3 (by omega) (by omega))
  have d4 : exitDir b t.val 4 0 .RIGHT = .RIGHT := exitDir_none _ (hrow 4 (by omega) (by omega))
  have hin5 : b.outOfBounds 5 0 = false := by rw [outOfBounds_eq_false]; omega
  have d5 : exitDir b t.val 5 0 .RIGHT = .UP := by
    rw [exitDir_deflector (o := .NE_SW) (by unfold Board.getDiagonalWallInfo; rw [hin5]; exact hdefl)
      hcol]
    rfl
  have e5 := not_enterable_top b c t.val 5
  have n0 : nextCell 0 0 .RIGHT = (1, 0, .LEFT) := rfl
  have n1 : nextCell 1 0 .RIGHT = (2, 0, .LEFT) := rfl
  have n2 : nextCell 2 0 .RIGHT = (3, 0, .LEFT) := rfl
  have n3 : nextCell 3 0 .RIGHT = (4, 0, .LEFT) := rfl
  have n4 : nextCell 4 0 .RIGHT = (5, 0, .LEFT) := rfl
  rw [hstart]
  constructor
  · show slideTrace b c t.val (n + 5 + 1) 0 0 .RIGHT = _
    rw [slideTrace_succ, if_pos e0, n0]
    show _ :: slideTrace b c t.val (n + 4 + 1) 1 0 (exitDir b t.val 1 0 .RIGHT) = _
    rw [d1, slideTrace_succ, if_pos e1, n1]
    show _ :: _ :: slideTrace b c t.val (n + 3 + 1) 2 0 (exitDir b t.val 2 0 .RIGHT) = _
    rw [d2, slideTrace_succ, if_pos e2, n2]
    show _ :: _ :: _ :: slideTrace b c t.val (n + 2 + 1) 3 0 (exitDir b t.val 3 0 .RIGHT) = _
    rw [d3, slideTrace_succ, if_pos e3, n3]
    show _ :: _ :: _ :: _ :: slideTrace b c t.val (n + 1 + 1) 4 0 (exitDir b t.val 4 0 .RIGHT) = _
    rw [d4, slideTrace_succ, if_pos e4, n4]
    show _ :: _ :: _ :: _ :: _ :: slideTrace b c t.val (n + 1) 5 0 (exitDir b t.val 5 0 .RIGHT) = _
    rw [d5, slideTrace_succ, if_neg e5]
  · show slideLoop b c t.val (n + 5 + 1) 0 0 .RIGHT = _
    rw [slideLoop_succ, if_pos e0, n0]
    show slideLoop b c t.val (n + 4 + 1) 1 0 (exitDir b t.val 1 0 .RIGHT) = _
    rw [d1, slideLoop_succ, if_pos e1, n1]
    show slideLoop b c t.val (n + 3 + 1) 2 0 (exitDir b t.val 2 0 .RIGHT) = _
    rw [d2, slideLoop_succ, if_pos e2, n2]
    show slideLoop b c t.val (n + 2 + 1) 3 0 (exitDir b t.val 3 0 .RIGHT) = _
    rw [d3, slideLoop_succ, if_pos e3, n3]
    show slideLoop b c t.val (n + 1 + 1) 4 0 (exitDir b t.val 4 0 .RIGHT) = _
    rw [d4, slideLoop_succ, if_pos e4, n4]
    show slideLoop b c t.val (n + 1) 5 0 (exitDir b t.val 5 0 .RIGHT) = _
    rw [d5, slideLoop_succ, if_neg e5]

theorem emptyBoard_noInteriorWalls {b : Board} (h : ∀ y x, b.walls y x = 0) :
    b.NoInteriorWalls := by
  intro x y d h0 _
  unfold Board.hasWall
  rw [h0, h]
  cases d <;> rfl

/-- Witness of C14 on `deflectorBoard` with robot 0 (Red) at (0, 0). -/
theorem deflector_scenario_witness :
    slideTrace deflectorBoard rightStart 0 6 0 0 .RIGHT
        = [(0, 0, .RIGHT), (1, 0, .RIGHT), (2, 0, .RIGHT), (3, 0, .RIGHT), (4, 0, .RIGHT),
            (5, 0, .UP)] ∧
      Solver.simulateMove deflectorBoard 6 0 0 .RIGHT rightStart 0 = some (5, 0) :=
  deflector_scenario deflectorBoard rightStart 0 'B' 6 rfl rfl
    (emptyBoard_noInteriorWalls (fun _ _ => rfl)) (by decide) (by decide)
    (fun x h0 h5 => by
      show (if x = 5 ∧ (0 : Int) = 0 then some ('B', DiagonalOrientation.NE_SW) else none) = none
      rw [if_neg]; omega)
    (by decide) (by decide) (by decide)

/-! ## Termination of the search on every board -/

theorem foldlM_option_inv {α β : Type} {g : β → α → Option β} {P : β → Prop}
    (h : ∀ b a b', P b → g b a = some b' → P b') :
    ∀ (l : List α) (b b' : β), P b → l.foldlM g b = some b' → P b' := by
  intro l
  induction l with
  | nil =>
    intro b b' hb hf
    simp only [List.foldlM_nil, Option.pure_def, Option.some.injEq] at hf
    rw [← hf]; exact hb
  | cons a l ih =>
    intro b b' hb hf
    simp only [List.foldlM_cons, Option.bind_eq_bind, Option.bind_eq_some] at hf
    obtain ⟨b1, h1, h2⟩ := hf
    exact ih b1 b' (h b a b1 hb h1) h2

theorem GInv_card_le {s : Solver} {Q : State → Prop} {B : Nat} {f : Frontier}
    {S : Finset State} (hg : GInv s Q B f S) : S.card ≤ B + 1 := by
  have hsub : S ⊆ insert s.initial (Finset.range B) := by
    intro st hst
    rcases hg.bound st hst with h | h
    · rw [h]; exact Finset.mem_insert_self _ _
    · exact Finset.mem_insert_of_mem (Finset.mem_range.mpr h)
  calc S.card ≤ (insert s.initial (Finset.range B)).card := Finset.card_le_card hsub
    _ ≤ (Finset.range B).card + 1 := Finset.card_insert_le _ _
    _ = B + 1 := by rw [Finset.card_range]

/-- Recording and enqueueing a key that has no record keeps the invariant and the
potential. -/
theorem GInv_record {s : Solver} {Q : State → Prop} {B : Nat} {f : Frontier}
    {S : Finset State} (hg : GInv s Q B f S) {current new : State} {m : Move}
    (hcur : current ∈ S) (hnone : f.visited new = none) (hlt : new < B) (hm : m.robot ≠ -1)
    (hq : Q new) :
    GInv s Q B ⟨f.queue ++ [new], f.visited.insert new (current, m)⟩ (insert new S) ∧
      potential B ⟨f.queue ++ [new], f.visited.insert new (current, m)⟩ (insert new S)
        = potential B f S := by
  have hle : Visited.Le f.visited (f.visited.insert new (current, m)) :=
    Visited.le_insert _ hnone
  have hnotin : new ∉ S := by
    intro h
    have := (hg.vis_iff new).mpr h
    rw [hnone] at this
    cases this
  have hne : new ≠ current := fun h => hnotin (h ▸ hcur)
  have hg' : GInv s Q B ⟨f.queue ++ [new], f.visited.insert new (current, m)⟩ (insert new S) := by
    refine ⟨?_, ?_, ?_, ?_, ?_⟩
    · intro st
      simp only [Finset.mem_insert]
      by_cases h : st = new
      · rw [h, Visited.insert_same]; simp
      · rw [Visited.insert_other _ _ h, hg.vis_iff]
        simp [h]
    · intro st hst
      rcases Finset.mem_insert.mp hst with h | h
      · right; rw [h]; exact hlt
      · exact hg.bound st h
    · intro st hst
      rcases List.mem_append.mp hst with h | h
      · exact Finset.mem_insert_of_mem (hg.queue_vis st h)
      · rw [List.mem_singleton] at h
        rw [h]; exact Finset.mem_insert_self _ _
    · intro st hst
      rcases Finset.mem_insert.mp hst with h | h
      · obtain ⟨path, hp⟩ := hg.chain current hcur
        rw [h]
        exact ⟨path ++ [m], PathTo.step (PathTo_mono hle hp) (Visited.insert_same _ _ _) hm hne⟩
      · obtain ⟨path, hp⟩ := hg.chain st h
        exact ⟨path, PathTo_mono hle hp⟩
    · intro st hst
      rcases Finset.mem_insert.mp hst with h | h
      · rw [h]; exact hq
      · exact hg.inv st h
  refine ⟨hg', ?_⟩
  have hcard := GInv_card_le hg'
  rw [Finset.card_insert_of_not_mem hnotin] at hcard
  unfold potential
  rw [Finset.card_insert_of_not_mem hnotin]
  simp only [List.length_append, List.length_singleton]
  omega

theorem tryMove_gok {s : Solver} {Q : State → Prop} {B : Nat} (hB : ∀ c, encode c < B)
    (hQ : Closed s Q) {cur : State} {pot len0 fuel : Nat} {f f' : Frontier} {i : Fin 5}
    {d : Direction} (hf : GOK s Q B cur pot len0 f)
    (h : s.tryMove fuel cur (decode cur) f i d = some f') : GOK s Q B cur pot len0 f' := by
  obtain ⟨S, hg, hcur, hpot, hlen⟩ := hf
  unfold Solver.tryMove at h
  cases hsim : Solver.simulateMove s.board fuel (decode cur i).1 (decode cur i).2 d
      (decode cur) i.val with
  | none => rw [hsim] at h; cases h
  | some p =>
    obtain ⟨nx, ny⟩ := p
    rw [hsim] at h
    simp only at h
    split at h
    · cases Option.some.inj h
      exact ⟨S, hg, hcur, hpot, hlen⟩
    · rename_i hmoved
      split at h
      · rename_i hnone
        cases Option.some.inj h
        have hq : Q (Solver.encode (decode cur) i nx ny) := by
          refine hQ cur i d (nx, ny) (hg.inv cur hcur) ⟨fuel, hsim⟩ (fun heq => hmoved ?_)
          rw [← heq]; exact ⟨rfl, rfl⟩
        obtain ⟨hg', hpot'⟩ := GInv_record (m := ⟨(i.val : Int), d⟩) hg hcur hnone (hB _)
          (by simp only [ne_eq]; omega) hq
        refine ⟨_, hg', Finset.mem_insert_of_mem hcur, by rw [hpot', hpot], ?_⟩
        simp only [List.length_append, List.length_singleton]
        omega
      · cases Option.some.inj h
        exact ⟨S, hg, hcur, hpot, hlen⟩

theorem expand_gok {s : Solver} {Q : State → Prop} {B : Nat} (hB : ∀ c, encode c < B)
    (hQ : Closed s Q) {cur : State} {pot len0 fuel : Nat} {f f' : Frontier}
    (hf : GOK s Q B cur pot len0 f) (h : s.expand fuel cur f = some f') :
    GOK s Q B cur pot len0 f' := by
  unfold Solver.expand at h
  refine foldlM_option_inv (P := GOK s Q B cur pot len0) (fun b i b' hb hfold => ?_) _ _ _ hf h
  exact foldlM_option_inv (P := GOK s Q B cur pot len0)
    (fun b d b' hb' hstep => tryMove_gok hB hQ hb' hstep) _ _ _ hb hfold

/-- One level of the search on any board: with slides that return, the loop over the
level returns; a solution state is a recorded goal state, otherwise the invariant holds
again and the potential has decreased by the number of dequeued states. -/
theorem levelLoop_ginv {s : Solver} {Q : State → Prop} {B : Nat} (hB : ∀ c, encode c < B)
    (hQ : Closed s Q) {fuel : Nat} (hsl : AllSlidesWithin s.board fuel) :
    ∀ (n : Nat) (f : Frontier) (S : Finset State), GInv s Q B f S → n ≤ f.queue.length →
      ∃ out, s.levelLoop fuel n f = some out ∧
        match out with
        | .found st v =>
          s.checkSolution st = true ∧ (∃ path, PathTo v s.initial st path) ∧
            ∀ st', (v st').isSome = true → Q st'
        | .next f' => ∃ S', GInv s Q B f' S' ∧ potential B f' S' + n = potential B f S := by
  intro n
  induction n with
  | zero =>
    intro f S hg _
    exact ⟨.next f, rfl, S, hg, rfl⟩
  | succ n ih =>
    intro f S hg hn
    obtain ⟨q, v⟩ := f
    cases q with
    | nil => simp at hn
    | cons current rest =>
      have hcur : current ∈ S := hg.queue_vis current (List.mem_cons_self _ _)
      simp only [Solver.levelLoop]
      split
      · rename_i hgoal
        exact ⟨_, rfl, hgoal, hg.chain current hcur,
          fun st' hst' => hg.inv st' ((hg.vis_iff st').mp hst')⟩
      · have hg0 : GInv s Q B ⟨rest, v⟩ S :=
          ⟨hg.vis_iff, hg.bound, fun st hst => hg.queue_vis st (List.mem_cons_of_mem _ hst),
            hg.chain, hg.inv⟩
        obtain ⟨f1, hf1⟩ := expand_total (s := s) (hsl current) ⟨rest, v⟩
        rw [hf1]
        simp only
        obtain ⟨S1, hg1, _, hpot1, hlen1⟩ := expand_gok hB hQ
          (⟨S, hg0, hcur, rfl, le_refl _⟩ : GOK s Q B current _ rest.length ⟨rest, v⟩) hf1
        simp only [List.length_cons] at hn
        obtain ⟨out, hout, hprop⟩ := ih f1 S1 hg1 (by omega)
        refine ⟨out, hout, ?_⟩
        cases out with
        | found st v' => exact hprop
        | next f' =>
          obtain ⟨S', hg', hpot'⟩ := hprop
          refine ⟨S', hg', ?_⟩
          rw [hpot1] at hpot'
          unfold potential at hpot' ⊢
          simp only [List.length_cons] at hpot' ⊢
          omega

/-- The search on any board: with slides that return and more levels of fuel than the
potential, the search loop returns; a solution state is a recorded goal state. -/
theorem searchLoop_ginv {s : Solver} {Q : State → Prop} {B : Nat} (hB : ∀ c, encode c < B)
    (hQ : Closed s Q) {fuel : Nat} (hsl : AllSlidesWithin s.board fuel) :
    ∀ (n : Nat) (f : Frontier) (S : Finset State), GInv s Q B f S → potential B f S < n →
      ∃ res v, s.searchLoop fuel n f = some (res, v) ∧
        (∀ st', (v st').isSome = true → Q st') ∧
        ∀ st, res = some st →
          s.checkSolution st = true ∧ ∃ path, PathTo v s.initial st path := by
  intro n
  induction n with
  | zero => intro f S _ h; omega
  | succ n ih =>
    intro f S hg hpot
    simp only [Solver.searchLoop]
    split
    · exact ⟨none, f.visited, rfl, fun st' hst' => hg.inv st' ((hg.vis_iff st').mp hst'),
        fun st h => by cases h⟩
    · rename_i hne
      obtain ⟨out, hout, hprop⟩ := levelLoop_ginv hB hQ hsl f.queue.length f S hg (le_refl _)
      rw [hout]
      cases out with
      | found st v =>
        obtain ⟨h1, h2, h3⟩ := hprop
        exact ⟨some st, v, rfl, h3, fun st' h => by cases h; exact ⟨h1, h2⟩⟩
      | next f' =>
        obtain ⟨S', hg', hpot'⟩ := hprop
        have hlen : 0 < f.queue.length := by
          cases hq : f.queue with
          | nil => rw [hq] at hne; simp at hne
          | cons a l => simp
        exact ih f' S' hg' (by omega)

theorem GInv_initial (s : Solver) {Q : State → Prop} (B : Nat) (hq : Q s.initial) :
    GInv s Q B ⟨[s.initial], Visited.empty.insert s.initial (sentinel s.initial)⟩ {s.initial} := by
  refine ⟨?_, ?_, ?_, ?_, ?_⟩
  · intro st
    simp only [Finset.mem_singleton]
    by_cases h : st = s.initial
    · rw [h, Visited.insert_same]; simp
    · rw [Visited.insert_other _ _ h]
      simp [Visited.empty, h]
  · intro st hst
    left; exact Finset.mem_singleton.mp hst
  · intro st hst
    rw [List.mem_singleton] at hst
    rw [hst]; exact Finset.mem_singleton_self _
  · intro st hst
    rw [Finset.mem_singleton.mp hst]
    exact ⟨[], PathTo.root (Visited.insert_same _ _ _)⟩
  · intro st hst
    rw [Finset.mem_singleton.mp hst]; exact hq

/-- When every slide from a configuration with coordinates in 0..15 terminates, one
iteration bound serves every slide the search can start: there are finitely many
keys. -/
theorem uniform_slide_fuel_all {b : Board}
    (hterm : ∀ (c : Robots) (i : Fin 5) (d : Direction), InRange c →
      ∃ r, Solver.SlideResult b (c i).1 (c i).2 d c i.val r) :
    ∃ F, AllSlidesWithin b F := by
  classical
  let P : State × Fin 5 × Direction → Nat → Prop := fun x n =>
    (Solver.simulateMove b n (decode x.1 x.2.1).1 (decode x.1 x.2.1).2 x.2.2
      (decode x.1) x.2.1.val).isSome = true
  let g : State × Fin 5 × Direction → Nat := fun x =>
    if h : ∃ n, P x n then Classical.choose h else 0
  obtain ⟨B, hB⟩ : ∃ B : Nat, B = 1099511627776 := ⟨_, rfl⟩
  refine ⟨(Finset.range B ×ˢ (Finset.univ : Finset (Fin 5 × Direction))).sup g, ?_⟩
  intro st i d
  have hdec : decode (encode (decode st)) = decode st := decode_encode (decode_inRange st)
  obtain ⟨r, n, hn⟩ := hterm (decode st) i d (decode_inRange st)
  have hex : ∃ n, P (encode (decode st), i, d) n :=
    ⟨n, by simp only [P]; rw [hdec, hn]; rfl⟩
  have hg : P (encode (decode st), i, d) (g (encode (decode st), i, d)) := by
    simp only [g, dif_pos hex]
    exact Classical.choose_spec hex
  have hlt : encode (decode st) < B := by rw [hB]; exact encode_lt _
  have hmem : (encode (decode st), i, d) ∈
      Finset.range B ×ˢ (Finset.univ : Finset (Fin 5 × Direction)) :=
    Finset.mem_product.mpr ⟨Finset.mem_range.mpr hlt, Finset.mem_univ _⟩
  have hle := Finset.le_sup (f := g) hmem
  simp only [P, hdec] at hg
  obtain ⟨r', hr'⟩ := Option.isSome_iff_exists.mp hg
  rw [simulateMove_mono hr' hle]
  rfl

theorem PathTo_isSome {v : Visited} {init st : State} {path : List Move}
    (h : PathTo v init st path) : (v st).isSome = true := by
  cases h with
  | root h0 => rw [h0]; rfl
  | step _ hrec _ _ => rw [hrec]; rfl

/-- The search and the reconstruction return on every board on which the slides
terminate, from every initial state; a non-empty result comes from a recorded goal
state, and every recorded key has the property `Q` when the initial state has it and the
transitions keep it. -/
theorem search_terminates {s : Solver} {Q : State → Prop} (hq : Q s.initial) (hQ : Closed s Q)
    (hterm : ∀ (c : Robots) (i : Fin 5) (d : Direction), InRange c →
      ∃ r, Solver.SlideResult s.board (c i).1 (c i).2 d c i.val r) :
    ∃ fuel res v moves, s.search fuel = some (res, v) ∧ s.solve_sequential fuel = some moves ∧
      (∀ st, (v st).isSome = true → Q st) ∧
      (res = none → moves = []) ∧
      ∀ st, res = some st → s.checkSolution st = true ∧ (v st).isSome = true := by
  obtain ⟨F, hF⟩ := uniform_slide_fuel_all hterm
  obtain ⟨B, hB⟩ : ∃ B : Nat, B = 1099511627776 := ⟨_, rfl⟩
  have hBe : ∀ c, encode c < B := fun c => by rw [hB]; exact encode_lt c
  have hpot : potential B ⟨[s.initial], Visited.empty.insert s.initial (sentinel s.initial)⟩
      {s.initial} < B + 2 := by
    unfold potential
    simp only [Finset.card_singleton, List.length_singleton]
    omega
  obtain ⟨res, v, hloop, hinv, hres⟩ :=
    searchLoop_ginv hBe hQ hF (B + 2) _ _ (GInv_initial s B hq) hpot
  cases res with
  | none =>
    refine ⟨max F (B + 2), none, v, [], ?_, ?_, hinv, fun _ => rfl, fun st h => (by cases h)⟩
    · exact searchLoop_mono (Nat.le_max_left _ _) _ _ _ _ (Nat.le_max_right _ _) hloop
    · unfold Solver.solve_sequential
      rw [show s.search (max F (B + 2)) = some (none, v) from
        searchLoop_mono (Nat.le_max_left _ _) _ _ _ _ (Nat.le_max_right _ _) hloop]
  | some st =>
    obtain ⟨hgoal, path, hp⟩ := hres st rfl
    have hle1 : F ≤ max (max F (B + 2)) (path.length + 1) :=
      le_trans (Nat.le_max_left _ _) (Nat.le_max_left _ _)
    have hle2 : B + 2 ≤ max (max F (B + 2)) (path.length + 1) :=
      le_trans (Nat.le_max_right _ _) (Nat.le_max_left _ _)
    have hsearch : s.search (max (max F (B + 2)) (path.length + 1)) = some (some st, v) :=
      searchLoop_mono hle1 _ _ _ _ hle2 hloop
    refine ⟨_, some st, v, path, hsearch, ?_, hinv, fun h => (by cases h),
      fun st' h => (by cases h; exact ⟨hgoal, PathTo_isSome hp⟩)⟩
    unfold Solver.solve_sequential
    rw [hsearch]
    exact reconstructPathSequential_pathTo hp
      (lt_of_lt_of_le (Nat.lt_succ_self _) (Nat.le_max_right _ _))

theorem closed_true (s : Solver) : Closed s (fun _ => True) :=
  fun _ _ _ _ _ _ _ => trivial

/-- Claim C15 (search termination).  On every board on which every slide from a
configuration with coordinates in 0..15 terminates, from every initial state,
`solve_sequential` returns; in particular it does on every board without deflectors. -/
theorem solve_sequential_terminates (s : Solver) :
    ((∀ (c : Robots) (i : Fin 5) (d : Direction), InRange c →
        ∃ r, Solver.SlideResult s.board (c i).1 (c i).2 d c i.val r) →
      ∃ moves, s.SolveResult moves) ∧
      ((∀ x y, s.board.diagonalWalls x y = none) → ∃ moves, s.SolveResult moves) := by
  have key : (∀ (c : Robots) (i : Fin 5) (d : Direction), InRange c →
        ∃ r, Solver.SlideResult s.board (c i).1 (c i).2 d c i.val r) →
      ∃ moves, s.SolveResult moves := by
    intro hterm
    obtain ⟨fuel, _, _, moves, _, hsolve, _⟩ :=
      search_terminates (Q := fun _ => True) trivial (closed_true s) hterm
    exact ⟨moves, fuel, hsolve⟩
  refine ⟨key, fun hd => key (fun c i d _ => ?_)⟩
  exact slidesTerminate_of_no_deflector hd c i.val (c i).1 (c i).2 d

/-- Witness of C15 on `detourSolver`, whose board has no deflector. -/
theorem solve_sequential_terminates_witness : ∃ moves, detourSolver.SolveResult moves :=
  (solve_sequential_terminates detourSolver).2 (fun _ _ => rfl)

/-! ## A target robot enclosed by walls -/

theorem slideResult_walled {b : Board} {c : Robots} {m : Nat} {x y : Int} {d : Direction}
    {r : Int × Int} (h : b.hasWall x y d = true) (hr : Solver.SlideResult b x y d c m r) :
    r = (x, y) := by
  have hne : ¬ Enterable b c m x y d := fun he => by
    rw [he.1] at h; exact Bool.false_ne_true h
  obtain ⟨fuel, hf⟩ := hr
  cases fuel with
  | zero => simp [Solver.simulateMove, slideLoop] at hf
  | succ n =>
    rw [Solver.simulateMove, slideLoop_succ, if_neg hne] at hf
    exact (Option.some.inj hf).symm

/-- With walls on all four sides of its cell, the robot `t` keeps its decoded position
in every transition of the search. -/
theorem closed_walled {s : Solver} {t : Fin 5} {p : Int × Int}
    (hwalled : ∀ d, s.board.hasWall p.1 p.2 d = true) :
    Closed s (fun st => decode st t = p) := by
  intro current i d r hq hslide hne
  show decode (encode (setRobot (decode current) i r)) t = p
  have hq : decode current t = p := hq
  by_cases hi : i = t
  · subst hi
    rw [hq] at hslide hne
    exact absurd (slideResult_walled (hwalled d) hslide) hne
  · rw [decode_encode_mod, setRobot_other _ _ (fun h => hi h.symm), hq]
    have := decode_inRange current t
    rw [hq] at this
    apply Prod.ext <;> simp <;> omega

/-- With walls on all four sides of its cell, the robot `t` stands on the same cell
after every replay. -/
theorem walled_replays_fixed {b : Board} {c0 : Robots} {t : Fin 5}
    (hwalled : ∀ d, b.hasWall (c0 t).1 (c0 t).2 d = true) :
    ∀ {moves : List Move} {c : Robots}, Replays b c0 moves c → c t = c0 t := by
  intro moves
  induction moves using List.reverseRecOn with
  | nil => intro c h; rw [Replays_nil h]
  | append_singleton p m ih =>
    intro c h
    obtain ⟨c', i, r, h1, h2, rfl⟩ := Replays_snoc_inv h
    have hc' := ih h1
    by_cases hi : t = i
    · subst hi
      rw [setRobot_same]
      rw [hc'] at h2
      rw [slideResult_walled (hwalled m.dir) h2]
    · rw [setRobot_other _ _ hi, hc']

theorem search_unique {s : Solver} {n k : Nat} {r1 r2 : Option State × Visited}
    (h1 : s.search n = some r1) (h2 : s.search k = some r2) : r1 = r2 := by
  have a : s.search (max n k) = some r1 :=
    searchLoop_mono (Nat.le_max_left n k) _ _ _ _ (Nat.le_max_left n k) h1
  have b : s.search (max n k) = some r2 :=
    searchLoop_mono (Nat.le_max_right n k) _ _ _ _ (Nat.le_max_right n k) h2
  rw [a] at b
  exact Option.some.inj b

/-- The search from a start whose target robot is enclosed by walls, on a board without
deflectors. -/
theorem walled_search {s : Solver} {c0 : Robots}
    (hdefl : ∀ x y, s.board.diagonalWalls x y = none) (hc0 : InRange c0)
    (hinit : s.initial = encode c0)
    (hwalled : ∀ d, s.board.hasWall (c0 s.targetRobot).1 (c0 s.targetRobot).2 d = true)
    (hdiff : (s.board.targetX, s.board.targetY) ≠ c0 s.targetRobot) :
    ∃ fuel v, s.search fuel = some (none, v) ∧ s.solve_sequential fuel = some [] ∧
      ∀ st, (v st).isSome = true → decode st s.targetRobot = c0 s.targetRobot := by
  have hq : decode s.initial s.targetRobot = c0 s.targetRobot := by
    rw [hinit, decode_encode hc0]
  obtain ⟨fuel, res, v, moves, hsearch, hsolve, hinv, hnone, hsome⟩ :=
    search_terminates (Q := fun st => decode st s.targetRobot = c0 s.targetRobot) hq
      (closed_walled hwalled)
      (fun c i d _ => slidesTerminate_of_no_deflector hdefl c i.val (c i).1 (c i).2 d)
  cases res with
  | none =>
    rw [hnone rfl] at hsolve
    exact ⟨fuel, v, hsearch, hsolve, hinv⟩
  | some st =>
    exfalso
    obtain ⟨hgoal, hvis⟩ := hsome st rfl
    have hpos := hinv st hvis
    unfold Solver.checkSolution at hgoal
    simp only [Bool.and_eq_true, decide_eq_true_eq] at hgoal
    apply hdiff
    rw [← hpos]
    exact Prod.ext hgoal.1.symm hgoal.2.symm

/-- Claim C16 (unsolvable scenario).  On a board without deflectors, from an initial
configuration with coordinates in 0..15 in which the cell of the target robot has a
wall on all four sides and is not the target cell, `solve_sequential` returns, and it
returns the empty sequence; the target robot has the same position in every
configuration reached by replaying moves and in every recorded state. -/
theorem walled_target_unsolvable (s : Solver) (c0 : Robots)
    (hdefl : ∀ x y, s.board.diagonalWalls x y = none) (hc0 : InRange c0)
    (hinit : s.initial = encode c0)
    (hwalled : ∀ d, s.board.hasWall (c0 s.targetRobot).1 (c0 s.targetRobot).2 d = true)
    (hdiff : (s.board.targetX, s.board.targetY) ≠ c0 s.targetRobot) :
    s.SolveResult [] ∧
      (∀ (moves : List Move) (c : Robots), Replays s.board c0 moves c →
        c s.targetRobot = c0 s.targetRobot) ∧
      ∀ (fuel : Nat) (res : Option State) (v : Visited) (st : State),
        s.search fuel = some (res, v) → (v st).isSome = true →
        decode st s.targetRobot = c0 s.targetRobot := by
  obtain ⟨fuel0, v0, hsearch0, hsolve0, hinv0⟩ := walled_search hdefl hc0 hinit hwalled hdiff
  refine ⟨⟨fuel0, hsolve0⟩, fun moves c h => walled_replays_fixed hwalled h,
    fun fuel res v st hsearch hst => ?_⟩
  have := search_unique hsearch hsearch0
  simp only [Prod.mk.injEq] at this
  rw [this.2] at hst
  exact hinv0 st hst

/-- Witness of C16 on `boxedSolver`. -/
theorem walled_target_unsolvable_witness : boxedSolver.SolveResult [] :=
  (walled_target_unsolvable boxedSolver rightStart (fun _ _ => rfl) (by decide) rfl
    (by decide) (by decide)).1

/-! ## Already solved versus unsolvable -/

/-- When no replay reaches the goal, the search returns the empty sequence. -/
theorem unreachable_result {s : Solver} {c0 : Robots} (hs : Setup s c0)
    (hterm : ∀ (c : Robots) (i : Fin 5) (d : Direction), InRange c →
      ∃ r, Solver.SlideResult s.board (c i).1 (c i).2 d c i.val r)
    (hunreach : ∀ seq c, Replays s.board c0 seq c → ¬ s.Goal c) : s.SolveResult [] := by
  obtain ⟨fuel, _, _, moves, _, hsolve, _⟩ :=
    search_terminates (Q := fun _ => True) trivial (closed_true s) hterm
  by_cases hne : moves = []
  · rw [hne] at hsolve; exact ⟨fuel, hsolve⟩
  · obtain ⟨c, hrep, hgoal, _⟩ := solve_sequential_found hs hsolve hne
    exact absurd hgoal (hunreach _ c ⟨fuel, hrep⟩)

/-- Counterexample to C17: `solvedSolver` starts on the goal, `boxedSolver` starts from
a configuration from which no move sequence reaches the goal, and `solve_sequential`
returns the same value, the empty sequence, for both. -/
theorem empty_result_is_ambiguous :
    solvedSolver.Goal solvedStart ∧ solvedSolver.initial = encode solvedStart ∧
      (∀ seq c, Replays boxedBoard rightStart seq c → ¬ boxedSolver.Goal c) ∧
      boxedSolver.initial = encode rightStart ∧
      solvedSolver.SolveResult [] ∧ boxedSolver.SolveResult [] := by
  refine ⟨by decide, rfl, ?_, rfl, ⟨1, (solve_of_initial_goal (by decide) 0).1⟩, ?_⟩
  · intro seq c hrep hgoal
    have hfix := walled_replays_fixed (b := boxedBoard) (t := 0) (by decide) hrep
    unfold Solver.Goal at hgoal
    rw [show boxedSolver.targetRobot = 0 from rfl, hfix] at hgoal
    exact absurd (congrArg Prod.fst hgoal) (by decide)
  · obtain ⟨fuel, _, _, hsolve, _⟩ := walled_search (s := boxedSolver) (fun _ _ => rfl)
      (by decide : InRange rightStart) rfl (by decide) (by decide)
    exact ⟨fuel, hsolve⟩

/-- Claim C17, amended.  The value returned by `solve_sequential` does not distinguish
an already-solved start from an unsolvable puzzle: for an input whose start is a goal
state and an input (board of width and height at most 16 on which the slides terminate,
initial configuration with coordinates in 0..15) from which no move sequence reaches
the goal, it returns the same value, the empty sequence. -/
theorem solved_and_unsolvable_same_value (s1 s2 : Solver) (c0 : Robots)
    (hsolved : s1.checkSolution s1.initial = true)
    (hw : s2.board.width ≤ 16) (hh : s2.board.height ≤ 16) (hc0 : InRange c0)
    (hinit : s2.initial = encode c0)
    (hterm : ∀ (c : Robots) (i : Fin 5) (d : Direction), InRange c →
      ∃ r, Solver.SlideResult s2.board (c i).1 (c i).2 d c i.val r)
    (hunreach : ∀ seq c, Replays s2.board c0 seq c → ¬ s2.Goal c) :
    s1.SolveResult [] ∧ s2.SolveResult [] :=
  ⟨⟨1, (solve_of_initial_goal hsolved 0).1⟩, unreachable_result ⟨hinit, hc0, hw, hh⟩ hterm hunreach⟩

/-- Witness of the amended C17 on `solvedSolver` and `boxedSolver`. -/
theorem solved_and_unsolvable_same_value_witness :
    solvedSolver.SolveResult [] ∧ boxedSolver.SolveResult [] :=
  solved_and_unsolvable_same_value solvedSolver boxedSolver rightStart (by decide) (by decide)
    (by decide) (by decide) rfl
    (fun c i d _ => slidesTerminate_of_no_deflector (b := boxedBoard) (fun _ _ => rfl) c i.val
      (c i).1 (c i).2 d)
    (fun seq c hrep hgoal => by
      have hfix := walled_replays_fixed (b := boxedBoard) (t := 0) (by decide) hrep
      unfold Solver.Goal at hgoal
      rw [show boxedSolver.targetRobot = 0 from rfl, hfix] at hgoal
      exact absurd (congrArg Prod.fst hgoal) (by decide))

/-! ## The one-move scenario -/

/-- On a 16 x 16 board without interior walls and deflectors, a robot sliding to the
RIGHT in row 0, in which no other robot stands, rests on (15, 0). -/
theorem slide_right_row0 {b : Board} (hw : b.width = 16) (hh : b.height = 16)
    (hwalls : b.NoInteriorWalls) (hdefl : ∀ x y, b.diagonalWalls x y = none) {c : Robots}
    {t : Fin 5} (hothers : ∀ i, i ≠ t → (c i).2 ≠ 0) :
    ∀ (k : Nat) (x : Int), x + k = 15 → 0 ≤ x →
      slideLoop b c t.val (k + 1) x 0 .RIGHT = some (15, 0) := by
  intro k
  induction k with
  | zero =>
    intro x hx _
    have hx15 : x = 15 := by omega
    subst hx15
    have hne : ¬ Enterable b c t.val 15 0 .RIGHT := by
      intro h
      have := outOfBounds_eq_false.mp h.2.1
      simp only [nextCell] at this
      omega
    rw [slideLoop_succ, if_neg hne]
  | succ k ih =>
    intro x hx h0
    have he := enterable_row0 hw hh hwalls hothers (x := x) h0 (by omega)
    rw [slideLoop_succ, if_pos he]
    show slideLoop b c t.val (k + 1) (x + 1) 0 (exitDir b t.val (x + 1) 0 .RIGHT) = _
    rw [exitDir_none _ (hdefl _ _)]
    exact ih (x + 1) (by omega) (by omega)

/-- On a board without deflectors a slide keeps the column when it goes UP or DOWN. -/
theorem slideLoop_column {b : Board} (hdefl : ∀ x y, b.diagonalWalls x y = none) {c : Robots}
    {m : Nat} {d : Direction} (hd : d = .UP ∨ d = .DOWN) :
    ∀ (n : Nat) (x y : Int) (r : Int × Int), slideLoop b c m n x y d = some r → r.1 = x := by
  intro n
  induction n with
  | zero => intro x y r h; simp [slideLoop] at h
  | succ n ih =>
    intro x y r h
    rw [slideLoop_succ] at h
    split at h
    · rw [exitDir_none _ (hdefl _ _)] at h
      have := ih _ _ r h
      rw [this]
      rcases hd with hd | hd <;> rw [hd] <;> rfl
    · rw [← Option.some.inj h]

theorem slide_of_not_enterable {b : Board} {c : Robots} {m : Nat} {x y : Int}
    {d : Direction} (hne : ¬ Enterable b c m x y d) {fuel : Nat} {r : Int × Int}
    (h : Solver.simulateMove b fuel x y d c m = some r) : r = (x, y) := by
  cases fuel with
  | zero => simp [Solver.simulateMove, slideLoop] at h
  | succ n =>
    rw [Solver.simulateMove, slideLoop_succ, if_neg hne] at h
    exact (Option.some.inj h).symm

/-- The one-move scenario: the search returns the move of the target robot to the
RIGHT. -/
theorem one_move_result {s : Solver} {c0 : Robots}
    (hw : s.board.width = 16) (hh : s.board.height = 16) (hwalls : s.board.NoInteriorWalls)
    (hdefl : ∀ x y, s.board.diagonalWalls x y = none)
    (htarget : (s.board.targetX, s.board.targetY) = (15, 0))
    (hstart : c0 s.targetRobot = (0, 0))
    (hothers : ∀ i, i ≠ s.targetRobot → (c0 i).2 ≠ 0)
    (hbounds : s.board.InBounds c0) (hinit : s.initial = encode c0) :
    s.SolveResult [⟨(s.targetRobot.val : Int), .RIGHT⟩] := by
  have hc0 : InRange c0 := inRange_of_inBounds (by omega) (by omega) hbounds
  have hs : Setup s c0 := ⟨hinit, hc0, by omega, by omega⟩
  have hslide : Solver.simulateMove s.board 16 0 0 .RIGHT c0 s.targetRobot.val = some (15, 0) :=
    slide_right_row0 hw hh hwalls hdefl hothers 15 0 (by omega) (by omega)
  have hrep : replay s.board 16 c0 [⟨(s.targetRobot.val : Int), .RIGHT⟩]
      = some (setRobot c0 s.targetRobot (15, 0)) := by
    simp only [replay, replayMove_mk, hstart, hslide, Option.map_some', Option.some_bind]
  have hgoal1 : s.Goal (setRobot c0 s.targetRobot (15, 0)) := by
    unfold Solver.Goal
    rw [setRobot_same, htarget]
  have hnot : ¬ s.Goal c0 := by
    unfold Solver.Goal
    rw [hstart, htarget]
    intro h
    exact absurd (congrArg Prod.fst h) (by decide)
  have hterm : ∀ moves c, Replays s.board c0 moves c → ∀ (i : Fin 5) (d : Direction),
      ∃ r, Solver.SlideResult s.board (c i).1 (c i).2 d c i.val r :=
    fun _ c _ i d => slidesTerminate_of_no_deflector hdefl c i.val (c i).1 (c i).2 d
  obtain ⟨moves, hres, hne⟩ := search_finds_path s c0 (by omega) (by omega) hc0 hinit hterm hnot
    ⟨_, _, ⟨16, hrep⟩, hgoal1⟩
  obtain ⟨fuel, hf⟩ := hres
  obtain ⟨c, hrepm, hgoalm, hmin⟩ := solve_sequential_found hs hf hne
  have hlen : moves.length ≤ 1 := by
    by_contra hlt
    have hc1 : InRange (setRobot c0 s.targetRobot (15, 0)) :=
      inRange_replays hs.width_le hs.height_le hc0 ⟨16, hrep⟩
    have := hmin (encode (setRobot c0 s.targetRobot (15, 0)))
      ⟨_, _, by simp only [List.length_singleton]; omega, ⟨16, hrep⟩, rfl⟩
    rw [(checkSolution_encode s hc1).mpr hgoal1] at this
    cases this
  obtain ⟨m, rfl⟩ : ∃ m, moves = [m] := by
    cases moves with
    | nil => exact absurd rfl hne
    | cons m rest =>
      cases rest with
      | nil => exact ⟨m, rfl⟩
      | cons m' rest' => simp at hlen
  refine ⟨fuel, ?_⟩
  rw [hf]
  simp only [replay, Option.bind_eq_some, Option.some.injEq] at hrepm
  obtain ⟨c', hmv, hcc⟩ := hrepm
  subst hcc
  obtain ⟨i, r, hm, hsim, rfl⟩ := replayMove_some hmv
  unfold Solver.Goal at hgoalm
  by_cases hi : s.targetRobot = i
  · subst hi
    rw [setRobot_same, htarget] at hgoalm
    rw [hstart] at hsim
    have hdir : m.dir = .RIGHT := by
      cases hd : m.dir with
      | UP =>
        rw [hd] at hsim
        have := slide_of_not_enterable (not_enterable_top _ _ _ _) hsim
        rw [hgoalm] at this
        exact absurd (congrArg Prod.fst this) (by decide)
      | DOWN =>
        rw [hd] at hsim
        have := slideLoop_column hdefl (Or.inr rfl) _ _ _ _ hsim
        rw [hgoalm] at this
        exact absurd this (by decide)
      | LEFT =>
        rw [hd] at hsim
        have hne' : ¬ Enterable s.board c0 s.targetRobot.val 0 0 .LEFT := by
          intro h
          have := outOfBounds_eq_false.mp h.2.1
          simp only [nextCell] at this
          omega
        have := slide_of_not_enterable hne' hsim
        rw [hgoalm] at this
        exact absurd (congrArg Prod.fst this) (by decide)
      | RIGHT => rfl
    rw [hm, hdir]
  · rw [setRobot_other _ _ hi, hstart, htarget] at hgoalm
    exact absurd (congrArg Prod.fst hgoalm) (by decide)

/-- Claim C13 (concrete one-move scenario).  On a 16 x 16 board without interior walls
(the perimeter bits are free) and without deflectors, with the target robot at (0, 0),
the target cell (15, 0) and the other four robots on cells of the grid outside row 0,
`solve_sequential` returns the one-element sequence "target robot RIGHT", and nothing
else. -/
theorem one_move_scenario (s : Solver) (c0 : Robots)
    (hw : s.board.width = 16) (hh : s.board.height = 16) (hwalls : s.board.NoInteriorWalls)
    (hdefl : ∀ x y, s.board.diagonalWalls x y = none)
    (htarget : (s.board.targetX, s.board.targetY) = (15, 0))
    (hstart : c0 s.targetRobot = (0, 0))
    (hothers : ∀ i, i ≠ s.targetRobot → (c0 i).2 ≠ 0)
    (hbounds : s.board.InBounds c0) (hinit : s.initial = encode c0) :
    s.SolveResult [⟨(s.targetRobot.val : Int), .RIGHT⟩] ∧
      ∀ moves, s.SolveResult moves → moves = [⟨(s.targetRobot.val : Int), .RIGHT⟩] := by
  have h := one_move_result hw hh hwalls hdefl htarget hstart hothers hbounds hinit
  exact ⟨h, fun moves hm => SolveResult_unique hm h⟩

/-- Witness of C13 on `rightSolver`. -/
theorem one_move_scenario_witness : rightSolver.SolveResult [⟨0, .RIGHT⟩] :=
  (one_move_scenario rightSolver rightStart rfl rfl
    (emptyBoard_noInteriorWalls (fun _ _ => rfl)) (fun _ _ => rfl) rfl (by decide) (by decide)
    (by decide) rfl).1

/-! ## Building a board: wall symmetry -/

theorem or_ne_zero_of_right {a b : Nat} (h : b ≠ 0) : a ||| b ≠ 0 := by
  intro h0
  apply h
  apply Nat.eq_of_testBit_eq
  intro i
  have := congrArg (fun n => Nat.testBit n i) h0
  simp only [Nat.testBit_or, Nat.zero_testBit, Bool.or_eq_false_iff] at this
  rw [this.2, Nat.zero_testBit]

/-- The wall bit of direction `d` after `|= d0`: it is set when it was set before or
when `d` is `d0`. -/
theorem wallBit_or (a : Nat) (d d0 : Direction) :
    (((a ||| d0.toMask) &&& d.toMask) != 0) = (((a &&& d.toMask) != 0) || decide (d = d0)) := by
  rw [Nat.and_distrib_right]
  by_cases h : d = d0
  · subst h
    have hm : d.toMask ≠ 0 := by cases d <;> decide
    have := or_ne_zero_of_right (a := a &&& d.toMask) hm
    simp [this]
  · have hm : d0.toMask &&& d.toMask = 0 := by
      cases d <;> cases d0 <;> first | rfl | exact absurd rfl h
    rw [hm, Nat.or_zero]
    simp [h]

/-- The wall bit of direction `d` of the cell `(x, y)`. -/
theorem wallBit_orWall (walls : Int → Int → Nat) (x0 y0 : Int) (d0 : Direction) (x y : Int)
    (d : Direction) :
    ((orWall walls x0 y0 d0.toMask y x &&& d.toMask) != 0)
      = (((walls y x &&& d.toMask) != 0) || decide (y = y0 ∧ x = x0 ∧ d = d0)) := by
  unfold orWall
  by_cases h : y = y0 ∧ x = x0
  · rw [if_pos h, wallBit_or]
    simp [h]
  · rw [if_neg h]
    have : ¬ (y = y0 ∧ x = x0 ∧ d = d0) := fun h' => h ⟨h'.1, h'.2.1⟩
    simp [this]
theorem validateCoordinates_eq_none {b : Board} {x y : Int} :
    b.validateCoordinates x y = none ↔ b.outOfBounds x y = false := by
  unfold Board.validateCoordinates
  cases b.outOfBounds x y <;> simp

theorem validateCoordinates_eq_some {b : Board} {x y : Int} {e : BoardError}
    (h : b.validateCoordinates x y = some e) : b.outOfBounds x y = true := by
  unfold Board.validateCoordinates at h
  cases hb : b.outOfBounds x y
  · rw [hb] at h; simp at h
  · rfl

theorem addWall_size (b : Board) (x y : Int) (d : Direction) :
    (b.addWall x y d).1.width = b.width ∧ (b.addWall x y d).1.height = b.height := by
  unfold Board.addWall
  cases b.validateCoordinates x y with
  | some e => exact ⟨rfl, rfl⟩
  | none =>
    simp only
    split <;> exact ⟨rfl, rfl⟩

theorem addWall_outOfBounds (b : Board) (x0 y0 : Int) (d0 : Direction) (x y : Int) :
    (b.addWall x0 y0 d0).1.outOfBounds x y = b.outOfBounds x y := by
  unfold Board.outOfBounds
  rw [(addWall_size b x0 y0 d0).1, (addWall_size b x0 y0 d0).2]

theorem addWall_failed {b : Board} {x y : Int} {d : Direction} {e : BoardError}
    (h : b.validateCoordinates x y = some e) : b.addWall x y d = (b, some e) := by
  unfold Board.addWall; rw [h]

/-- The walls seen by `hasWall` after a call of `addWall` that does not throw: the
walls seen before, the wall added to the cell, and the matching wall of the
neighbour. -/
theorem addWall_hasWall {b : Board} {x0 y0 : Int} {d0 : Direction}
    (h0 : b.outOfBounds x0 y0 = false) {x y : Int} (d : Direction)
    (hin : b.outOfBounds x y = false) :
    (b.addWall x0 y0 d0).1.hasWall x y d
      = (b.hasWall x y d || decide (y = y0 ∧ x = x0 ∧ d = d0) ||
          decide (y = (nextCell x0 y0 d0).2.1 ∧ x = (nextCell x0 y0 d0).1
            ∧ d = (nextCell x0 y0 d0).2.2)) := by
  have hin' := hin
  rw [← addWall_outOfBounds b x0 y0 d0] at hin'
  unfold Board.hasWall
  rw [hin, hin']
  simp only [Bool.false_eq_true, if_false]
  unfold Board.addWall
  rw [validateCoordinates_eq_none.2 h0]
  simp only
  split
  · simp only [wallBit_orWall]
  · rename_i hnb
    simp only [wallBit_orWall]
    have : ¬ (y = (nextCell x0 y0 d0).2.1 ∧ x = (nextCell x0 y0 d0).1
            ∧ d = (nextCell x0 y0 d0).2.2) := by
      rintro ⟨rfl, rfl, -⟩
      apply hnb
      have := outOfBounds_eq_false.1 hin
      omega
    simp [this]
/-- The walls of the board are symmetric: where a cell of the grid and its neighbour
in direction `d` are both cells of the grid, `hasWall` gives the same answer for the
side of the cell that faces the neighbour and the side of the neighbour that faces
the cell.  One call of `addWall` keeps this. -/
theorem addWall_symmetric (b : Board) (x0 y0 : Int) (d0 : Direction)
    (hsym : ∀ (x y : Int) (d : Direction), b.outOfBounds x y = false →
      b.outOfBounds (nextCell x y d).1 (nextCell x y d).2.1 = false →
      b.hasWall x y d = b.hasWall (nextCell x y d).1 (nextCell x y d).2.1 (nextCell x y d).2.2)
    (x y : Int) (d : Direction)
    (hA : (b.addWall x0 y0 d0).1.outOfBounds x y = false)
    (hB : (b.addWall x0 y0 d0).1.outOfBounds (nextCell x y d).1 (nextCell x y d).2.1 = false) :
    (b.addWall x0 y0 d0).1.hasWall x y d
      = (b.addWall x0 y0 d0).1.hasWall (nextCell x y d).1 (nextCell x y d).2.1
          (nextCell x y d).2.2 := by
  rw [addWall_outOfBounds] at hA hB
  cases hv : b.validateCoordinates x0 y0 with
  | some e => rw [addWall_failed hv]; exact hsym x y d hA hB
  | none =>
    have h0 := validateCoordinates_eq_none.1 hv
    rw [addWall_hasWall h0 d hA, addWall_hasWall h0 _ hB, hsym x y d hA hB]
    have e1 : (y = y0 ∧ x = x0 ∧ d = d0) ↔
        ((nextCell x y d).2.1 = (nextCell x0 y0 d0).2.1 ∧ (nextCell x y d).1 = (nextCell x0 y0 d0).1
          ∧ (nextCell x y d).2.2 = (nextCell x0 y0 d0).2.2) := by
      cases d <;> cases d0 <;> simp [nextCell]
    have e2 : (y = (nextCell x0 y0 d0).2.1 ∧ x = (nextCell x0 y0 d0).1
          ∧ d = (nextCell x0 y0 d0).2.2) ↔
        ((nextCell x y d).2.1 = y0 ∧ (nextCell x y d).1 = x0 ∧ (nextCell x y d).2.2 = d0) := by
      cases d <;> cases d0 <;> simp [nextCell] <;> omega
    rw [decide_eq_decide.2 e1, decide_eq_decide.2 e2]
    cases b.hasWall (nextCell x y d).1 (nextCell x y d).2.1 (nextCell x y d).2.2 <;>
      cases decide ((nextCell x y d).2.1 = (nextCell x0 y0 d0).2.1 ∧
        (nextCell x y d).1 = (nextCell x0 y0 d0).1
          ∧ (nextCell x y d).2.2 = (nextCell x0 y0 d0).2.2) <;>
      cases decide ((nextCell x y d).2.1 = y0 ∧ (nextCell x y d).1 = x0
        ∧ (nextCell x y d).2.2 = d0) <;> rfl

theorem addWalls_symmetric (ws : List (Int × Int × Direction)) :
    ∀ (b : Board),
      (∀ (x y : Int) (d : Direction), b.outOfBounds x y = false →
        b.outOfBounds (nextCell x y d).1 (nextCell x y d).2.1 = false →
        b.hasWall x y d
          = b.hasWall (nextCell x y d).1 (nextCell x y d).2.1 (nextCell x y d).2.2) →
      ∀ (x y : Int) (d : Direction), (b.addWalls ws).outOfBounds x y = false →
        (b.addWalls ws).outOfBounds (nextCell x y d).1 (nextCell x y d).2.1 = false →
        (b.addWalls ws).hasWall x y d
          = (b.addWalls ws).hasWall (nextCell x y d).1 (nextCell x y d).2.1
              (nextCell x y d).2.2 := by
  induction ws with
  | nil => intro b h; exact h
  | cons w ws ih =>
    intro b h
    exact ih (b.addWall w.1 w.2.1 w.2.2).1 (addWall_symmetric b w.1 w.2.1 w.2.2 h)

theorem new_hasWall {w h : Int} {b : Board} (hb : Board.new w h = some b) (x y : Int)
    (d : Direction) (hin : b.outOfBounds x y = false) : b.hasWall x y d = false := by
  unfold Board.new at hb
  split at hb
  · cases hb
  · cases hb
    unfold Board.hasWall
    rw [hin]
    simp

/-- Claim C21 (wall symmetry).  On a board built from `Board(w, h)` by a sequence of
`addWall` calls (the calls that throw leave the board as it is), for every cell A of
the grid whose neighbour B in direction `d` is a cell of the grid, `hasWall(A, d)`
holds exactly when `hasWall(B, opposite(d))` holds. -/
theorem wall_symmetry (w h : Int) (b0 : Board) (ws : List (Int × Int × Direction))
    (x y : Int) (d : Direction) (hb : Board.new w h = some b0)
    (hA : (b0.addWalls ws).outOfBounds x y = false)
    (hB : (b0.addWalls ws).outOfBounds (nextCell x y d).1 (nextCell x y d).2.1 = false) :
    (b0.addWalls ws).hasWall x y d = true ↔
      (b0.addWalls ws).hasWall (nextCell x y d).1 (nextCell x y d).2.1 (nextCell x y d).2.2
        = true := by
  rw [addWalls_symmetric ws b0 (fun x y d h1 h2 => by
    rw [new_hasWall hb x y d h1, new_hasWall hb _ _ _ h2]) x y d hA hB]

/-- Witness of C21: after `addWall(3, 3, RIGHT)` and `addWall(0, 0, UP)` on the 16 x 16
board, the cell (3, 3) has a wall on its right side and (4, 3) on its left side. -/
theorem wall_symmetry_witness :
    ((emptyBoard 16 16).addWalls [(3, 3, .RIGHT), (0, 0, .UP)]).hasWall 3 3 .RIGHT = true ↔
      ((emptyBoard 16 16).addWalls [(3, 3, .RIGHT), (0, 0, .UP)]).hasWall 4 3 .LEFT = true :=
  wall_symmetry 16 16 (emptyBoard 16 16) [(3, 3, .RIGHT), (0, 0, .UP)] 3 3 .RIGHT rfl
    (by decide) (by decide)

/-! ## Setting the target and constructing the solver -/

theorem robotColorToIndex_eq_none {color : Char} :
    Board.robotColorToIndex color = none ↔
      ¬ (color = 'R' ∨ color = 'B' ∨ color = 'G' ∨ color = 'Y' ∨ color = 'P') := by
  unfold Board.robotColorToIndex
  repeat' split
  all_goals simp_all

theorem robotColorToIndex_range {color : Char} {index : Int}
    (h : Board.robotColorToIndex color = some index) : 0 ≤ index ∧ index < 5 := by
  unfold Board.robotColorToIndex at h
  repeat' split at h
  all_goals first | (cases h; omega) | cases h

/-- Claim C22 (`setTarget`: validation and atomicity).  The call returns without
throwing exactly when the cell is a cell of the grid and the colour is one of R, B, G,
Y, P; it then stores the cell and the colour and sets the target robot to the index
of the colour (R = 0, B = 1, G = 2, Y = 3, P = 4), leaving the rest of the board as
it was; when it throws, the board is as before the call. -/
theorem setTarget_validates (b : Board) (x y : Int) (color : Char) :
    ((b.setTarget x y color).2 = none ↔
        ((0 ≤ x ∧ x < b.width) ∧ (0 ≤ y ∧ y < b.height)) ∧
          (color = 'R' ∨ color = 'B' ∨ color = 'G' ∨ color = 'Y' ∨ color = 'P')) ∧
      ((b.setTarget x y color).2 = none →
        ∃ index : Int,
          (b.setTarget x y color).1
              = { b with targetX := x, targetY := y, targetColor := color, targetRobot := index } ∧
            (color = 'R' → index = 0) ∧ (color = 'B' → index = 1) ∧ (color = 'G' → index = 2) ∧
            (color = 'Y' → index = 3) ∧ (color = 'P' → index = 4)) ∧
      (∀ e, (b.setTarget x y color).2 = some e → (b.setTarget x y color).1 = b) := by
  unfold Board.setTarget
  cases hv : b.validateCoordinates x y with
  | some e =>
    have hout := validateCoordinates_eq_some hv
    have : ¬ ((0 ≤ x ∧ x < b.width) ∧ (0 ≤ y ∧ y < b.height)) := by
      rw [← outOfBounds_eq_false, hout]; simp
    simp [this]
  | none =>
    have hin := outOfBounds_eq_false.1 (validateCoordinates_eq_none.1 hv)
    cases hc : Board.robotColorToIndex color with
    | none =>
      have := robotColorToIndex_eq_none.1 hc
      simp [this]
    | some index =>
      have hcol : color = 'R' ∨ color = 'B' ∨ color = 'G' ∨ color = 'Y' ∨ color = 'P' := by
        by_contra hne
        rw [robotColorToIndex_eq_none.2 hne] at hc
        cases hc
      refine ⟨by simp [hin, hcol], fun _ => ⟨index, rfl, ?_, ?_, ?_, ?_, ?_⟩, by simp⟩ <;>
        (intro h; subst h; revert hc; unfold Board.robotColorToIndex; simp; exact fun h => h.symm)

/-- Witness of C22: on the 16 x 16 board, `setTarget(15, 0, 'R')` returns, and
`setTarget(16, 0, 'R')` and `setTarget(15, 0, 'r')` throw. -/
theorem setTarget_validates_witness :
    ((emptyBoard 16 16).setTarget 15 0 'R').2 = none ∧
      ((emptyBoard 16 16).setTarget 16 0 'R').2 ≠ none ∧
      ((emptyBoard 16 16).setTarget 15 0 'r').2 ≠ none :=
  ⟨(setTarget_validates (emptyBoard 16 16) 15 0 'R').1.2 (by decide),
    fun h => absurd ((setTarget_validates (emptyBoard 16 16) 16 0 'R').1.1 h).1 (by decide),
    fun h => absurd ((setTarget_validates (emptyBoard 16 16) 15 0 'r').1.1 h).2 (by decide)⟩

theorem addWall_target (b : Board) (x y : Int) (d : Direction) :
    (b.addWall x y d).1.targetRobot = b.targetRobot := by
  unfold Board.addWall
  cases b.validateCoordinates x y with
  | some e => rfl
  | none => simp only; split <;> rfl

theorem addDiagonalWall_target (b : Board) (x y : Int) (color : Char)
    (o : DiagonalOrientation) : (b.addDiagonalWall x y color o).1.targetRobot = b.targetRobot := by
  unfold Board.addDiagonalWall
  cases b.validateCoordinates x y <;> rfl

/-- After `setTarget` the target robot is in `0..4` when the call returned, and is
what it was when the call threw. -/
theorem setTarget_target (b : Board) (x y : Int) (color : Char) :
    ((b.setTarget x y color).2 = none →
        0 ≤ (b.setTarget x y color).1.targetRobot ∧ (b.setTarget x y color).1.targetRobot < 5) ∧
      ((b.setTarget x y color).2 ≠ none →
        (b.setTarget x y color).1.targetRobot = b.targetRobot) := by
  unfold Board.setTarget
  cases b.validateCoordinates x y with
  | some e => simp
  | none =>
    cases hc : Board.robotColorToIndex color with
    | none => simp
    | some index => simpa using robotColorToIndex_range hc

/-- The target robot after a sequence of calls: in `0..4` when some `setTarget` call
returned, otherwise what it was before the calls. -/
theorem calls_target (cs : List BoardCall) :
    ∀ b : Board,
      (b.targetWasSet cs = true →
        0 ≤ (b.calls cs).targetRobot ∧ (b.calls cs).targetRobot < 5) ∧
      (b.targetWasSet cs = false →
        ((0 ≤ b.targetRobot ∧ b.targetRobot < 5) →
          0 ≤ (b.calls cs).targetRobot ∧ (b.calls cs).targetRobot < 5) ∧
        (¬ (0 ≤ b.targetRobot ∧ b.targetRobot < 5) → (b.calls cs).targetRobot = b.targetRobot)) := by
  induction cs with
  | nil => intro b; exact ⟨fun h => (by cases h), fun _ => ⟨fun h => h, fun _ => rfl⟩⟩
  | cons c cs ih =>
    intro b
    have hstep : (b.calls (c :: cs)) = ((b.call c).1.calls cs) := rfl
    rw [hstep]
    obtain ⟨ih1, ih2⟩ := ih (b.call c).1
    cases c with
    | addWall x y d =>
      have ht : (b.call (.addWall x y d)).1.targetRobot = b.targetRobot := addWall_target b x y d
      have hw : b.targetWasSet (.addWall x y d :: cs)
          = (b.call (.addWall x y d)).1.targetWasSet cs := by simp [Board.targetWasSet]
      rw [hw, ← ht]
      exact ⟨ih1, ih2⟩
    | addDiagonalWall x y color o =>
      have ht : (b.call (.addDiagonalWall x y color o)).1.targetRobot = b.targetRobot :=
        addDiagonalWall_target b x y color o
      have hw : b.targetWasSet (.addDiagonalWall x y color o :: cs)
          = (b.call (.addDiagonalWall x y color o)).1.targetWasSet cs := by
        simp [Board.targetWasSet]
      rw [hw, ← ht]
      exact ⟨ih1, ih2⟩
    | addOpening x y d =>
      have ht : (b.call (.addOpening x y d)).1.targetRobot = b.targetRobot := rfl
      have hw : b.targetWasSet (.addOpening x y d :: cs)
          = (b.call (.addOpening x y d)).1.targetWasSet cs := by simp [Board.targetWasSet]
      rw [hw, ← ht]
      exact ⟨ih1, ih2⟩
    | setTarget x y color =>
      have hcall : (b.call (.setTarget x y color)).1 = (b.setTarget x y color).1 := rfl
      have hw : b.targetWasSet (.setTarget x y color :: cs)
          = (decide ((b.setTarget x y color).2 = none) ||
              (b.setTarget x y color).1.targetWasSet cs) := rfl
      rw [hw, hcall] at *
      obtain ⟨hs1, hs2⟩ := setTarget_target b x y color
      by_cases hret : (b.setTarget x y color).2 = none
      · have hin := hs1 hret
        refine ⟨fun _ => ?_, fun h => ?_⟩
        · cases hset : (b.setTarget x y color).1.targetWasSet cs
          · exact (ih2 hset).1 hin
          · exact ih1 hset
        · simp [hret] at h
      · have heq := hs2 hret
        simp only [hret, decide_False, Bool.false_or]
        rw [← heq]
        exact ⟨ih1, ih2⟩

theorem new_target {w h : Int} {b : Board} (hb : Board.new w h = some b) :
    b.targetRobot = -1 := by
  unfold Board.new at hb
  split at hb <;> cases hb
  rfl

theorem Solver.new_eq_none {b : Board} {initial : State} :
    Solver.new b initial = none ↔ (b.targetRobot < 0 ∨ b.targetRobot ≥ 5) := by
  unfold Solver.new
  split <;> simp_all

theorem Solver.new_eq_some {b : Board} {initial : State} {s : Solver}
    (h : Solver.new b initial = some s) :
    s.board = b ∧ s.initial = initial ∧ (s.targetRobot.val : Int) = b.targetRobot := by
  unfold Solver.new at h
  split at h
  · cases h
  · cases h
    refine ⟨rfl, rfl, ?_⟩
    show ((b.targetRobot.toNat : Nat) : Int) = b.targetRobot
    omega

/-- Claim C23 (the solver rejects a board without a target).  For a board built from
`Board(w, h)` by calls of its mutating methods: constructing a `Solver` on it throws
exactly when the target robot of the board is outside `0..4`, and that is the case
exactly when no `setTarget` call on the board has returned without throwing; then no
solver exists to run `solve_sequential`, and otherwise the constructed solver has the
board, the initial state and the target robot of the board. -/
theorem solver_rejects_board_without_target (w h : Int) (b0 : Board) (cs : List BoardCall)
    (initial : State) (hb : Board.new w h = some b0) :
    (Solver.new (b0.calls cs) initial = none ↔
        ((b0.calls cs).targetRobot < 0 ∨ (b0.calls cs).targetRobot ≥ 5)) ∧
      (((b0.calls cs).targetRobot < 0 ∨ (b0.calls cs).targetRobot ≥ 5) ↔
        b0.targetWasSet cs = false) ∧
      (b0.targetWasSet cs = false → ∀ fuel, constructAndSolve (b0.calls cs) initial fuel = none) ∧
      (∀ s, Solver.new (b0.calls cs) initial = some s →
        s.board = b0.calls cs ∧ s.initial = initial ∧
          (s.targetRobot.val : Int) = (b0.calls cs).targetRobot) := by
  have h0 := new_target hb
  obtain ⟨h1, h2⟩ := calls_target cs b0
  have hiff : ((b0.calls cs).targetRobot < 0 ∨ (b0.calls cs).targetRobot ≥ 5) ↔
      b0.targetWasSet cs = false := by
    constructor
    · intro hout
      cases hset : b0.targetWasSet cs
      · rfl
      · have := h1 hset; omega
    · intro hset
      have := (h2 hset).2 (by omega)
      omega
  refine ⟨Solver.new_eq_none, hiff, fun hset fuel => ?_, fun s hs => Solver.new_eq_some hs⟩
  unfold constructAndSolve
  rw [Solver.new_eq_none.2 (hiff.2 hset)]
  rfl

/-- Witness of C23: on the 16 x 16 board, after one wall and one deflector and no
`setTarget` call, the constructor of `Solver` throws. -/
theorem solver_rejects_board_without_target_witness :
    Solver.new ((emptyBoard 16 16).calls [.addWall 3 3 .RIGHT, .addDiagonalWall 5 0 'B' .NE_SW])
      0 = none :=
  (solver_rejects_board_without_target 16 16 (emptyBoard 16 16)
      [.addWall 3 3 .RIGHT, .addDiagonalWall 5 0 'B' .NE_SW] 0 rfl).1.2
    (by decide)

/-! ## Where a slide halts -/

theorem blocked_of_not_enterable {b : Board} {c : Robots} {m : Nat} {x y : Int} {d : Direction}
    (h : ¬ Enterable b c m x y d) :
    b.hasWall x y d = true ∨ b.outOfBounds (nextCell x y d).1 (nextCell x y d).2.1 = true ∨
      b.hasWall (nextCell x y d).1 (nextCell x y d).2.1 (nextCell x y d).2.2 = true ∨
      collision c m (nextCell x y d).1 (nextCell x y d).2.1 = true := by
  unfold Enterable at h
  revert h
  cases b.hasWall x y d <;> cases b.outOfBounds (nextCell x y d).1 (nextCell x y d).2.1 <;>
    cases b.hasWall (nextCell x y d).1 (nextCell x y d).2.1 (nextCell x y d).2.2 <;>
    cases collision c m (nextCell x y d).1 (nextCell x y d).2.1 <;> simp

/-- The last loop state of a slide that returns `r` is on `r`, and the next cell cannot
be entered from it. -/
theorem slideTrace_last {b : Board} {c : Robots} {m : Nat} :
    ∀ (fuel : Nat) (x y : Int) (d : Direction) (r : Int × Int),
      slideLoop b c m fuel x y d = some r →
      ∃ dfin, (slideTrace b c m fuel x y d).getLast? = some (r.1, r.2, dfin) ∧
        ¬ Enterable b c m r.1 r.2 dfin := by
  intro fuel
  induction fuel with
  | zero => intro x y d r h; simp [slideLoop] at h
  | succ n ih =>
    intro x y d r h
    rw [slideLoop_succ] at h
    rw [slideTrace_succ]
    by_cases he : Enterable b c m x y d
    · rw [if_pos he] at h ⊢
      obtain ⟨dfin, hlast, hblocked⟩ := ih _ _ _ r h
      refine ⟨dfin, ?_, hblocked⟩
      cases n with
      | zero => simp [slideLoop] at h
      | succ k =>
        rw [slideTrace_succ] at hlast ⊢
        rw [List.getLast?_cons_cons]
        exact hlast
    · rw [if_neg he] at h ⊢
      cases h
      exact ⟨d, rfl, he⟩

/-- Claim C26 (a slide halts only where it is forcibly stopped).  When `simulateMove`
returns the cell `r`, its last loop state is on `r` with some travel direction `dfin`,
and the step from `r` in direction `dfin` is blocked: `r` has a wall on that side, or
the neighbour is outside the grid, or the neighbour has a wall on the side facing `r`,
or another robot stands on the neighbour.  Whenever none of the four holds at a loop
state, the iteration moves on, whatever deflector is on the neighbour. -/
theorem slide_halts_only_when_blocked (board : Board) (robots : Robots) (mover : Nat)
    (x y : Int) (d : Direction) (fuel : Nat) (r : Int × Int)
    (h : Solver.simulateMove board fuel x y d robots mover = some r) :
    (∃ dfin, (slideTrace board robots mover fuel x y d).getLast? = some (r.1, r.2, dfin) ∧
        (board.hasWall r.1 r.2 dfin = true ∨
          board.outOfBounds (nextCell r.1 r.2 dfin).1 (nextCell r.1 r.2 dfin).2.1 = true ∨
          board.hasWall (nextCell r.1 r.2 dfin).1 (nextCell r.1 r.2 dfin).2.1
            (nextCell r.1 r.2 dfin).2.2 = true ∨
          collision robots mover (nextCell r.1 r.2 dfin).1 (nextCell r.1 r.2 dfin).2.1 = true)) ∧
      ∀ (cx cy : Int) (cd : Direction), Enterable board robots mover cx cy cd →
        ∃ nd, slideStep board robots mover cx cy cd
          = .go (nextCell cx cy cd).1 (nextCell cx cy cd).2.1 nd := by
  obtain ⟨dfin, hlast, hblocked⟩ := slideTrace_last fuel x y d r h
  exact ⟨⟨dfin, hlast, blocked_of_not_enterable hblocked⟩,
    fun cx cy cd he => ⟨_, slideStep_of_enterable he⟩⟩

/-- Witness of C26: the slide of robot 0 RIGHT on `deflectorBoard` passes the deflector
at (5, 0) and halts on it travelling UP, at the upper edge of the grid. -/
theorem slide_halts_only_when_blocked_witness :
    ∃ dfin, (slideTrace deflectorBoard rightStart 0 10 0 0 .RIGHT).getLast?
        = some (5, 0, dfin) ∧
      (deflectorBoard.hasWall 5 0 dfin = true ∨
        deflectorBoard.outOfBounds (nextCell 5 0 dfin).1 (nextCell 5 0 dfin).2.1 = true ∨
        deflectorBoard.hasWall (nextCell 5 0 dfin).1 (nextCell 5 0 dfin).2.1
          (nextCell 5 0 dfin).2.2 = true ∨
        collision rightStart 0 (nextCell 5 0 dfin).1 (nextCell 5 0 dfin).2.1 = true) :=
  (slide_halts_only_when_blocked deflectorBoard rightStart 0 0 0 .RIGHT 10 (5, 0)
    (by decide)).1

/-! ## Straight slides on boards without deflectors -/

theorem stepsFrom_zero (x y : Int) (d : Direction) : stepsFrom x y d 0 = (x, y) := by
  cases d <;> simp [stepsFrom]

theorem stepsFrom_one (x y : Int) (d : Direction) :
    stepsFrom x y d 1 = ((nextCell x y d).1, (nextCell x y d).2.1) := by
  cases d <;> simp [stepsFrom, nextCell]

theorem stepsFrom_succ (x y : Int) (d : Direction) (n : Nat) :
    stepsFrom x y d (n + 1) = stepsFrom (nextCell x y d).1 (nextCell x y d).2.1 d n := by
  cases d <;> simp [stepsFrom, nextCell] <;> omega

theorem stepUnblocked_iff {b : Board} {c : Robots} {m : Nat} {x y : Int} {d : Direction} :
    StepUnblocked b c m x y d ↔ Enterable b c m x y d := by
  unfold StepUnblocked Enterable
  rw [stepsFrom_one, collision_eq_false, outOfBounds_eq_false]
  rfl

/-- On a board without deflectors the loop makes `n` steps straight on, each of them
into a cell that can be entered, and stops where the next cell cannot be entered. -/
theorem slideLoop_steps {b : Board} (hdefl : ∀ x y, b.diagonalWalls x y = none) {c : Robots}
    {m : Nat} (d : Direction) :
    ∀ (fuel : Nat) (x y : Int) (r : Int × Int), slideLoop b c m fuel x y d = some r →
      ∃ n, r = stepsFrom x y d n ∧
        (∀ k, k < n → Enterable b c m (stepsFrom x y d k).1 (stepsFrom x y d k).2 d) ∧
        ¬ Enterable b c m (stepsFrom x y d n).1 (stepsFrom x y d n).2 d := by
  intro fuel
  induction fuel with
  | zero => intro x y r h; simp [slideLoop] at h
  | succ f ih =>
    intro x y r h
    rw [slideLoop_succ] at h
    by_cases he : Enterable b c m x y d
    · rw [if_pos he, exitDir_none _ (hdefl _ _)] at h
      obtain ⟨n, hr, hall, hstop⟩ := ih _ _ r h
      refine ⟨n + 1, ?_, ?_, ?_⟩
      · rw [stepsFrom_succ]; exact hr
      · intro k hk
        cases k with
        | zero => rw [stepsFrom_zero]; exact he
        | succ k => rw [stepsFrom_succ]; exact hall k (by omega)
      · rw [stepsFrom_succ]; exact hstop
    · rw [if_neg he] at h
      cases h
      exact ⟨0, (stepsFrom_zero x y d).symm, fun k hk => absurd hk (Nat.not_lt_zero k),
        by rw [stepsFrom_zero]; exact he⟩

/-- Claim C28 (straight-line slide on boards without deflectors).  On a board with no
deflectors, for every configuration, mover, start cell and direction `d`,
`simulateMove` returns the cell reached from the start by `n` unit steps in direction
`d`, where `n` is the largest number such that each of the first `n` steps is
unblocked; the resting cell lies in the row of the start cell for LEFT and RIGHT and
in its column for UP and DOWN. -/
theorem straight_slide (board : Board) (robots : Robots) (mover : Nat) (x y : Int)
    (d : Direction) (hdefl : ∀ cx cy, board.diagonalWalls cx cy = none) :
    ∃ n : Nat,
      Solver.SlideResult board x y d robots mover (stepsFrom x y d n) ∧
      (∀ k, k < n →
        StepUnblocked board robots mover (stepsFrom x y d k).1 (stepsFrom x y d k).2 d) ∧
      (∀ n' : Nat,
        (∀ k, k < n' →
          StepUnblocked board robots mover (stepsFrom x y d k).1 (stepsFrom x y d k).2 d) →
        n' ≤ n) ∧
      ((d = .LEFT ∨ d = .RIGHT) → (stepsFrom x y d n).2 = y) ∧
      ((d = .UP ∨ d = .DOWN) → (stepsFrom x y d n).1 = x) := by
  obtain ⟨r, fuel, hr⟩ := slidesTerminate_of_no_deflector hdefl robots mover x y d
  obtain ⟨n, hrn, hall, hstop⟩ := slideLoop_steps hdefl d fuel x y r hr
  refine ⟨n, ⟨fuel, by rw [← hrn]; exact hr⟩, fun k hk => stepUnblocked_iff.2 (hall k hk),
    fun n' hn' => ?_, ?_, ?_⟩
  · by_contra hlt
    exact hstop (stepUnblocked_iff.1 (hn' n (by omega)))
  · rintro (rfl | rfl) <;> rfl
  · rintro (rfl | rfl) <;> rfl

/-- Witness of C28: on `wallBoard` robot 0 at (0, 3) slides RIGHT three steps, to the
wall on the right side of (3, 3). -/
theorem straight_slide_witness :
    ∃ n : Nat,
      Solver.SlideResult wallBoard 0 3 .RIGHT mainPositions 0 (stepsFrom 0 3 .RIGHT n) ∧
      (∀ k, k < n →
        StepUnblocked wallBoard mainPositions 0 (stepsFrom 0 3 .RIGHT k).1
          (stepsFrom 0 3 .RIGHT k).2 .RIGHT) ∧
      (∀ n' : Nat,
        (∀ k, k < n' →
          StepUnblocked wallBoard mainPositions 0 (stepsFrom 0 3 .RIGHT k).1
            (stepsFrom 0 3 .RIGHT k).2 .RIGHT) →
        n' ≤ n) ∧
      ((Direction.RIGHT = .LEFT ∨ Direction.RIGHT = .RIGHT) → (stepsFrom 0 3 .RIGHT n).2 = 3) ∧
      ((Direction.RIGHT = .UP ∨ Direction.RIGHT = .DOWN) → (stepsFrom 0 3 .RIGHT n).1 = 0) :=
  straight_slide wallBoard mainPositions 0 0 3 .RIGHT (fun _ _ => rfl)

/-! ## The codec: frame of a transition, and the bits it uses -/

theorem low4_natCast {n : Nat} (h : n < 16) : low4 (n : Int) = n := by
  unfold low4; omega

theorem low4_emod (v : Int) : low4 (v % 16) = low4 v := by
  unfold low4; omega

/-- A key is the sum of its parts below and from bit `k`. -/
theorem testBit_of_mod_div {a b k : Nat} (hm : a % 2 ^ k = b % 2 ^ k) (j : Nat) (hj : j < k) :
    a.testBit j = b.testBit j := by
  have h1 := Nat.testBit_mod_two_pow a k j
  have h2 := Nat.testBit_mod_two_pow b k j
  simp only [hj, decide_True, Bool.true_and] at h1 h2
  rw [← h1, ← h2, hm]

theorem testBit_of_div {a b k : Nat} (hd : a / 2 ^ k = b / 2 ^ k) (j : Nat) (hj : k ≤ j) :
    a.testBit j = b.testBit j := by
  have h1 := Nat.testBit_shiftRight (i := k) (j := j - k) a
  have h2 := Nat.testBit_shiftRight (i := k) (j := j - k) b
  rw [Nat.shiftRight_eq_div_pow] at h1 h2
  rw [show k + (j - k) = j by omega] at h1 h2
  rw [← h1, ← h2, hd]

/-- The byte of robot `i` in a key. -/
theorem encode_bytes (c : Robots) :
    encode c =
      (low4 (c 0).1 + low4 (c 0).2 * 16) + (low4 (c 1).1 + low4 (c 1).2 * 16) * 256
        + (low4 (c 2).1 + low4 (c 2).2 * 16) * 65536
        + (low4 (c 3).1 + low4 (c 3).2 * 16) * 16777216
        + (low4 (c 4).1 + low4 (c 4).2 * 16) * 4294967296 := by
  have key : low4 (c 0).1 + low4 (c 0).2 * 16 + low4 (c 1).1 * 256 + low4 (c 1).2 * 4096
        + low4 (c 2).1 * 65536 + low4 (c 2).2 * 1048576 + low4 (c 3).1 * 16777216
        + low4 (c 3).2 * 268435456 + low4 (c 4).1 * 4294967296
        + low4 (c 4).2 * 68719476736
      = (low4 (c 0).1 + low4 (c 0).2 * 16) + (low4 (c 1).1 + low4 (c 1).2 * 16) * 256
        + (low4 (c 2).1 + low4 (c 2).2 * 16) * 65536
        + (low4 (c 3).1 + low4 (c 3).2 * 16) * 16777216
        + (low4 (c 4).1 + low4 (c 4).2 * 16) * 4294967296 := by omega
  rw [encode_eq]; exact key

theorem byte_lt (p : Int × Int) : low4 p.1 + low4 p.2 * 16 < 256 := by
  have h1 := low4_lt p.1
  have h2 := low4_lt p.2
  omega

/-- Replacing one byte of a five-byte number changes neither the part below the byte
nor the part above it. -/
theorem byte_frame (b0 b1 b2 b3 b4 bp : Nat) (h0 : b0 < 256) (h1 : b1 < 256) (h2 : b2 < 256)
    (h3 : b3 < 256) (h4 : b4 < 256) (hp : bp < 256) :
    ((bp + b1 * 256 + b2 * 65536 + b3 * 16777216 + b4 * 4294967296) % 1
        = (b0 + b1 * 256 + b2 * 65536 + b3 * 16777216 + b4 * 4294967296) % 1 ∧
      (bp + b1 * 256 + b2 * 65536 + b3 * 16777216 + b4 * 4294967296) / 256
        = (b0 + b1 * 256 + b2 * 65536 + b3 * 16777216 + b4 * 4294967296) / 256) ∧
    ((b0 + bp * 256 + b2 * 65536 + b3 * 16777216 + b4 * 4294967296) % 256
        = (b0 + b1 * 256 + b2 * 65536 + b3 * 16777216 + b4 * 4294967296) % 256 ∧
      (b0 + bp * 256 + b2 * 65536 + b3 * 16777216 + b4 * 4294967296) / 65536
        = (b0 + b1 * 256 + b2 * 65536 + b3 * 16777216 + b4 * 4294967296) / 65536) ∧
    ((b0 + b1 * 256 + bp * 65536 + b3 * 16777216 + b4 * 4294967296) % 65536
        = (b0 + b1 * 256 + b2 * 65536 + b3 * 16777216 + b4 * 4294967296) % 65536 ∧
      (b0 + b1 * 256 + bp * 65536 + b3 * 16777216 + b4 * 4294967296) / 16777216
        = (b0 + b1 * 256 + b2 * 65536 + b3 * 16777216 + b4 * 4294967296) / 16777216) ∧
    ((b0 + b1 * 256 + b2 * 65536 + bp * 16777216 + b4 * 4294967296) % 16777216
        = (b0 + b1 * 256 + b2 * 65536 + b3 * 16777216 + b4 * 4294967296) % 16777216 ∧
      (b0 + b1 * 256 + b2 * 65536 + bp * 16777216 + b4 * 4294967296) / 4294967296
        = (b0 + b1 * 256 + b2 * 65536 + b3 * 16777216 + b4 * 4294967296) / 4294967296) ∧
    ((b0 + b1 * 256 + b2 * 65536 + b3 * 16777216 + bp * 4294967296) % 4294967296
        = (b0 + b1 * 256 + b2 * 65536 + b3 * 16777216 + b4 * 4294967296) % 4294967296 ∧
      (b0 + b1 * 256 + b2 * 65536 + b3 * 16777216 + bp * 4294967296) / 1099511627776
        = (b0 + b1 * 256 + b2 * 65536 + b3 * 16777216 + b4 * 4294967296) / 1099511627776) := by
  refine ⟨⟨?_, ?_⟩, ⟨?_, ?_⟩, ⟨?_, ?_⟩, ⟨?_, ?_⟩, ⟨?_, ?_⟩⟩ <;> omega

/-- The key after a transition of robot `i` agrees with the key before it below byte
`i` and above it. -/
theorem encode_setRobot_frame (c : Robots) (i : Fin 5) (p : Int × Int) :
    encode (setRobot c i p) % 2 ^ (8 * i.val) = encode c % 2 ^ (8 * i.val) ∧
      encode (setRobot c i p) / 2 ^ (8 * i.val + 8) = encode c / 2 ^ (8 * i.val + 8) := by
  have key := byte_frame _ _ _ _ _ _ (byte_lt (c 0)) (byte_lt (c 1)) (byte_lt (c 2))
    (byte_lt (c 3)) (byte_lt (c 4)) (byte_lt p)
  rw [encode_bytes, encode_bytes]
  fin_cases i
  · exact key.1
  · exact key.2.1
  · exact key.2.2.1
  · exact key.2.2.2.1
  · exact key.2.2.2.2

theorem inRange_setRobot {c : Robots} (hc : InRange c) (i : Fin 5) {p : Int × Int}
    (hx : 0 ≤ p.1 ∧ p.1 < 16) (hy : 0 ≤ p.2 ∧ p.2 < 16) : InRange (setRobot c i p) := by
  intro j
  unfold setRobot
  split
  · exact ⟨hx, hy⟩
  · exact hc j

/-- Claim C29 (a transition changes only the mover).  For a configuration with
coordinates in `0..15`, a mover `i` and a cell `(nx, ny)` with coordinates in `0..15`,
decoding `Solver::encode(robots, i, nx, ny)` gives `(nx, ny)` at index `i` and
`robots[j]` at every other index `j`; and the new key has the bits of `encode(robots)`
everywhere outside the bits `8i .. 8i+7`. -/
theorem transition_changes_only_mover (robots : Robots) (i : Fin 5) (nx ny : Int)
    (hr : InRange robots) (hx : 0 ≤ nx ∧ nx < 16) (hy : 0 ≤ ny ∧ ny < 16) :
    decode (Solver.encode robots i nx ny) i = (nx, ny) ∧
      (∀ j : Fin 5, j ≠ i → decode (Solver.encode robots i nx ny) j = robots j) ∧
      ∀ k : Nat, (k < 8 * i.val ∨ 8 * i.val + 8 ≤ k) →
        (Solver.encode robots i nx ny).testBit k = (encode robots).testBit k := by
  have hdec : decode (Solver.encode robots i nx ny) = setRobot robots i (nx, ny) :=
    decode_encode (inRange_setRobot hr i hx hy)
  refine ⟨?_, fun j hj => ?_, fun k hk => ?_⟩
  · rw [hdec, setRobot_same]
  · rw [hdec, setRobot_other _ _ hj]
  · obtain ⟨hm, hd⟩ := encode_setRobot_frame robots i (nx, ny)
    rcases hk with hk | hk
    · exact testBit_of_mod_div hm k hk
    · exact testBit_of_div hd k hk

/-- Witness of C29: moving robot 2 of `mainPositions` to (3, 9). -/
theorem transition_changes_only_mover_witness :
    decode (Solver.encode mainPositions 2 3 9) 2 = (3, 9) ∧
      (∀ j : Fin 5, j ≠ 2 → decode (Solver.encode mainPositions 2 3 9) j = mainPositions j) ∧
      ∀ k : Nat, (k < 8 * (2 : Fin 5).val ∨ 8 * (2 : Fin 5).val + 8 ≤ k) →
        (Solver.encode mainPositions 2 3 9).testBit k = (encode mainPositions).testBit k :=
  transition_changes_only_mover mainPositions 2 3 9 (by decide) (by decide) (by decide)

theorem encode_decode_mod (s : Nat) : encode (decode s) = s % 1099511627776 := by
  have h : ∀ n : Nat, low4 ((n % 16 : Nat) : Int) = n % 16 := fun n =>
    low4_natCast (Nat.mod_lt _ (by decide))
  have key : s % 256 % 16 + s % 256 / 16 % 16 * 16
        + (s / 256 % 256 % 16 + s / 256 % 256 / 16 % 16 * 16) * 256
        + (s / 65536 % 256 % 16 + s / 65536 % 256 / 16 % 16 * 16) * 65536
        + (s / 16777216 % 256 % 16 + s / 16777216 % 256 / 16 % 16 * 16) * 16777216
        + (s / 4294967296 % 256 % 16 + s / 4294967296 % 256 / 16 % 16 * 16) * 4294967296
      = s % 1099511627776 := by omega
  rw [encode_bytes]
  simp only [decode, decodeAt_eq, h]
  simpa using key

theorem decode_mod (s : Nat) : decode s = decode (s % 1099511627776) := by
  funext i
  unfold decode
  rw [decodeAt_eq, decodeAt_eq]
  fin_cases i <;> simp <;> omega

theorem encode_emod (c : Robots) :
    encode c = encode (fun i => ((c i).1 % 16, (c i).2 % 16)) := by
  rw [encode_eq, encode_eq]
  simp only [low4_emod]

/-- Claim C30 (the codec uses the low 40 bits and masks coordinates to 4 bits).  For
every state `s`, `encode(decode(s))` is `s mod 2^40` and `decode(s)` is
`decode(s mod 2^40)`; for every configuration `c`, `encode(c)` is below `2^40` and
equals the key of `c` with every coordinate reduced modulo 16. -/
theorem codec_low_40_bits :
    (∀ s : State, encode (decode s) = s % 2 ^ 40 ∧ decode s = decode (s % 2 ^ 40)) ∧
      ∀ c : Robots, encode c < 2 ^ 40 ∧
        encode c = encode (fun i => ((c i).1 % 16, (c i).2 % 16)) :=
  ⟨fun s => ⟨encode_decode_mod s, decode_mod s⟩, fun c => ⟨encode_lt c, encode_emod c⟩⟩

/-! ## The records of the search are edges -/

/-- What one candidate move does to the frontier: nothing, when the slide ends on its
start cell or the new key has a record; otherwise the new key is enqueued and recorded
with the current state as parent. -/
theorem tryMove_cases {s : Solver} {fuel : Nat} {cur : State} {robots : Robots}
    {f f' : Frontier} {i : Fin 5} {d : Direction}
    (h : s.tryMove fuel cur robots f i d = some f') :
    ∃ r, Solver.simulateMove s.board fuel (robots i).1 (robots i).2 d robots i.val = some r ∧
      ((f' = f ∧ (r = robots i ∨ f.visited (encode (setRobot robots i r)) ≠ none)) ∨
        (r ≠ robots i ∧ f.visited (encode (setRobot robots i r)) = none ∧
          f' = ⟨f.queue ++ [encode (setRobot robots i r)],
            f.visited.insert (encode (setRobot robots i r)) (cur, ⟨(i.val : Int), d⟩)⟩)) := by
  unfold Solver.tryMove at h
  cases hsim : Solver.simulateMove s.board fuel (robots i).1 (robots i).2 d robots i.val with
  | none => rw [hsim] at h; cases h
  | some p =>
    obtain ⟨nx, ny⟩ := p
    rw [hsim] at h
    simp only at h
    refine ⟨(nx, ny), rfl, ?_⟩
    split at h
    · rename_i hzero
      cases Option.some.inj h
      exact Or.inl ⟨rfl, Or.inl (Prod.ext hzero.1.symm hzero.2.symm)⟩
    · rename_i hmoved
      have hne : (nx, ny) ≠ robots i := fun heq => hmoved (by rw [← heq]; exact ⟨rfl, rfl⟩)
      split at h
      · rename_i hnone
        cases Option.some.inj h
        exact Or.inr ⟨hne, hnone, rfl⟩
      · rename_i hsome
        cases Option.some.inj h
        exact Or.inl ⟨rfl, Or.inr hsome⟩

/-- A property of the frontier that the pop of a state, the candidate moves of the
state and the end of its expansion keep holds of the record map the search returns. -/
theorem searchLoop_inv {s : Solver} {I : Frontier → Prop} {J : State → Frontier → Prop}
    (hpop : ∀ cur rest v, I ⟨cur :: rest, v⟩ → s.checkSolution cur = false → J cur ⟨rest, v⟩)
    (hstep : ∀ fuel cur f i d f', J cur f →
      s.tryMove fuel cur (decode cur) f i d = some f' → J cur f')
    (hdone : ∀ cur f, J cur f → I f) (fuel : Nat) :
    ∀ (n : Nat) (f : Frontier) (res : Option State) (v : Visited), I f →
      s.searchLoop fuel n f = some (res, v) → ∃ q, I ⟨q, v⟩ := by
  have hexp : ∀ cur f f', J cur f → s.expand fuel cur f = some f' → J cur f' := by
    intro cur f f' hj h
    unfold Solver.expand at h
    refine foldlM_option_inv (P := J cur) (fun b i b' hb hfold => ?_) _ _ _ hj h
    exact foldlM_option_inv (P := J cur) (fun b d b' hb' hst => hstep fuel cur b i d b' hb' hst)
      _ _ _ hb hfold
  have hlevel : ∀ (k : Nat) (f : Frontier) (out : LevelOutcome), I f →
      s.levelLoop fuel k f = some out →
      match out with
      | .found _ v => ∃ q, I ⟨q, v⟩
      | .next f' => I f' := by
    intro k
    induction k with
    | zero =>
      intro f out hi h
      simp only [Solver.levelLoop, Option.some.injEq] at h
      rw [← h]; exact hi
    | succ k ih =>
      intro f out hi h
      obtain ⟨q, v⟩ := f
      cases q with
      | nil => simp [Solver.levelLoop] at h
      | cons cur rest =>
        simp only [Solver.levelLoop] at h
        split at h
        · cases Option.some.inj h
          exact ⟨_, hi⟩
        · rename_i hng
          cases hex : s.expand fuel cur ⟨rest, v⟩ with
          | none => rw [hex] at h; cases h
          | some f1 =>
            rw [hex] at h
            exact ih f1 out (hdone cur f1 (hexp cur _ f1 (hpop cur rest v hi (by simpa using hng))
              hex)) h
  intro n
  induction n with
  | zero => intro f res v _ h; simp [Solver.searchLoop] at h
  | succ n ih =>
    intro f res v hi h
    simp only [Solver.searchLoop] at h
    split at h
    · cases Option.some.inj h
      exact ⟨f.queue, hi⟩
    · cases hl : s.levelLoop fuel f.queue.length f with
      | none => rw [hl] at h; cases h
      | some out =>
        rw [hl] at h
        have := hlevel _ f out hi hl
        cases out with
        | found st v' =>
          cases Option.some.inj h
          exact this
        | next f' => exact ih f' res v this h

/-- Recording a key that has no record, with a recorded parent and an edge from it,
keeps the invariant of the record map. -/
theorem RecInv_insert {s : Solver} {v : Visited} (hv : RecInv s v) {cur new : State} {m : Move}
    (hcur : (v cur).isSome = true) (hnone : v new = none) (hedge : s.Edge cur m new) :
    RecInv s (v.insert new (cur, m)) := by
  have hle : Visited.Le v (v.insert new (cur, m)) := Visited.le_insert _ hnone
  have hne : new ≠ cur := by
    intro h; rw [← h, hnone] at hcur; cases hcur
  refine ⟨hle _ _ hv.init, fun st p m' hrec hst => ?_, fun st hst => ?_⟩
  · by_cases h : st = new
    · rw [h, Visited.insert_same] at hrec
      cases Option.some.inj hrec
      rw [h]
      exact ⟨hedge, hne, Visited.Le.isSome hle hcur⟩
    · rw [Visited.insert_other _ _ h] at hrec
      obtain ⟨h1, h2, h3⟩ := hv.edge st p m' hrec hst
      exact ⟨h1, h2, Visited.Le.isSome hle h3⟩
  · by_cases h : st = new
    · obtain ⟨path, hp⟩ := hv.chain cur hcur
      obtain ⟨i, r, hi, -⟩ := hedge
      rw [h]
      exact ⟨path ++ [m], PathTo.step (PathTo_mono hle hp) (Visited.insert_same _ _ _)
        (by rw [hi]; omega) hne⟩
    · rw [Visited.insert_other _ _ h] at hst
      obtain ⟨path, hp⟩ := hv.chain st hst
      exact ⟨path, PathTo_mono hle hp⟩

theorem RecInv_initial (s : Solver) :
    RecInv s (Visited.empty.insert s.initial (sentinel s.initial)) := by
  refine ⟨Visited.insert_same _ _ _, fun st p m hrec hst => ?_, fun st hst => ?_⟩
  · rw [Visited.insert_other _ _ hst] at hrec
    cases hrec
  · by_cases h : st = s.initial
    · rw [h]; exact ⟨[], PathTo.root (Visited.insert_same _ _ _)⟩
    · rw [Visited.insert_other _ _ h] at hst
      cases hst

/-- The record map that the search returns satisfies the invariant of the records. -/
theorem search_recInv {s : Solver} {fuel : Nat} {res : Option State} {v : Visited}
    (h : s.search fuel = some (res, v)) : RecInv s v := by
  have key := searchLoop_inv (s := s)
    (I := fun f => RecInv s f.visited ∧ ∀ st ∈ f.queue, (f.visited st).isSome = true)
    (J := fun cur f => (RecInv s f.visited ∧ ∀ st ∈ f.queue, (f.visited st).isSome = true) ∧
      (f.visited cur).isSome = true)
    (fun cur rest v hi _ =>
      ⟨⟨hi.1, fun st hst => hi.2 st (List.mem_cons_of_mem _ hst)⟩, hi.2 cur (List.mem_cons_self _ _)⟩)
    (fun fuel cur f i d f' hj hstep => by
      obtain ⟨⟨hrec, hq⟩, hcur⟩ := hj
      obtain ⟨r, hsim, hc | ⟨hne, hnone, hf'⟩⟩ := tryMove_cases hstep
      · rw [hc.1]; exact ⟨⟨hrec, hq⟩, hcur⟩
      · rw [hf']
        have hle : Visited.Le f.visited
            (f.visited.insert (encode (setRobot (decode cur) i r)) (cur, ⟨(i.val : Int), d⟩)) :=
          Visited.le_insert _ hnone
        refine ⟨⟨RecInv_insert hrec hcur hnone ⟨i, r, rfl, ⟨fuel, hsim⟩, hne, rfl⟩, ?_⟩,
          Visited.Le.isSome hle hcur⟩
        intro st hst
        rcases List.mem_append.mp hst with h1 | h1
        · exact Visited.Le.isSome hle (hq st h1)
        · rw [List.mem_singleton] at h1
          rw [h1]
          show (Visited.insert _ _ _ _).isSome = true
          rw [Visited.insert_same]; rfl)
    (fun cur f hj => hj.1) fuel fuel
    ⟨[s.initial], Visited.empty.insert s.initial (sentinel s.initial)⟩ res v
    ⟨RecInv_initial s, fun st hst => by
      rw [List.mem_singleton] at hst
      rw [hst]
      show (Visited.insert _ _ _ _).isSome = true
      rw [Visited.insert_same]; rfl⟩ h
  obtain ⟨q, hq⟩ := key
  exact hq.1

/-! ## No zero-displacement edge -/

/-- When the search returned a solution state, the result of `solve_sequential` is the
path that its records give. -/
theorem solve_eq_path {s : Solver} {fuel : Nat} {st : State} {v : Visited} {path moves : List Move}
    (hsearch : s.search fuel = some (some st, v)) (hp : PathTo v s.initial st path)
    (hsolve : s.solve_sequential fuel = some moves) : moves = path := by
  unfold Solver.solve_sequential at hsolve
  rw [hsearch] at hsolve
  simp only at hsolve
  unfold Solver.reconstructPathSequential at hsolve
  cases hl : reconstructLoop v fuel [] st with
  | none => rw [hl] at hsolve; cases hsolve
  | some l =>
    rw [hl] at hsolve
    have h1 := reconstructLoop_mono fuel (max fuel (path.length + 1)) [] st l
      (Nat.le_max_left _ _) hl
    have h2 := reconstructLoop_pathTo hp (max fuel (path.length + 1)) []
      (lt_of_lt_of_le (Nat.lt_succ_self _) (Nat.le_max_right _ _))
    rw [h1] at h2
    simp only [List.nil_append, Option.some.injEq] at h2
    simp only [Option.map_some', Option.some.injEq] at hsolve
    rw [← hsolve, h2, List.reverse_reverse]

/-- On a board of width and height at most 16, replaying a recorded path from the
initial configuration moves a robot to another cell at every move, and ends in the
configuration decoded from the state. -/
theorem pathTo_displaces {s : Solver} {c0 : Robots} (hw : s.board.width ≤ 16)
    (hh : s.board.height ≤ 16) (hc0 : InRange c0) (hinit : s.initial = encode c0)
    {v : Visited} (hv : RecInv s v) {st : State} {path : List Move}
    (hp : PathTo v s.initial st path) :
    ∀ rest, EveryMoveDisplaces s.board (decode st) rest →
      EveryMoveDisplaces s.board c0 (path ++ rest) := by
  induction hp with
  | root _ =>
    intro rest h
    rw [hinit, decode_encode hc0] at h
    exact h
  | @step st p m path hpath hrec hm hne ih =>
    intro rest h
    have hst : st ≠ s.initial := by
      intro heq
      rw [heq, hv.init] at hrec
      cases Option.some.inj hrec
      exact hm rfl
    obtain ⟨⟨i, r, hi, hslide, hr, hkey⟩, -, -⟩ := hv.edge st p m hrec hst
    rw [List.append_assoc]
    apply ih
    refine ⟨i, r, hi, hslide, hr, ?_⟩
    have hrange := inRange_slide hw hh (decode_inRange p) hslide
    rw [hkey, decode_encode hrange] at h
    exact h

theorem wrapSolver_result :
    wrapSolver.solve_sequential 40 = some [⟨0, .RIGHT⟩, ⟨0, .RIGHT⟩] := by
  decide!

/-- Counterexample to C27: on the 17 x 2 board `wrapBoard`, without deflectors, from
the valid configuration `wrapStart` with coordinates in 0..15, `solve_sequential`
returns "robot 0 RIGHT, robot 0 RIGHT"; replayed, the first move takes robot 0 from
(5, 0) to (16, 0), and the second move leaves it on (16, 0). -/
theorem search_returns_zero_displacement_move :
    SlidesTerminate wrapBoard ∧ wrapBoard.ValidConfig wrapStart ∧ InRange wrapStart ∧
      wrapSolver.initial = encode wrapStart ∧
      wrapSolver.SolveResult [⟨0, .RIGHT⟩, ⟨0, .RIGHT⟩] ∧
      ¬ EveryMoveDisplaces wrapBoard wrapStart [⟨0, .RIGHT⟩, ⟨0, .RIGHT⟩] := by
  refine ⟨slidesTerminate_of_no_deflector (fun _ _ => rfl), by decide, by decide, rfl,
    ⟨40, wrapSolver_result⟩, ?_⟩
  rintro ⟨i, r, hi, hs1, -, i', r', hi', hs2, hr2, -⟩
  have h0 : i = 0 := by
    apply Fin.ext
    have : (0 : Int) = (i.val : Int) := hi
    show i.val = 0
    omega
  have h0' : i' = 0 := by
    apply Fin.ext
    have : (0 : Int) = (i'.val : Int) := hi'
    show i'.val = 0
    omega
  subst h0 h0'
  have e1 : r = (16, 0) :=
    SlideResult_unique hs1 ⟨40, (by decide : Solver.simulateMove wrapBoard 40 (wrapStart 0).1
      (wrapStart 0).2 .RIGHT wrapStart (0 : Fin 5).val = some (16, 0))⟩
  subst e1
  have e2 : r' = (16, 0) :=
    SlideResult_unique hs2 ⟨40, (by decide : Solver.simulateMove wrapBoard 40
      (setRobot wrapStart 0 (16, 0) 0).1 (setRobot wrapStart 0 (16, 0) 0).2 .RIGHT
      (setRobot wrapStart 0 (16, 0)) (0 : Fin 5).val = some (16, 0))⟩
  subst e2
  exact hr2 rfl

/-- Claim C27, amended.  On a board on which the slides terminate, from an initial
configuration with coordinates in 0..15: every state that `solve_sequential` records,
other than the initial state, differs from its recorded parent; the call returns; and,
when the board has width and height at most 16, every move of the returned sequence,
when replayed, takes its robot to a cell different from the one it starts on. -/
theorem no_zero_displacement_edge (s : Solver) (c0 : Robots) (hc0 : InRange c0)
    (hinit : s.initial = encode c0)
    (hterm : ∀ (c : Robots) (i : Fin 5) (d : Direction), InRange c →
      ∃ r, Solver.SlideResult s.board (c i).1 (c i).2 d c i.val r) :
    (∀ (fuel : Nat) (res : Option State) (v : Visited) (st p : State) (m : Move),
        s.search fuel = some (res, v) → v st = some (p, m) → st ≠ s.initial → st ≠ p) ∧
      (∃ moves, s.SolveResult moves) ∧
      (s.board.width ≤ 16 → s.board.height ≤ 16 →
        ∀ moves, s.SolveResult moves → EveryMoveDisplaces s.board c0 moves) := by
  refine ⟨fun fuel res v st p m hsearch hrec hst =>
      ((search_recInv hsearch).edge st p m hrec hst).2.1, ?_, ?_⟩
  · obtain ⟨fuel, _, _, moves, _, hsolve, _⟩ :=
      search_terminates (Q := fun _ => True) trivial (closed_true s) hterm
    exact ⟨moves, fuel, hsolve⟩
  · rintro hw hh moves ⟨fuel, hsolve⟩
    cases hsearch : s.search fuel with
    | none =>
      unfold Solver.solve_sequential at hsolve
      rw [hsearch] at hsolve; cases hsolve
    | some rv =>
      obtain ⟨res, v⟩ := rv
      cases res with
      | none =>
        unfold Solver.solve_sequential at hsolve
        rw [hsearch] at hsolve
        cases Option.some.inj hsolve
        trivial
      | some st =>
        have hv := search_recInv hsearch
        cases hvs : v st with
        | none =>
          unfold Solver.solve_sequential at hsolve
          rw [hsearch] at hsolve
          simp only at hsolve
          unfold Solver.reconstructPathSequential at hsolve
          cases fuel with
          | zero => simp [reconstructLoop] at hsolve
          | succ n =>
            simp only [reconstructLoop, hvs, Option.map_some', List.reverse_nil,
              Option.some.injEq] at hsolve
            rw [← hsolve]
            trivial
        | some rec =>
          obtain ⟨path, hp⟩ := hv.chain st (by rw [hvs]; rfl)
          rw [solve_eq_path hsearch hp hsolve]
          have := pathTo_displaces hw hh hc0 hinit hv hp [] trivial
          rwa [List.append_nil] at this

/-- Witness of C27 (amended) on `rightSolver`: the returned move "robot 0 RIGHT" takes
robot 0 from (0, 0) to another cell. -/
theorem no_zero_displacement_edge_witness :
    EveryMoveDisplaces rightBoard rightStart [⟨0, .RIGHT⟩] :=
  (no_zero_displacement_edge rightSolver rightStart (by decide) rfl
    (fun c i d _ => slidesTerminate_of_no_deflector (fun _ _ => rfl) c i.val _ _ d)).2.2
    (by decide) (by decide) [⟨0, .RIGHT⟩] ⟨20, rightSolver_result⟩

/-! ## The concurrent engine: single steps -/

/-- One atomic step of `solve` changes the frontier as the body of the loop of
`solve_sequential` does. -/
theorem tryInsert_fst (s : Solver) (fuel : Nat) (cur : State) (robots : Robots) (f : Frontier)
    (i : Fin 5) (d : Direction) :
    (s.tryInsert fuel cur robots f i d).map Prod.fst = s.tryMove fuel cur robots f i d := by
  unfold Solver.tryInsert Solver.tryMove
  cases Solver.simulateMove s.board fuel (robots i).1 (robots i).2 d robots i.val with
  | none => rfl
  | some p =>
    obtain ⟨nx, ny⟩ := p
    simp only
    split
    · rfl
    · split <;> rfl

/-- What one atomic step does: nothing, when the slide ends on its start cell or the new
key has a record; otherwise the insert returns true, the new key is recorded with the
record of the job and pushed. -/
theorem tryInsert_cases {s : Solver} {fuel : Nat} {t : Job} {f f' : Frontier}
    {inserted : Option State}
    (h : s.tryInsert fuel t.1 (decode t.1) f t.2.1 t.2.2 = some (f', inserted)) :
    ∃ r, Solver.simulateMove s.board fuel (decode t.1 t.2.1).1 (decode t.1 t.2.1).2 t.2.2
        (decode t.1) t.2.1.val = some r ∧
      ((f' = f ∧ inserted = none ∧
          (r = decode t.1 t.2.1 ∨ f.visited (encode (setRobot (decode t.1) t.2.1 r)) ≠ none)) ∨
        (r ≠ decode t.1 t.2.1 ∧ f.visited (encode (setRobot (decode t.1) t.2.1 r)) = none ∧
          inserted = some (encode (setRobot (decode t.1) t.2.1 r)) ∧
          f' = ⟨f.queue ++ [encode (setRobot (decode t.1) t.2.1 r)],
            f.visited.insert (encode (setRobot (decode t.1) t.2.1 r)) t.record⟩)) := by
  unfold Solver.tryInsert at h
  cases hsim : Solver.simulateMove s.board fuel (decode t.1 t.2.1).1 (decode t.1 t.2.1).2 t.2.2
      (decode t.1) t.2.1.val with
  | none => rw [hsim] at h; cases h
  | some p =>
    obtain ⟨nx, ny⟩ := p
    rw [hsim] at h
    simp only at h
    refine ⟨(nx, ny), rfl, ?_⟩
    split at h
    · rename_i hzero
      cases Option.some.inj h
      exact Or.inl ⟨rfl, rfl, Or.inl (Prod.ext hzero.1.symm hzero.2.symm)⟩
    · rename_i hmoved
      have hne : (nx, ny) ≠ decode t.1 t.2.1 :=
        fun heq => hmoved (by rw [← heq]; exact ⟨rfl, rfl⟩)
      split at h
      · rename_i hnone
        cases Option.some.inj h
        exact Or.inr ⟨hne, hnone, rfl, rfl⟩
      · rename_i hsome
        cases Option.some.inj h
        exact Or.inl ⟨rfl, rfl, Or.inr hsome⟩

theorem runJobs_nil (s : Solver) (fuel : Nat) (f : Frontier) :
    s.runJobs fuel [] f = some (f, []) := rfl

/-- Unfolding the first job of a run. -/
theorem runJobs_cons {s : Solver} {fuel : Nat} {t : Job} {ts : List Job} {f f' : Frontier}
    {log : List (Job × State)} (h : s.runJobs fuel (t :: ts) f = some (f', log)) :
    ∃ f1 inserted log1, s.tryInsert fuel t.1 (decode t.1) f t.2.1 t.2.2 = some (f1, inserted) ∧
      s.runJobs fuel ts f1 = some (f', log1) ∧
      log = (match inserted with
        | none => log1
        | some new_state => (t, new_state) :: log1) := by
  simp only [Solver.runJobs] at h
  cases h1 : s.tryInsert fuel t.1 (decode t.1) f t.2.1 t.2.2 with
  | none => rw [h1] at h; cases h
  | some p =>
    obtain ⟨f1, inserted⟩ := p
    rw [h1] at h
    simp only at h
    cases h2 : s.runJobs fuel ts f1 with
    | none => rw [h2] at h; cases h
    | some q =>
      obtain ⟨f2, log1⟩ := q
      rw [h2] at h
      simp only at h
      cases inserted with
      | none =>
        simp only [Option.some.injEq, Prod.mk.injEq] at h
        exact ⟨f1, none, log1, rfl, h.1 ▸ h2, h.2.symm⟩
      | some ns =>
        simp only [Option.some.injEq, Prod.mk.injEq] at h
        exact ⟨f1, some ns, log1, rfl, h.1 ▸ h2, h.2.symm⟩

/-! ## Levels of the search graph: basic facts -/

theorem Near_mono {s : Solver} {n : Nat} {st : State} (h : s.Near n st) :
    ∀ {k : Nat}, n ≤ k → s.Near k st := by
  induction h with
  | init n => intro k _; exact Solver.Near.init k
  | @step n p st m _ he ih =>
    intro k hk
    obtain ⟨k', rfl⟩ : ∃ k', k = k' + 1 := ⟨k - 1, by omega⟩
    exact Solver.Near.step (ih (by omega)) he

theorem Near_zero {s : Solver} {st : State} (h : s.Near 0 st) : st = s.initial := by
  cases h
  rfl

/-- A state within `n + 1` edges is within `n` edges or the successor of a state at
distance exactly `n`. -/
theorem Near_succ_cases {s : Solver} {n : Nat} {st : State} (h : s.Near (n + 1) st) :
    s.Near n st ∨ ∃ p m, s.AtLevel n p ∧ s.Edge p m st := by
  classical
  cases h with
  | init _ => exact Or.inl (Solver.Near.init n)
  | @step _ p _ m hp he =>
    by_cases hlow : ∃ j, j < n ∧ s.Near j p
    · obtain ⟨j, hj, hjp⟩ := hlow
      exact Or.inl (Near_mono (Solver.Near.step hjp he) (by omega))
    · exact Or.inr ⟨p, m, ⟨hp, fun j hj hjp => hlow ⟨j, hj, hjp⟩⟩, he⟩

theorem AtLevel_unique {s : Solver} {j k : Nat} {st : State} (hj : s.AtLevel j st)
    (hk : s.AtLevel k st) : j = k := by
  rcases Nat.lt_trichotomy j k with h | h | h
  · exact absurd hj.1 (hk.2 j h)
  · exact h
  · exact absurd hk.1 (hj.2 k h)

/-- A state within `k` edges is at distance exactly `k` or within fewer edges. -/
theorem Near_cases {s : Solver} {k : Nat} {st : State} (h : s.Near k st) :
    s.AtLevel k st ∨ ∃ j, j < k ∧ s.Near j st := by
  classical
  by_cases hlow : ∃ j, j < k ∧ s.Near j st
  · exact Or.inr hlow
  · exact Or.inl ⟨h, fun j hj hjp => hlow ⟨j, hj, hjp⟩⟩

/-- When no state is at distance exactly `k`, every state that can be reached is within
fewer than `k` edges. -/
theorem near_of_empty_level {s : Solver} {k : Nat} (hempty : ∀ st, ¬ s.AtLevel k st) :
    ∀ {n : Nat} {st : State}, s.Near n st → ∃ j, j < k ∧ s.Near j st := by
  have hk : 0 < k := by
    rcases Nat.eq_zero_or_pos k with h | h
    · exact absurd ⟨Solver.Near.init 0, fun j hj => absurd hj (Nat.not_lt_zero j)⟩
        (h ▸ hempty s.initial)
    · exact h
  intro n st h
  induction h with
  | init n => exact ⟨0, hk, Solver.Near.init 0⟩
  | @step n p st m _ he ih =>
    obtain ⟨j, hj, hjp⟩ := ih
    have hst : s.Near k st := Near_mono (Solver.Near.step hjp he) (by omega)
    rcases Near_cases hst with h | h
    · exact absurd h (hempty st)
    · exact h

theorem GoalDistance_unique {s : Solver} {n1 n2 : Nat} (h1 : s.GoalDistance n1)
    (h2 : s.GoalDistance n2) : n1 = n2 := by
  rcases h1 with ⟨st1, hl1, hg1, hn1⟩ | ⟨hz1, hn1⟩
  · rcases h2 with ⟨st2, hl2, hg2, hn2⟩ | ⟨hz2, hn2⟩
    · rcases Nat.lt_trichotomy n1 n2 with h | h | h
      · have := hn2 n1 h st1 hl1.1
        rw [hg1] at this; cases this
      · exact h
      · have := hn1 n2 h st2 hl2.1
        rw [hg2] at this; cases this
    · have := hn2 n1 st1 hl1.1
      rw [hg1] at this; cases this
  · rcases h2 with ⟨st2, hl2, hg2, hn2⟩ | ⟨hz2, hn2⟩
    · have := hn1 n2 st2 hl2.1
      rw [hg2] at this; cases this
    · rw [hz1, hz2]
/-! ## The concurrent engine: the jobs of one level -/

theorem mem_levelJobs {L : List State} {t : Job} : t ∈ levelJobs L ↔ t.1 ∈ L := by
  obtain ⟨cur, i, d⟩ := t
  unfold levelJobs
  simp only [List.mem_flatMap, List.mem_map, Prod.mk.injEq]
  constructor
  · rintro ⟨c, hc, _, _, _, _, rfl, _⟩
    exact hc
  · intro h
    exact ⟨cur, h, i, mem_allRobots i, d, mem_allDirs d, rfl, rfl, rfl⟩

theorem levelJobs_append (L1 L2 : List State) :
    levelJobs (L1 ++ L2) = levelJobs L1 ++ levelJobs L2 := by
  unfold levelJobs
  rw [List.flatMap_append]

/-- One atomic step only adds records. -/
theorem tryInsert_le {s : Solver} {fuel : Nat} {t : Job} {f f' : Frontier}
    {inserted : Option State}
    (h : s.tryInsert fuel t.1 (decode t.1) f t.2.1 t.2.2 = some (f', inserted)) :
    Visited.Le f.visited f'.visited := by
  obtain ⟨r, _, ⟨rfl, _, _⟩ | ⟨_, hnone, _, rfl⟩⟩ := tryInsert_cases h
  · exact Visited.Le.refl _
  · exact Visited.le_insert _ hnone

/-- A run of jobs only adds records. -/
theorem runJobs_le {s : Solver} {fuel : Nat} :
    ∀ (ts : List Job) (f f' : Frontier) (log : List (Job × State)),
      s.runJobs fuel ts f = some (f', log) → Visited.Le f.visited f'.visited := by
  intro ts
  induction ts with
  | nil =>
    intro f f' log h
    cases Option.some.inj h
    exact Visited.Le.refl _
  | cons t ts ih =>
    intro f f' log h
    obtain ⟨f1, inserted, log1, h1, h2, -⟩ := runJobs_cons h
    exact Visited.Le.trans (tryInsert_le h1) (ih f1 f' log1 h2)

/-- One atomic step of a job of a state of level `k` keeps the invariant of the
level. -/
theorem tryInsert_pmid {s : Solver} {k fuel : Nat} {done : List Job} {f f' : Frontier}
    {t : Job} {inserted : Option State} (hm : PMid s k done f) (ht : s.AtLevel k t.1)
    (h : s.tryInsert fuel t.1 (decode t.1) f t.2.1 t.2.2 = some (f', inserted)) :
    PMid s k (t :: done) f' := by
  have hcur : (f.visited t.1).isSome = true := (hm.dom t.1).2 (Or.inl ht.1)
  obtain ⟨r, hsim, ⟨rfl, _, hcase⟩ | ⟨hne, hnone, _, rfl⟩⟩ := tryInsert_cases h
  · refine ⟨hm.dom, hm.fresh, hm.path, fun t' ht' r' hr' hne' => ?_⟩
    rcases List.mem_cons.mp ht' with rfl | ht'
    · have hrr : r' = r := SlideResult_unique hr' ⟨fuel, hsim⟩
      rw [hrr] at hne' ⊢
      rcases hcase with hcase | hcase
      · exact absurd hcase hne'
      · cases hv : f'.visited (encode (setRobot (decode t'.1) t'.2.1 r)) with
        | none => exact absurd hv hcase
        | some _ => rfl
    · exact hm.done t' ht' r' hr' hne'
  · have hle : Visited.Le f.visited
        (f.visited.insert (encode (setRobot (decode t.1) t.2.1 r)) t.record) :=
      Visited.le_insert _ hnone
    have hedge : s.Edge t.1 ⟨(t.2.1.val : Int), t.2.2⟩ (encode (setRobot (decode t.1) t.2.1 r)) :=
      ⟨t.2.1, r, rfl, ⟨fuel, hsim⟩, hne, rfl⟩
    have hnear : s.Near (k + 1) (encode (setRobot (decode t.1) t.2.1 r)) :=
      Solver.Near.step ht.1 hedge
    have hlevel : s.AtLevel (k + 1) (encode (setRobot (decode t.1) t.2.1 r)) := by
      refine ⟨hnear, fun j hj hjn => ?_⟩
      have := (hm.dom _).2 (Or.inl (Near_mono hjn (by omega : j ≤ k)))
      rw [hnone] at this
      cases this
    have hnew : encode (setRobot (decode t.1) t.2.1 r) ≠ t.1 := by
      intro heq
      rw [heq] at hnone
      rw [hnone] at hcur
      cases hcur
    refine ⟨fun st => ?_, fun st hst => ?_, fun st hst => ?_, fun t' ht' r' hr' hne' => ?_⟩
    · show (Visited.insert _ _ _ st).isSome = true ↔ _
      by_cases hst : st = encode (setRobot (decode t.1) t.2.1 r)
      · rw [hst, Visited.insert_same]
        simp
      · rw [Visited.insert_other _ _ hst, hm.dom]
        simp [hst]
    · rcases List.mem_append.mp hst with h1 | h1
      · have := hm.fresh st h1
        exact this
      · rw [List.mem_singleton] at h1
        rw [h1]; exact hlevel
    · by_cases hst' : st = encode (setRobot (decode t.1) t.2.1 r)
      · obtain ⟨path, hp, hplen⟩ := hm.path t.1 hcur
        have hk : path.length = k := AtLevel_unique hplen ht
        refine ⟨path ++ [⟨(t.2.1.val : Int), t.2.2⟩], ?_, ?_⟩
        · rw [hst']
          exact PathTo.step (PathTo_mono hle hp) (Visited.insert_same _ _ _)
            (by simp only [ne_eq]; omega) hnew
        · rw [List.length_append, List.length_singleton, hk, hst']
          exact hlevel
      · have hst2 : (f.visited st).isSome = true := by
          have : (Visited.insert f.visited _ t.record st).isSome = true := hst
          rwa [Visited.insert_other _ _ hst'] at this
        obtain ⟨path, hp, hplen⟩ := hm.path st hst2
        exact ⟨path, PathTo_mono hle hp, hplen⟩
    · rcases List.mem_cons.mp ht' with rfl | ht'
      · have hrr : r' = r := SlideResult_unique hr' ⟨fuel, hsim⟩
        rw [hrr]
        show (Visited.insert _ _ _ _).isSome = true
        rw [Visited.insert_same]; rfl
      · exact Visited.Le.isSome hle (hm.done t' ht' r' hr' hne')

/-- A run of jobs of states of level `k` keeps the invariant of the level. -/
theorem runJobs_pmid {s : Solver} {k fuel : Nat} :
    ∀ (ts : List Job) (done : List Job) (f f' : Frontier) (log : List (Job × State)),
      PMid s k done f → (∀ t, t ∈ ts → s.AtLevel k t.1) →
      s.runJobs fuel ts f = some (f', log) → PMid s k (ts.reverse ++ done) f' := by
  intro ts
  induction ts with
  | nil =>
    intro done f f' log hm _ h
    cases Option.some.inj h
    exact hm
  | cons t ts ih =>
    intro done f f' log hm hts h
    obtain ⟨f1, inserted, log1, h1, h2, -⟩ := runJobs_cons h
    have hm1 := tryInsert_pmid hm (hts t (List.mem_cons_self _ _)) h1
    have := ih (t :: done) f1 f' log1 hm1 (fun t' ht' => hts t' (List.mem_cons_of_mem _ ht')) h2
    rw [List.reverse_cons, List.append_assoc]
    exact this

theorem PInv_initial (s : Solver) :
    PInv s 0 ⟨[s.initial], Visited.empty.insert s.initial (sentinel s.initial)⟩ := by
  have h0 : s.AtLevel 0 s.initial :=
    ⟨Solver.Near.init 0, fun j hj => absurd hj (Nat.not_lt_zero j)⟩
  refine ⟨fun st => ?_, fun st => ?_, fun st hst => ?_, fun j hj => absurd hj (Nat.not_lt_zero j)⟩
  · show (Visited.insert _ _ _ st).isSome = true ↔ _
    by_cases h : st = s.initial
    · rw [h, Visited.insert_same]
      simp [Solver.Near.init]
    · rw [Visited.insert_other _ _ h]
      simp only [Visited.empty, Option.isSome_none, Bool.false_eq_true, false_iff]
      exact fun hn => h (Near_zero hn)
  · show st ∈ [s.initial] ↔ _
    rw [List.mem_singleton]
    exact ⟨fun h => h ▸ h0, fun h => Near_zero h.1⟩
  · have hst' : (Visited.insert Visited.empty s.initial (sentinel s.initial) st).isSome = true :=
      hst
    by_cases h : st = s.initial
    · rw [h]
      exact ⟨[], PathTo.root (Visited.insert_same _ _ _), h0⟩
    · rw [Visited.insert_other _ _ h] at hst'
      cases hst'

/-- When every job of level `k` has run, the invariant holds for level `k + 1`. -/
theorem PInv_next {s : Solver} {k fuel : Nat} {f f' : Frontier} {ts : List Job}
    {log : List (Job × State)} (hinv : PInv s k f)
    (hng : ∀ st, st ∈ f.queue → s.checkSolution st = false)
    (hperm : ts.Perm (levelJobs f.queue))
    (hrun : s.runJobs fuel ts ⟨[], f.visited⟩ = some (f', log)) : PInv s (k + 1) f' := by
  have hstart : PMid s k [] ⟨[], f.visited⟩ :=
    ⟨fun st => by simp [hinv.dom], fun st hst => absurd hst (List.not_mem_nil st), hinv.path,
      fun t ht => absurd ht (List.not_mem_nil t)⟩
  have hts : ∀ t, t ∈ ts → s.AtLevel k t.1 := fun t ht =>
    (hinv.level t.1).1 (mem_levelJobs.1 (hperm.mem_iff.1 ht))
  have hm := runJobs_pmid ts [] _ f' log hstart hts hrun
  have hdom : ∀ st, (f'.visited st).isSome = true ↔ s.Near (k + 1) st := by
    intro st
    rw [hm.dom]
    constructor
    · rintro (h | h)
      · exact Near_mono h (Nat.le_succ k)
      · exact (hm.fresh st h).1
    · intro h
      rcases Near_succ_cases h with h | ⟨p, m, hp, i, r, hi, hslide, hr, hkey⟩
      · exact Or.inl h
      · have hjob : ((p, i, m.dir) : Job) ∈ ts.reverse ++ [] := by
          rw [List.append_nil, List.mem_reverse, hperm.mem_iff, mem_levelJobs]
          exact (hinv.level p).2 hp
        have := hm.done (p, i, m.dir) hjob r hslide hr
        rw [← hkey] at this
        exact (hm.dom st).1 this
  refine ⟨hdom, fun st => ⟨hm.fresh st, fun h => ?_⟩, hm.path, fun j hj st hst => ?_⟩
  · rcases (hm.dom st).1 ((hdom st).2 h.1) with h1 | h1
    · exact absurd h1 (h.2 k (Nat.lt_succ_self k))
    · exact h1
  · rcases Near_cases (Near_mono hst (by omega : j ≤ k)) with h | ⟨j', hj', h⟩
    · exact hng st ((hinv.level st).2 h)
    · exact hinv.nogoal j' hj' st h
/-! ## The concurrent engine: the length of the result -/

/-- When the reconstruction loop returns on a state whose records lead back to the
initial state, it returns the recorded path, reversed. -/
theorem reconstructLoop_eq_path {v : Visited} {init st : State} {path l : List Move} {fuel : Nat}
    (hp : PathTo v init st path) (hl : reconstructLoop v fuel [] st = some l) :
    l.reverse = path := by
  have h1 := reconstructLoop_mono fuel (max fuel (path.length + 1)) [] st l
    (Nat.le_max_left _ _) hl
  have h2 := reconstructLoop_pathTo hp (max fuel (path.length + 1)) []
    (lt_of_lt_of_le (Nat.lt_succ_self _) (Nat.le_max_right _ _))
  rw [h1] at h2
  simp only [List.nil_append, Option.some.injEq] at h2
  rw [h2, List.reverse_reverse]

theorem reconstructPath_eq_path {v : Visited} {init st : State} {path moves : List Move}
    {fuel : Nat} (hp : PathTo v init st path)
    (h : Solver.reconstructPath fuel v st = some moves) : moves = path := by
  unfold Solver.reconstructPath at h
  cases hl : reconstructLoop v fuel [] st with
  | none => rw [hl] at h; cases h
  | some l =>
    rw [hl] at h
    simp only [Option.map_some', Option.some.injEq] at h
    rw [← h]
    exact reconstructLoop_eq_path hp hl

/-- Every run of the loop of `solve` that starts a level with its invariant returns a
path whose length is the distance of the nearest goal state (the empty path when no
goal state can be reached). -/
theorem parSearch_goalDistance {s : Solver} {fuel : Nat} {f : Frontier} {jobs : List Job}
    {rv : Option State × Visited} (h : s.ParSearch fuel f jobs rv) :
    ∀ (k : Nat), PInv s k f → ∀ moves,
      (match rv.1 with
        | none => some []
        | some solution_state => Solver.reconstructPath fuel rv.2 solution_state)
        = some moves →
      s.GoalDistance moves.length := by
  induction h with
  | @empty f hq =>
    intro k hinv moves hmoves
    simp only [Option.some.injEq] at hmoves
    rw [← hmoves]
    refine Or.inr ⟨rfl, fun j st hst => ?_⟩
    have hempty : ∀ st, ¬ s.AtLevel k st := by
      intro st hlev
      have := (hinv.level st).2 hlev
      rw [hq] at this
      exact absurd this (List.not_mem_nil st)
    obtain ⟨j', hj', hn⟩ := near_of_empty_level hempty hst
    exact hinv.nogoal j' hj' st hn
  | @found f f' g ts log hg hgoal _ _ hrun =>
    intro k hinv moves hmoves
    have hlev : s.AtLevel k g := (hinv.level g).1 hg
    obtain ⟨path, hp, hplen⟩ := hinv.path g ((hinv.dom g).2 hlev.1)
    have hk : path.length = k := AtLevel_unique hplen hlev
    have hp' : PathTo f'.visited s.initial g path := PathTo_mono (runJobs_le ts _ f' log hrun) hp
    have : moves = path := reconstructPath_eq_path hp' hmoves
    rw [this, hk]
    exact Or.inl ⟨g, hlev, hgoal, hinv.nogoal⟩
  | @next f f' ts rest log res _ hng hperm hrun _ ih =>
    intro k hinv moves hmoves
    exact ih (k + 1) (PInv_next hinv hng hperm hrun) moves hmoves

/-- Every result of `solve` has the length of the distance of the nearest goal
state. -/
theorem parSolve_goalDistance {s : Solver} {moves : List Move} (h : s.ParSolveResult moves) :
    s.GoalDistance moves.length := by
  obtain ⟨fuel, jobs, res, v, hrun, hmoves⟩ := h
  exact parSearch_goalDistance hrun 0 (PInv_initial s) moves hmoves
/-! ## The sequential engine is one of the runs of the concurrent engine -/

/-- The frontier of a run of jobs changes as under the loop body of `solve_sequential`,
job after job. -/
theorem runJobs_fst (s : Solver) (fuel : Nat) :
    ∀ (ts : List Job) (f : Frontier),
      (s.runJobs fuel ts f).map Prod.fst
        = ts.foldlM (fun f t => s.tryMove fuel t.1 (decode t.1) f t.2.1 t.2.2) f := by
  intro ts
  induction ts with
  | nil => intro f; rfl
  | cons t ts ih =>
    intro f
    rw [List.foldlM_cons, ← tryInsert_fst]
    simp only [Solver.runJobs]
    cases h1 : s.tryInsert fuel t.1 (decode t.1) f t.2.1 t.2.2 with
    | none => rfl
    | some p =>
      obtain ⟨f1, inserted⟩ := p
      simp only [Option.map_some', Option.bind_eq_bind, Option.some_bind]
      rw [← ih f1]
      cases h2 : s.runJobs fuel ts f1 with
      | none => rfl
      | some q =>
        obtain ⟨f2, log⟩ := q
        cases inserted <;> rfl

/-- Folding the first job into a run. -/
theorem runJobs_cons_some {s : Solver} {fuel : Nat} {t : Job} {ts : List Job}
    {f f1 f' : Frontier} {inserted : Option State} {log : List (Job × State)}
    (h1 : s.tryInsert fuel t.1 (decode t.1) f t.2.1 t.2.2 = some (f1, inserted))
    (h2 : s.runJobs fuel ts f1 = some (f', log)) :
    s.runJobs fuel (t :: ts) f
      = some (f', inserted.elim log fun new_state => (t, new_state) :: log) := by
  rw [Solver.runJobs, h1]
  simp only
  rw [h2]
  cases inserted <;> rfl

theorem foldlM_flatMap {α β σ : Type} (g : α → List β) (step : σ → β → Option σ) :
    ∀ (l : List α) (b : σ),
      (l.flatMap g).foldlM step b = l.foldlM (fun b a => (g a).foldlM step b) b := by
  intro l
  induction l with
  | nil => intro b; rfl
  | cons a l ih =>
    intro b
    rw [List.flatMap_cons, List.foldlM_append, List.foldlM_cons]
    cases (g a).foldlM step b with
    | none => rfl
    | some b1 => exact ih b1

/-- The double loop over the candidate moves of a state runs the jobs of the state. -/
theorem expand_eq_runJobs (s : Solver) (fuel : Nat) (cur : State) (f : Frontier) :
    s.expand fuel cur f = (s.runJobs fuel (levelJobs [cur]) f).map Prod.fst := by
  rw [runJobs_fst]
  unfold Solver.expand levelJobs
  rw [List.flatMap_singleton, foldlM_flatMap]
  congr 1

/-- Running two lists of jobs one after the other. -/
theorem runJobs_append {s : Solver} {fuel : Nat} :
    ∀ (ts1 ts2 : List Job) (f f1 f2 : Frontier) (log1 log2 : List (Job × State)),
      s.runJobs fuel ts1 f = some (f1, log1) → s.runJobs fuel ts2 f1 = some (f2, log2) →
      s.runJobs fuel (ts1 ++ ts2) f = some (f2, log1 ++ log2) := by
  intro ts1
  induction ts1 with
  | nil =>
    intro ts2 f f1 f2 log1 log2 h1 h2
    cases Option.some.inj h1
    exact h2
  | cons t ts ih =>
    intro ts2 f f1 f2 log1 log2 h1 h2
    obtain ⟨fa, inserted, loga, ha, hb, hlog⟩ := runJobs_cons h1
    have := ih ts2 fa f1 f2 loga log2 hb h2
    rw [List.cons_append, runJobs_cons_some ha this, hlog]
    cases inserted <;> rfl

/-- Splitting a run of two lists of jobs. -/
theorem runJobs_append_inv {s : Solver} {fuel : Nat} :
    ∀ (ts1 ts2 : List Job) (f f2 : Frontier) (log : List (Job × State)),
      s.runJobs fuel (ts1 ++ ts2) f = some (f2, log) →
      ∃ f1 log1 log2, s.runJobs fuel ts1 f = some (f1, log1) ∧
        s.runJobs fuel ts2 f1 = some (f2, log2) ∧ log = log1 ++ log2 := by
  intro ts1
  induction ts1 with
  | nil =>
    intro ts2 f f2 log h
    exact ⟨f, [], log, rfl, h, rfl⟩
  | cons t ts ih =>
    intro ts2 f f2 log h
    rw [List.cons_append] at h
    obtain ⟨fa, inserted, loga, ha, hb, hlog⟩ := runJobs_cons h
    obtain ⟨f1, log1, log2, h1, h2, hl⟩ := ih ts2 fa f2 loga hb
    refine ⟨f1, _, log2, runJobs_cons_some ha h1, h2, ?_⟩
    rw [hlog, hl]
    cases inserted <;> rfl

/-- States waiting at the front of the queue play no role in a candidate move. -/
theorem tryMove_prefix (s : Solver) (fuel : Nat) (cur : State) (robots : Robots)
    (R : List State) (f : Frontier) (i : Fin 5) (d : Direction) :
    s.tryMove fuel cur robots ⟨R ++ f.queue, f.visited⟩ i d
      = (s.tryMove fuel cur robots f i d).map fun f' => ⟨R ++ f'.queue, f'.visited⟩ := by
  unfold Solver.tryMove
  cases Solver.simulateMove s.board fuel (robots i).1 (robots i).2 d robots i.val with
  | none => rfl
  | some p =>
    obtain ⟨nx, ny⟩ := p
    simp only
    split
    · rfl
    · split
      · simp only [Option.map_some', List.append_assoc]
      · rfl

theorem foldlM_tryMove_prefix (s : Solver) (fuel : Nat) (R : List State) :
    ∀ (ts : List Job) (f : Frontier),
      ts.foldlM (fun f t => s.tryMove fuel t.1 (decode t.1) f t.2.1 t.2.2)
          ⟨R ++ f.queue, f.visited⟩
        = (ts.foldlM (fun f t => s.tryMove fuel t.1 (decode t.1) f t.2.1 t.2.2) f).map
            fun f' => ⟨R ++ f'.queue, f'.visited⟩ := by
  intro ts
  induction ts with
  | nil => intro f; rfl
  | cons t ts ih =>
    intro f
    rw [List.foldlM_cons, List.foldlM_cons, tryMove_prefix]
    cases s.tryMove fuel t.1 (decode t.1) f t.2.1 t.2.2 with
    | none => rfl
    | some f1 => exact ih f1

/-- The expansion of a state with other states waiting in the queue: the jobs of the
state run on the rest of the frontier. -/
theorem expand_prefix {s : Solver} {fuel : Nat} {cur : State} {R N : List State} {v : Visited}
    {f1 : Frontier} (h : s.expand fuel cur ⟨R ++ N, v⟩ = some f1) :
    ∃ f' log, s.runJobs fuel (levelJobs [cur]) ⟨N, v⟩ = some (f', log) ∧
      f1 = ⟨R ++ f'.queue, f'.visited⟩ := by
  rw [expand_eq_runJobs, runJobs_fst] at h
  have := foldlM_tryMove_prefix s fuel R (levelJobs [cur]) ⟨N, v⟩
  rw [this, ← runJobs_fst] at h
  cases hr : s.runJobs fuel (levelJobs [cur]) ⟨N, v⟩ with
  | none => rw [hr] at h; cases h
  | some p =>
    obtain ⟨f', log⟩ := p
    rw [hr] at h
    simp only [Option.map_some', Option.some.injEq] at h
    exact ⟨f', log, rfl, h.symm⟩
/-- The loop over a level of `solve_sequential` runs the jobs of its states in the
order of the queue, up to the first goal state. -/
theorem levelLoop_jobs {s : Solver} {fuel : Nat} :
    ∀ (L N : List State) (v : Visited) (out : LevelOutcome),
      s.levelLoop fuel L.length ⟨L ++ N, v⟩ = some out →
      match out with
      | .next f' =>
        (∀ st, st ∈ L → s.checkSolution st = false) ∧
          ∃ log, s.runJobs fuel (levelJobs L) ⟨N, v⟩ = some (f', log)
      | .found g v' =>
        ∃ pre post f' log, L = pre ++ g :: post ∧
          (∀ st, st ∈ pre → s.checkSolution st = false) ∧ s.checkSolution g = true ∧
          s.runJobs fuel (levelJobs pre) ⟨N, v⟩ = some (f', log) ∧ f'.visited = v' := by
  intro L
  induction L with
  | nil =>
    intro N v out h
    simp only [List.length_nil, Solver.levelLoop, List.nil_append, Option.some.injEq] at h
    rw [← h]
    exact ⟨fun st hst => absurd hst (List.not_mem_nil st), [], rfl⟩
  | cons cur rest ih =>
    intro N v out h
    simp only [List.length_cons, List.cons_append, Solver.levelLoop] at h
    split at h
    · rename_i hgoal
      cases Option.some.inj h
      exact ⟨[], rest, ⟨N, v⟩, [], rfl, fun st hst => absurd hst (List.not_mem_nil st), hgoal,
        rfl, rfl⟩
    · rename_i hng
      have hng' : s.checkSolution cur = false := by simpa using hng
      cases hex : s.expand fuel cur ⟨rest ++ N, v⟩ with
      | none => rw [hex] at h; cases h
      | some f1 =>
        rw [hex] at h
        simp only at h
        obtain ⟨fa, loga, hrun, hf1⟩ := expand_prefix hex
        rw [hf1] at h
        have hrec := ih fa.queue fa.visited out h
        have hsplit : levelJobs (cur :: rest) = levelJobs [cur] ++ levelJobs rest := by
          rw [← levelJobs_append]; rfl
        cases out with
        | next f' =>
          obtain ⟨hall, log, hrest⟩ := hrec
          refine ⟨fun st hst => ?_, loga ++ log, ?_⟩
          · rcases List.mem_cons.mp hst with rfl | hst
            · exact hng'
            · exact hall st hst
          · rw [hsplit]
            exact runJobs_append _ _ _ fa f' loga log hrun hrest
        | found g v' =>
          obtain ⟨pre, post, f', log, hL, hall, hgoal, hrest, hv⟩ := hrec
          refine ⟨cur :: pre, post, f', loga ++ log, by rw [hL]; rfl, fun st hst => ?_, hgoal,
            ?_, hv⟩
          · rcases List.mem_cons.mp hst with rfl | hst
            · exact hng'
            · exact hall st hst
          · have hsplit' : levelJobs (cur :: pre) = levelJobs [cur] ++ levelJobs pre := by
              rw [← levelJobs_append]; rfl
            rw [hsplit']
            exact runJobs_append _ _ _ fa f' loga log hrun hrest

/-- Every run of the search loop of `solve_sequential` is a run of the loop of
`solve`: the one in which the jobs of every level run in the order of the queue. -/
theorem searchLoop_parSearch {s : Solver} {fuel : Nat} :
    ∀ (n : Nat) (f : Frontier) (res : Option State) (v : Visited),
      s.searchLoop fuel n f = some (res, v) → ∃ jobs, s.ParSearch fuel f jobs (res, v) := by
  intro n
  induction n with
  | zero => intro f res v h; simp [Solver.searchLoop] at h
  | succ n ih =>
    intro f res v h
    simp only [Solver.searchLoop] at h
    split at h
    · rename_i hempty
      cases Option.some.inj h
      exact ⟨[], Solver.ParSearch.empty (List.isEmpty_iff.mp hempty)⟩
    · rename_i hne
      have hne' : f.queue ≠ [] := fun h0 => hne (by rw [h0]; rfl)
      cases hl : s.levelLoop fuel f.queue.length f with
      | none => rw [hl] at h; cases h
      | some out =>
        rw [hl] at h
        have hl' : s.levelLoop fuel f.queue.length ⟨f.queue ++ [], f.visited⟩ = some out := by
          rw [List.append_nil]; exact hl
        have hjobs := levelLoop_jobs f.queue [] f.visited out hl'
        cases out with
        | found g v' =>
          cases Option.some.inj h
          obtain ⟨pre, post, f', log, hL, hall, hgoal, hrun, hv⟩ := hjobs
          refine ⟨levelJobs pre, ?_⟩
          rw [← hv]
          refine Solver.ParSearch.found ?_ hgoal
            (fun t ht => hall t.1 (mem_levelJobs.1 ht)) ?_ hrun
          · rw [hL]; exact List.mem_append_right _ (List.mem_cons_self _ _)
          · rw [hL, levelJobs_append]
            exact (List.sublist_append_left _ _).subperm
        | next f' =>
          obtain ⟨hall, log, hrun⟩ := hjobs
          obtain ⟨rest, hrest⟩ := ih f' res v h
          exact ⟨levelJobs f.queue ++ rest,
            Solver.ParSearch.next hne' hall (List.Perm.refl _) hrun hrest⟩

/-- Every result of `solve_sequential` is the result of a run of `solve`. -/
theorem solveResult_parSolveResult {s : Solver} {moves : List Move} (h : s.SolveResult moves) :
    s.ParSolveResult moves := by
  obtain ⟨fuel, hsolve⟩ := h
  unfold Solver.solve_sequential at hsolve
  cases hsearch : s.search fuel with
  | none => rw [hsearch] at hsolve; cases hsolve
  | some rv =>
    obtain ⟨res, v⟩ := rv
    rw [hsearch] at hsolve
    obtain ⟨jobs, hpar⟩ := searchLoop_parSearch fuel _ res v hsearch
    refine ⟨fuel, jobs, res, v, hpar, ?_⟩
    cases res with
    | none => exact hsolve
    | some st => exact hsolve

/-- Claim C24 (equivalence of engines).  On every board on which the slides terminate,
from every initial state: `solve_sequential` returns, `solve` has a run that returns,
and whatever run of `solve` returns, in whatever order the jobs of each level were
executed, its result has the length of the result of `solve_sequential`. -/
theorem engines_agree_on_length (s : Solver)
    (hterm : ∀ (c : Robots) (i : Fin 5) (d : Direction), InRange c →
      ∃ r, Solver.SlideResult s.board (c i).1 (c i).2 d c i.val r) :
    (∃ ms, s.SolveResult ms) ∧ (∃ mp, s.ParSolveResult mp) ∧
      ∀ mp ms, s.ParSolveResult mp → s.SolveResult ms → mp.length = ms.length := by
  obtain ⟨fuel, _, _, moves, _, hsolve, _⟩ :=
    search_terminates (Q := fun _ => True) trivial (closed_true s) hterm
  refine ⟨⟨moves, fuel, hsolve⟩, ⟨moves, solveResult_parSolveResult ⟨fuel, hsolve⟩⟩,
    fun mp ms hp hs => ?_⟩
  exact GoalDistance_unique (parSolve_goalDistance hp)
    (parSolve_goalDistance (solveResult_parSolveResult hs))
/-! ## The concurrent engine: one discoverer per state -/

/-- The queue plays no role in an atomic step, and the step pushes exactly the key it
inserted. -/
theorem tryInsert_queue {s : Solver} {fuel : Nat} {cur : State} {robots : Robots}
    {q : List State} {v : Visited} {i : Fin 5} {d : Direction} {f' : Frontier}
    {inserted : Option State}
    (h : s.tryInsert fuel cur robots ⟨q, v⟩ i d = some (f', inserted)) :
    f'.queue = q ++ inserted.toList ∧
      ∀ q2, s.tryInsert fuel cur robots ⟨q2, v⟩ i d
        = some (⟨q2 ++ inserted.toList, f'.visited⟩, inserted) := by
  unfold Solver.tryInsert at h ⊢
  cases hsim : Solver.simulateMove s.board fuel (robots i).1 (robots i).2 d robots i.val with
  | none => rw [hsim] at h; cases h
  | some p =>
    obtain ⟨nx, ny⟩ := p
    rw [hsim] at h
    simp only at h ⊢
    split at h
    · rename_i hz
      cases Option.some.inj h
      simp [hz]
    · rename_i hz
      split at h
      · rename_i hnone
        cases Option.some.inj h
        simp [hz, hnone]
      · rename_i hsome
        cases Option.some.inj h
        simp [hz, hsome]

/-- The queue plays no role in a run of jobs, and the run pushes exactly the keys it
inserted, in the order of the inserts. -/
theorem runJobs_queue {s : Solver} {fuel : Nat} :
    ∀ (ts : List Job) (q : List State) (v : Visited) (f' : Frontier) (log : List (Job × State)),
      s.runJobs fuel ts ⟨q, v⟩ = some (f', log) →
      f'.queue = q ++ log.map Prod.snd ∧
        ∀ q2, s.runJobs fuel ts ⟨q2, v⟩ = some (⟨q2 ++ log.map Prod.snd, f'.visited⟩, log) := by
  intro ts
  induction ts with
  | nil =>
    intro q v f' log h
    cases Option.some.inj h
    exact ⟨by simp, fun q2 => by simp [Solver.runJobs]⟩
  | cons t ts ih =>
    intro q v f' log h
    obtain ⟨f1, inserted, log1, h1, h2, hlog⟩ := runJobs_cons h
    obtain ⟨hq1, hind1⟩ := tryInsert_queue h1
    obtain ⟨hq', hind'⟩ := ih f1.queue f1.visited f' log1 h2
    have hkeys : log.map Prod.snd = inserted.toList ++ log1.map Prod.snd := by
      rw [hlog]; cases inserted <;> rfl
    refine ⟨by rw [hq', hq1, hkeys, List.append_assoc], fun q2 => ?_⟩
    have := runJobs_cons_some (hind1 q2) (hind' (q2 ++ inserted.toList))
    rw [this, hkeys, hlog, List.append_assoc]
    cases inserted <;> rfl

/-- The log of a run of jobs: every logged key had no record before the run and has the
record of the logged job after it; no key is logged twice; the recorded states after
the run are those recorded before and the logged keys. -/
theorem runJobs_log {s : Solver} {fuel : Nat} :
    ∀ (ts : List Job) (f f' : Frontier) (log : List (Job × State)),
      s.runJobs fuel ts f = some (f', log) →
      (∀ e, e ∈ log → f.visited e.2 = none ∧ f'.visited e.2 = some e.1.record) ∧
        (log.map Prod.snd).Nodup ∧
        ∀ st, (f'.visited st).isSome = true ↔
          ((f.visited st).isSome = true ∨ st ∈ log.map Prod.snd) := by
  intro ts
  induction ts with
  | nil =>
    intro f f' log h
    cases Option.some.inj h
    exact ⟨fun e he => absurd he (List.not_mem_nil e), List.nodup_nil, fun st => by simp⟩
  | cons t ts ih =>
    intro f f' log h
    obtain ⟨f1, inserted, log1, h1, h2, hlog⟩ := runJobs_cons h
    obtain ⟨hrec, hnodup, hdom⟩ := ih f1 f' log1 h2
    have hle' := runJobs_le ts f1 f' log1 h2
    obtain ⟨r, _, ⟨rfl, rfl, _⟩ | ⟨_, hnone, rfl, rfl⟩⟩ := tryInsert_cases h1
    · simp only at hlog
      rw [hlog]
      exact ⟨hrec, hnodup, hdom⟩
    · simp only at hlog
      rw [hlog]
      have hsame : (f.visited.insert (encode (setRobot (decode t.1) t.2.1 r)) t.record)
          (encode (setRobot (decode t.1) t.2.1 r)) = some t.record := Visited.insert_same _ _ _
      refine ⟨fun e he => ?_, ?_, fun st => ?_⟩
      · rcases List.mem_cons.mp he with rfl | he
        · exact ⟨hnone, hle' _ _ hsame⟩
        · obtain ⟨h3, h4⟩ := hrec e he
          refine ⟨?_, h4⟩
          cases hv : f.visited e.2 with
          | none => rfl
          | some rec =>
            have := Visited.le_insert (v := f.visited) t.record hnone e.2 rec hv
            have h3' : (f.visited.insert (encode (setRobot (decode t.1) t.2.1 r)) t.record) e.2
                = none := h3
            rw [this] at h3'
            cases h3'
      · rw [List.map_cons, List.nodup_cons]
        refine ⟨fun hmem => ?_, hnodup⟩
        obtain ⟨e, he, hkey⟩ := List.mem_map.mp hmem
        have h3 : (f.visited.insert (encode (setRobot (decode t.1) t.2.1 r)) t.record) e.2
            = none := (hrec e he).1
        rw [hkey, hsame] at h3
        cases h3
      · rw [hdom]
        show (Visited.insert _ _ _ st).isSome = true ∨ _ ↔ _
        by_cases hst : st = encode (setRobot (decode t.1) t.2.1 r)
        · rw [hst, Visited.insert_same]
          simp
        · rw [Visited.insert_other _ _ hst]
          simp [hst]

/-- A run of the loop of `solve` is one run of its jobs on the record map. -/
theorem parSearch_run {s : Solver} {fuel : Nat} {f : Frontier} {jobs : List Job}
    {rv : Option State × Visited} (h : s.ParSearch fuel f jobs rv) :
    ∀ q0, ∃ q log, s.runJobs fuel jobs ⟨q0, f.visited⟩ = some (⟨q, rv.2⟩, log) := by
  induction h with
  | @empty f _ => intro q0; exact ⟨q0, [], rfl⟩
  | @found f f' g ts log _ _ _ _ hrun =>
    intro q0
    exact ⟨_, log, (runJobs_queue ts [] f.visited f' log hrun).2 q0⟩
  | @next f f' ts rest log res _ _ _ hrun _ ih =>
    intro q0
    obtain ⟨q, log2, h2⟩ := ih (q0 ++ log.map Prod.snd)
    exact ⟨q, log ++ log2, runJobs_append ts rest _ _ _ log log2
      ((runJobs_queue ts [] f.visited f' log hrun).2 q0) h2⟩
/-- The search of `rightSolver` as a run of `solve`. -/
theorem rightSolver_parSearch :
    ∃ jobs res v, rightSolver.ParSearch 20
      ⟨[rightSolver.initial],
        Visited.empty.insert rightSolver.initial (sentinel rightSolver.initial)⟩ jobs (res, v) := by
  have h := rightSolver_result
  unfold Solver.solve_sequential at h
  cases hsearch : rightSolver.search 20 with
  | none => rw [hsearch] at h; cases h
  | some rv =>
    obtain ⟨res, v⟩ := rv
    obtain ⟨jobs, hj⟩ := searchLoop_parSearch 20 _ res v hsearch
    exact ⟨jobs, res, v, hj⟩

/-- Claim C25 (one discoverer per state).  In every run of `solve`, with the jobs
executed in whatever order: the run is one sequence of atomic steps on the record map;
no key is inserted twice, and none is the initial state; the key that a job inserted
has the record `{current, move}` of that job when the loop is left; the recorded
states are the initial state and the inserted keys; the states pushed on the queue are
the inserted keys, each pushed once; and a record present at any point of the run is
the same when the loop is left. -/
theorem one_discoverer_per_state (s : Solver) (fuel : Nat) (jobs : List Job)
    (res : Option State) (v : Visited)
    (hrun : s.ParSearch fuel
      ⟨[s.initial], Visited.empty.insert s.initial (sentinel s.initial)⟩ jobs (res, v)) :
    ∃ (q : List State) (log : List (Job × State)),
      s.runJobs fuel jobs ⟨[], Visited.empty.insert s.initial (sentinel s.initial)⟩
          = some (⟨q, v⟩, log) ∧
        (log.map Prod.snd).Nodup ∧
        (∀ e, e ∈ log → e.2 ≠ s.initial) ∧
        (∀ e, e ∈ log → v e.2 = some e.1.record) ∧
        (∀ st, (v st).isSome = true ↔ (st = s.initial ∨ st ∈ log.map Prod.snd)) ∧
        q = log.map Prod.snd ∧
        ∀ (ts1 ts2 : List Job) (f1 : Frontier) (log1 : List (Job × State)),
          jobs = ts1 ++ ts2 →
          s.runJobs fuel ts1 ⟨[], Visited.empty.insert s.initial (sentinel s.initial)⟩
            = some (f1, log1) →
          ∀ st r, f1.visited st = some r → v st = some r := by
  obtain ⟨q, log, hall⟩ := parSearch_run hrun []
  obtain ⟨hrec, hnodup, hdom⟩ := runJobs_log jobs _ _ log hall
  have hq := (runJobs_queue jobs [] _ _ log hall).1
  refine ⟨q, log, hall, hnodup, fun e he heq => ?_, fun e he => (hrec e he).2, fun st => ?_,
    by simpa using hq, fun ts1 ts2 f1 log1 hjobs h1 st r hr => ?_⟩
  · have h0 : (Visited.empty.insert s.initial (sentinel s.initial)) e.2 = none := (hrec e he).1
    rw [heq, Visited.insert_same] at h0
    cases h0
  · rw [hdom]
    show (Visited.insert _ _ _ st).isSome = true ∨ _ ↔ _
    by_cases hst : st = s.initial
    · rw [hst, Visited.insert_same]; simp
    · rw [Visited.insert_other _ _ hst]
      simp [Visited.empty, hst]
  · rw [hjobs] at hall
    obtain ⟨f1', log1', log2, h1', h2', -⟩ := runJobs_append_inv ts1 ts2 _ _ log hall
    rw [h1] at h1'
    simp only [Option.some.injEq, Prod.mk.injEq] at h1'
    rw [← h1'.1] at h2'
    exact runJobs_le ts2 f1 _ log2 h2' st r hr

/-- Witness of C25 on the run of `rightSolver` in which the jobs run in the order of
the queue. -/
theorem one_discoverer_per_state_witness :
    ∃ (jobs : List Job) (v : Visited) (q : List State) (log : List (Job × State)),
      rightSolver.runJobs 20 jobs
          ⟨[], Visited.empty.insert rightSolver.initial (sentinel rightSolver.initial)⟩
          = some (⟨q, v⟩, log) ∧
        (log.map Prod.snd).Nodup ∧ (∀ e, e ∈ log → v e.2 = some e.1.record) := by
  obtain ⟨jobs, res, v, hrun⟩ := rightSolver_parSearch
  obtain ⟨q, log, h1, h2, -, h3, -⟩ := one_discoverer_per_state rightSolver 20 jobs res v hrun
  exact ⟨jobs, v, q, log, h1, h2, h3⟩


/-! ## Runs picked by a schedule: the result depends on the order of the jobs -/

/-- A run picked by a schedule that permutes the jobs of every level is a run of the
loop of `solve`. -/
theorem parLoop_parSearch {s : Solver} {sched : List State → List Job} {fuel : Nat}
    (hsched : ∀ L, (sched L).Perm (levelJobs L)) :
    ∀ (n : Nat) (f : Frontier) (rv : Option State × Visited),
      s.parLoop sched fuel n f = some rv → ∃ jobs, s.ParSearch fuel f jobs rv := by
  intro n
  induction n with
  | zero => intro f rv h; simp [Solver.parLoop] at h
  | succ n ih =>
    intro f rv h
    simp only [Solver.parLoop] at h
    split at h
    · rename_i hempty
      cases Option.some.inj h
      exact ⟨[], Solver.ParSearch.empty (List.isEmpty_iff.mp hempty)⟩
    · rename_i hne
      have hne' : f.queue ≠ [] := fun h0 => hne (by rw [h0]; rfl)
      cases hfind : f.queue.find? s.checkSolution with
      | some g =>
        rw [hfind] at h
        cases Option.some.inj h
        exact ⟨[], @Solver.ParSearch.found s fuel f ⟨[], f.visited⟩ g [] []
          (List.mem_of_find?_eq_some hfind) (List.find?_some hfind)
          (fun t ht => absurd ht (List.not_mem_nil t)) (List.nil_subperm)
          (runJobs_nil s fuel ⟨[], f.visited⟩)⟩
      | none =>
        rw [hfind] at h
        simp only at h
        have hng : ∀ st, st ∈ f.queue → s.checkSolution st = false := by
          intro st hst
          have := List.find?_eq_none.mp hfind st hst
          simpa using this
        cases hrun : s.runJobs fuel (sched f.queue) ⟨[], f.visited⟩ with
        | none => rw [hrun] at h; cases h
        | some p =>
          obtain ⟨f', log⟩ := p
          rw [hrun] at h
          obtain ⟨rest, hrest⟩ := ih f' rv h
          exact ⟨sched f.queue ++ rest,
            Solver.ParSearch.next hne' hng (hsched f.queue) hrun hrest⟩

/-- The result of a run picked by a schedule that permutes the jobs of every level is a
result of `solve`. -/
theorem solveWith_parSolveResult {s : Solver} {sched : List State → List Job} {fuel : Nat}
    (hsched : ∀ L, (sched L).Perm (levelJobs L)) {moves : List Move}
    (h : s.solveWith sched fuel = some moves) : s.ParSolveResult moves := by
  unfold Solver.solveWith at h
  cases hloop : s.parLoop sched fuel fuel
      ⟨[s.initial], Visited.empty.insert s.initial (sentinel s.initial)⟩ with
  | none => rw [hloop] at h; cases h
  | some rv =>
    obtain ⟨res, v⟩ := rv
    rw [hloop] at h
    obtain ⟨jobs, hpar⟩ := parLoop_parSearch hsched fuel _ (res, v) hloop
    refine ⟨fuel, jobs, res, v, hpar, ?_⟩
    cases res with
    | none => exact h
    | some st => exact h

theorem cornerSolver_result :
    cornerSolver.solve_sequential 40 = some [⟨0, .DOWN⟩, ⟨0, .RIGHT⟩] := by
  decide!

theorem cornerSolver_reversed :
    cornerSolver.solveWith (fun L => levelJobs L.reverse) 40
      = some [⟨0, .RIGHT⟩, ⟨0, .DOWN⟩] := by
  decide!

/-- Two runs of `solve` on `cornerBoard` return different sequences of the same length:
when the jobs of the states of a level run in the order of the queue the result is
"robot 0 DOWN, robot 0 RIGHT", as for `solve_sequential`; when they run in the opposite
order of the states it is "robot 0 RIGHT, robot 0 DOWN". -/
theorem solve_runs_differ :
    cornerSolver.SolveResult [⟨0, .DOWN⟩, ⟨0, .RIGHT⟩] ∧
      cornerSolver.ParSolveResult [⟨0, .DOWN⟩, ⟨0, .RIGHT⟩] ∧
      cornerSolver.ParSolveResult [⟨0, .RIGHT⟩, ⟨0, .DOWN⟩] :=
  ⟨⟨40, cornerSolver_result⟩, solveResult_parSolveResult ⟨40, cornerSolver_result⟩,
    solveWith_parSolveResult
      (fun L => by unfold levelJobs; exact List.Perm.flatMap_right _ (List.reverse_perm L))
      cornerSolver_reversed⟩

theorem addWall_diagonalWalls (b : Board) (x y : Int) (d : Direction) :
    (b.addWall x y d).1.diagonalWalls = b.diagonalWalls := by
  unfold Board.addWall
  cases b.validateCoordinates x y with
  | some e => rfl
  | none => simp only; split <;> rfl

theorem addWalls_diagonalWalls (ws : List (Int × Int × Direction)) :
    ∀ b : Board, (b.addWalls ws).diagonalWalls = b.diagonalWalls := by
  induction ws with
  | nil => intro b; rfl
  | cons w ws ih =>
    intro b
    exact (ih (b.addWall w.1 w.2.1 w.2.2).1).trans (addWall_diagonalWalls b _ _ _)

theorem cornerBoard_no_deflector (x y : Int) : cornerBoard.diagonalWalls x y = none := by
  unfold cornerBoard
  rw [addWalls_diagonalWalls]
  rfl

theorem cornerSolver_board : cornerSolver.board = cornerBoard := by
  unfold cornerSolver
  simp only

theorem cornerBoard_slides (c : Robots) (i : Fin 5) (d : Direction) :
    ∃ r, Solver.SlideResult cornerSolver.board (c i).1 (c i).2 d c i.val r := by
  rw [cornerSolver_board]
  exact slidesTerminate_of_no_deflector cornerBoard_no_deflector c i.val _ _ d

/-- Witness of C24 on `cornerSolver`: `solve` has a run that returns, and every run that
returns gives two moves, as `solve_sequential` does. -/
theorem engines_agree_on_length_witness :
    (∃ mp, cornerSolver.ParSolveResult mp) ∧
      ∀ mp, cornerSolver.ParSolveResult mp → mp.length = 2 :=
  ⟨(engines_agree_on_length cornerSolver (fun c i d _ => cornerBoard_slides c i d)).2.1,
    fun mp hp =>
      (engines_agree_on_length cornerSolver (fun c i d _ => cornerBoard_slides c i d)).2.2
        mp [⟨0, .DOWN⟩, ⟨0, .RIGHT⟩] hp ⟨40, cornerSolver_result⟩⟩

end Ricochet
